import Mathlib

/-!
Verification development for the EoN epidemic-simulation engine
(`EoN/simulation.py`): the event queue, the randomized-set structure,
the event-driven SIR/SIS engines and the Gillespie SIR/SIS engines.

Times are modelled as rationals; the value `float('Inf')` used by the
source for default horizons and default predicted-infection times is
modelled by `⊤ : WithTop ℚ`.  Randomness is modelled by explicit oracle
arguments: every call the source makes to `random.random`,
`random.expovariate`, `random.randint` or `random.choice` consumes an
explicitly passed value instead.
-/

namespace EoN

/-- Time extended with infinity, as used for `tmax=float('Inf')` and
`pred_inf_time` defaulting to infinity. -/
abbrev QI := WithTop ℚ

/-- Python runtime errors and the library's own `EoNError`, as they can be
raised by the modelled code. -/
inductive SimErr
  | keyError            -- dict.pop on a missing key
  | indexError          -- heappop/choice/`[-1]` on an empty list
  | nameError           -- loop variable used after a zero-iteration `for`
  | assertionError      -- a failing `assert`
  | valueError          -- `random.randint` on an empty range
  | zeroDivisionError   -- `random.expovariate(0)`
  | eonError            -- `EoN.EoNError` configuration error
deriving DecidableEq, Repr

/-! ### `_ListDict_` (simulation.py lines 62-99)

`item_to_position` is the index of each item in `items`; only the `items`
list is carried, positions are recomputed.  `remove` pops the position of
the item (KeyError when absent), pops the last element of `items` and, when
the removed position is not the popped position, writes the old last
element into the removed position — `List.set` out of range is a no-op,
which coincides with the source's `if position != len(self.items)` guard. -/

structure ListDict where
  items : List Nat
deriving DecidableEq, Repr

namespace ListDict

def empty : ListDict := ⟨[]⟩

def add (ld : ListDict) (item : Nat) : ListDict :=
  if item ∈ ld.items then ld else ⟨ld.items ++ [item]⟩

def remove (ld : ListDict) (item : Nat) : Except SimErr ListDict :=
  match ld.items.findIdx? (fun y => y == item) with
  | none => .error .keyError
  | some position =>
      match ld.items.getLast? with
      | none => .error .keyError
      | some last_item => .ok ⟨(ld.items.dropLast).set position last_item⟩

/-- `random.choice(self.items)`; the random index is the oracle `k`. -/
def choose_random (ld : ListDict) (k : Nat) : Except SimErr Nat :=
  if h : ld.items.length = 0 then .error .indexError
  else .ok (ld.items.get ⟨k % ld.items.length, Nat.mod_lt _ (Nat.pos_of_ne_zero h)⟩)

def size (ld : ListDict) : Nat := ld.items.length

end ListDict

/-! ### `myQueue` (simulation.py lines 25-59)

The heap is modelled as the multiset of its entries `(time, counter, event)`;
`heappush` appends and `heappop` extracts the entry with the least
`(time, counter)` key.  The callback+args pair of the source is the abstract
event payload `E`. -/

structure myQueue (E : Type) where
  Q : List (ℚ × Nat × E)
  tmax : QI
  counter : Nat

namespace myQueue

def init (E : Type) (tmax : QI) : myQueue E := ⟨[], tmax, 0⟩

/-- `add`: `if time < self.tmax: heappush(...); self.counter += 1` -/
def add (q : myQueue E) (time : ℚ) (ev : E) : myQueue E :=
  if (time : QI) < q.tmax then
    { q with Q := q.Q ++ [(time, q.counter, ev)], counter := q.counter + 1 }
  else q

/-- strict order on heap keys `(time, counter)` -/
def keyLt (a b : ℚ × Nat × E) : Prop := a.1 < b.1 ∨ (a.1 = b.1 ∧ a.2.1 < b.2.1)

instance : DecidableRel (keyLt (E := E)) := fun a b => by
  unfold keyLt; infer_instance

/-- extract the minimum-key entry (the effect of `heappop`) -/
def extractMin : List (ℚ × Nat × E) → Option ((ℚ × Nat × E) × List (ℚ × Nat × E))
  | [] => none
  | x :: xs =>
      match extractMin xs with
      | none => some (x, [])
      | some (m, rest) => if keyLt m x then some (m, x :: rest) else some (x, xs)

/-- `pop_and_run` pops; popping an empty heap is an IndexError.  The caller
dispatches on the returned event. -/
def pop (q : myQueue E) : Except SimErr ((ℚ × Nat × E) × myQueue E) :=
  match extractMin q.Q with
  | none => .error .indexError
  | some (m, rest) => .ok (m, { q with Q := rest })

end myQueue

/-! ### Node status and graphs -/

/-- `status[node]` values `'S'`, `'I'`, `'R'`. -/
inductive Status
  | S | I | R
deriving DecidableEq, Repr

/-- An undirected graph on nodes `0, …, n-1`, the read-only collaborator:
the engine only needs `G.order()` and `G.neighbors(v)`. -/
structure Graph where
  n : Nat
  adj : Nat → Nat → Bool

namespace Graph

def neighbors (G : Graph) (v : Nat) : List Nat :=
  (List.range G.n).filter (fun w => G.adj v w)

/-- networkx graphs are undirected. -/
def Symm (G : Graph) : Prop := ∀ u v, G.adj u v = G.adj v u

end Graph

/-! ### Configuration checks of the top-level entry points

Each definition below is the `initial_infecteds`/`rho` validation prelude of
one entry point, evaluated before any simulation state is built: `true`
means the call raises `EoNError("cannot define both initial_infecteds and rho")`.
The first five (lines 289, 494, 2306, 2799, 2953) test
`rho is not None and initial_infecteds is not None`; `fast_nonMarkov_SIR`
(line 1854) and `fast_nonMarkov_SIS` (line 2453) test the *truthiness*
`rho and initial_infecteds`; `fast_SIR` has no check of its own and passes
its arguments unchanged to `fast_nonMarkov_SIR` (lines 1640-1663). -/

/-- Python truthiness of the optional number `rho` (`None` and `0` are falsy). -/
def truthyRho : Option ℚ → Bool
  | none => false
  | some q => q != 0

/-- Python truthiness of the optional node collection (`None` and `[]` are falsy). -/
def truthyNodes : Option (List Nat) → Bool
  | none => false
  | some l => !l.isEmpty

def discrete_SIR_raises (rho : Option ℚ) (initial_infecteds : Option (List Nat)) : Bool :=
  rho.isSome && initial_infecteds.isSome

def basic_discrete_SIS_raises (rho : Option ℚ) (initial_infecteds : Option (List Nat)) : Bool :=
  rho.isSome && initial_infecteds.isSome

def fast_SIS_raises (rho : Option ℚ) (initial_infecteds : Option (List Nat)) : Bool :=
  rho.isSome && initial_infecteds.isSome

def Gillespie_SIR_raises (rho : Option ℚ) (initial_infecteds : Option (List Nat)) : Bool :=
  rho.isSome && initial_infecteds.isSome

def Gillespie_SIS_raises (rho : Option ℚ) (initial_infecteds : Option (List Nat)) : Bool :=
  rho.isSome && initial_infecteds.isSome

def fast_nonMarkov_SIR_raises (rho : Option ℚ) (initial_infecteds : Option (List Nat)) : Bool :=
  truthyRho rho && truthyNodes initial_infecteds

def fast_nonMarkov_SIS_raises (rho : Option ℚ) (initial_infecteds : Option (List Nat)) : Bool :=
  truthyRho rho && truthyNodes initial_infecteds

def fast_SIR_raises (rho : Option ℚ) (initial_infecteds : Option (List Nat)) : Bool :=
  fast_nonMarkov_SIR_raises rho initial_infecteds

/-! ### Event-driven SIR engine (`fast_nonMarkov_SIR`, lines 1397-1968)

Queue events name the callback and its node argument; the remaining
arguments of the source callbacks are the shared mutable state carried in
`EDState`.  The user-pluggable `trans_and_rec_time_fxn` is the parameter
`tif : node → susceptible neighbors → (transmission-delay list, recovery delay)`;
since an SIR node is infected at most once, every random execution of the
source corresponds to some choice of `tif`.

`log` and `snap` are ghost instrumentation: `log` records which handler
fired for each appended row, `snap` records the true status census
immediately after the event.  Neither influences the computation. -/

/-- Which handler appended a recorded row. -/
inductive Act
  | inf    -- S→I (a transmission handler)
  | recR   -- I→R (SIR recovery handler)
  | recS   -- I→S (SIS recovery handler)
deriving DecidableEq, Repr

inductive EDEvent
  | trans (v : Nat)
  | recover (v : Nat)
deriving DecidableEq, Repr

structure EDState where
  Q : myQueue EDEvent
  status : Nat → Status
  rec_time : Nat → ℚ
  pred_inf_time : Nat → QI
  times : List ℚ
  S : List ℤ
  I : List ℤ
  R : List ℤ
  log : List Act                  -- ghost
  snap : List (ℤ × ℤ × ℤ)         -- ghost

/-- `L.append(L[-1]+d)`; `L[-1]` on an empty list is an IndexError. -/
def appendLast (l : List ℤ) (d : ℤ) : Except SimErr (List ℤ) :=
  match l.getLast? with
  | none => .error .indexError
  | some x => .ok (l ++ [x + d])

/-- The true status census of the graph's nodes under a status map. -/
def census (G : Graph) (status : Nat → Status) : ℤ × ℤ × ℤ :=
  (((List.range G.n).filter (fun v => status v = .S)).length,
   ((List.range G.n).filter (fun v => status v = .I)).length,
   ((List.range G.n).filter (fun v => status v = .R)).length)

/-- The body of the neighbor loop of `_process_trans_SIR_` (lines 1467-1477):
for one `(v, delay)` pair, compute the candidate infection time, schedule the
transmission attempt when it is at most the source's recovery time, strictly
earlier than `pred_inf_time[v]` and at most the horizon (the inner
`myQueue.add` additionally requires it to be strictly below the horizon),
and record the new predicted infection time when scheduled. -/
def transSIRstep (tmax : QI) (time : ℚ) (rec_t : ℚ)
    (acc : myQueue EDEvent × (Nat → QI)) (vd : Nat × ℚ) :
    myQueue EDEvent × (Nat → QI) :=
  let inf_time := time + vd.2
  if inf_time ≤ rec_t ∧ (inf_time : QI) < acc.2 vd.1 ∧ (inf_time : QI) ≤ tmax then
    (acc.1.add inf_time (.trans vd.1), Function.update acc.2 vd.1 (inf_time : QI))
  else acc

/-- `_process_trans_SIR_` (lines 1397-1477). -/
def process_trans_SIR (G : Graph) (tif : Nat → List Nat → List (Nat × ℚ) × ℚ)
    (time : ℚ) (node : Nat) (st : EDState) : Except SimErr EDState := do
  if st.status node = .S then
    let status' := Function.update st.status node .I
    let times' := st.times ++ [time]
    let S' ← appendLast st.S (-1)
    let I' ← appendLast st.I 1
    let R' ← appendLast st.R 0
    let suscep_neighbors := (G.neighbors node).filter (fun v => status' v = .S)
    let (trans_delay, rec_delay) := tif node suscep_neighbors
    let rec_time' := Function.update st.rec_time node (time + rec_delay)
    let Q1 := if (rec_time' node : QI) ≤ st.Q.tmax
              then st.Q.add (rec_time' node) (.recover node) else st.Q
    let (Q2, pred') := trans_delay.foldl
      (transSIRstep st.Q.tmax time (rec_time' node)) (Q1, st.pred_inf_time)
    pure { st with Q := Q2, status := status', rec_time := rec_time',
                   pred_inf_time := pred', times := times', S := S', I := I', R := R',
                   log := st.log ++ [.inf], snap := st.snap ++ [census G status'] }
  else
    pure st

/-- `_process_rec_SIR_` (lines 1479-1511). -/
def process_rec_SIR (G : Graph) (time : ℚ) (node : Nat) (st : EDState) :
    Except SimErr EDState := do
  let times' := st.times ++ [time]
  let S' ← appendLast st.S 0
  let I' ← appendLast st.I (-1)
  let R' ← appendLast st.R 1
  let status' := Function.update st.status node .R
  pure { st with status := status', times := times', S := S', I := I', R := R',
                 log := st.log ++ [.recR], snap := st.snap ++ [census G status'] }

/-- One pass of the drain loop `while Q: Q.pop_and_run()`. -/
def edStepSIR (G : Graph) (tif : Nat → List Nat → List (Nat × ℚ) × ℚ)
    (st : EDState) : Except SimErr EDState := do
  let ((t, _, ev), Q') ← st.Q.pop
  let st := { st with Q := Q' }
  match ev with
  | .trans v => process_trans_SIR G tif t v st
  | .recover v => process_rec_SIR G t v st

def edRunSIR (G : Graph) (tif : Nat → List Nat → List (Nat × ℚ) × ℚ) :
    Nat → EDState → Except SimErr EDState
  | 0, st => pure st
  | fuel + 1, st =>
      if st.Q.Q.isEmpty then pure st
      else do edRunSIR G tif fuel (← edStepSIR G tif st)

/-- The result table of a run: event times, S/I/R counts, and the ghost
action log and census snapshots. -/
structure RunTable where
  times : List ℚ
  S : List ℤ
  I : List ℤ
  R : List ℤ
  log : List Act
  snap : List (ℤ × ℤ × ℤ)
deriving DecidableEq, Repr

/-- `fast_nonMarkov_SIR` (lines 1667-1968), for the supported `Q=None` path.
`sampleOracle` stands for the `random.sample` draw used when
`initial_infecteds is None`.  `fuel` bounds the drain loop; the run returns
the table accumulated so far when it runs out, so every theorem about the
output holds for every prefix of a longer run. -/
def fastNonMarkovSIR (G : Graph) (tif : Nat → List Nat → List (Nat × ℚ) × ℚ)
    (initial_infecteds : Option (List Nat)) (initial_recovereds : Option (List Nat))
    (rho : Option ℚ) (sampleOracle : List Nat) (tmin : ℚ) (tmax : QI)
    (fuel : Nat) : Except SimErr RunTable := do
  if fast_nonMarkov_SIR_raises rho initial_infecteds then throw .eonError
  if truthyRho rho && truthyNodes initial_recovereds then throw .eonError
  let status0 := (initial_recovereds.getD []).foldl
      (fun st v => Function.update st v Status.R) (fun _ => Status.S)
  let rec_time0 : Nat → ℚ := fun _ => tmin - 1
  let pred0 : Nat → QI := fun _ => ⊤
  let initI := initial_infecteds.getD sampleOracle
  let (Q0, pred1) := initI.foldl
      (fun (acc : myQueue EDEvent × (Nat → QI)) u =>
        (acc.1.add tmin (.trans u), Function.update acc.2 u (tmin : QI)))
      (myQueue.init EDEvent tmax, pred0)
  let st0 : EDState :=
    { Q := Q0, status := status0, rec_time := rec_time0, pred_inf_time := pred1,
      times := [tmin], S := [(G.n : ℤ)], I := [0], R := [0], log := [],
      snap := [census G status0] }
  let st ← edRunSIR G tif fuel st0
  pure { times := st.times.drop initI.length, S := st.S.drop initI.length,
         I := st.I.drop initI.length, R := st.R.drop initI.length,
         log := st.log.drop initI.length, snap := st.snap.drop initI.length }

/-! ### Event-driven SIS engine (`fast_nonMarkov_SIS`, lines 1971-2512)

Transmission events carry the `future_transmissions` candidate list; the
joint delay function returns, per neighbor, a *list* of delays.  The source
looks the neighbor up in a dict built over all of `G.neighbors(target)`, so
the delay map is modelled as a total function. -/

inductive SISEvent
  | trans (target : Nat) (future : List ℚ)
  | recover (v : Nat)
deriving DecidableEq, Repr

structure SISState where
  Q : myQueue SISEvent
  status : Nat → Status
  rec_time : Nat → ℚ
  times : List ℚ
  S : List ℤ
  I : List ℤ
  log : List Act                  -- ghost
  snap : List (ℤ × ℤ × ℤ)         -- ghost

/-- The per-neighbor body of the scheduling loop of
`_process_trans_SIS_nonMarkov_` (lines 2135-2148). -/
def sisTransStep (time : ℚ) (trans_delays : Nat → List ℚ)
    (status' : Nat → Status) (rec_time' : Nat → ℚ)
    (Q : myQueue SISEvent) (v : Nat) : myQueue SISEvent :=
  if trans_delays v ≠ [] then
    let trans_times := (trans_delays v).map (fun td => time + td)
    let trans_times := if status' v = .I
      then trans_times.filter (fun t => rec_time' v < t) else trans_times
    match trans_times with
    | [] => Q
    | t0 :: following => Q.add t0 (.trans v following)
  else Q

/-- `_process_trans_SIS_nonMarkov_` (lines 2067-2151). -/
def process_trans_SIS_nonMarkov (G : Graph)
    (tif : Nat → List Nat → (Nat → List ℚ) × ℚ)
    (time : ℚ) (target : Nat) (future_transmissions : List ℚ)
    (st : SISState) : Except SimErr SISState := do
  let st ←
    if st.status target = .S then do
      let status' := Function.update st.status target .I
      let times' := st.times ++ [time]
      let I' ← appendLast st.I 1
      let S' ← appendLast st.S (-1)
      let (trans_delays, rec_delay) := tif target (G.neighbors target)
      let rec_time' := Function.update st.rec_time target (time + rec_delay)
      let Q1 := if (rec_time' target : QI) < st.Q.tmax
                then st.Q.add (rec_time' target) (.recover target) else st.Q
      let Q2 := (G.neighbors target).foldl
        (sisTransStep time trans_delays status' rec_time') Q1
      pure { st with Q := Q2, status := status', rec_time := rec_time',
                     times := times', S := S', I := I',
                     log := st.log ++ [.inf], snap := st.snap ++ [census G status'] }
    else
      pure st
  -- target is definitely infected now; re-arm its stored future transmissions
  let trans_times := future_transmissions.filter (fun t => st.rec_time target < t)
  match trans_times with
  | [] => pure st
  | t0 :: following => pure { st with Q := st.Q.add t0 (.trans target following) }

/-- `_process_rec_SIS_` (lines 2210-2220). -/
def process_rec_SIS (G : Graph) (time : ℚ) (node : Nat) (st : SISState) :
    Except SimErr SISState := do
  let times' := st.times ++ [time]
  let S' ← appendLast st.S 1
  let I' ← appendLast st.I (-1)
  let status' := Function.update st.status node .S
  pure { st with status := status', times := times', S := S', I := I',
                 log := st.log ++ [.recS], snap := st.snap ++ [census G status'] }

def edStepSIS (G : Graph) (tif : Nat → List Nat → (Nat → List ℚ) × ℚ)
    (st : SISState) : Except SimErr SISState := do
  let ((t, _, ev), Q') ← st.Q.pop
  let st := { st with Q := Q' }
  match ev with
  | .trans v future => process_trans_SIS_nonMarkov G tif t v future st
  | .recover v => process_rec_SIS G t v st

def edRunSIS (G : Graph) (tif : Nat → List Nat → (Nat → List ℚ) × ℚ) :
    Nat → SISState → Except SimErr SISState
  | 0, st => pure st
  | fuel + 1, st =>
      if st.Q.Q.isEmpty then pure st
      else do edRunSIS G tif fuel (← edStepSIS G tif st)

/-- SIS result table: no R column. -/
structure SISTable where
  times : List ℚ
  S : List ℤ
  I : List ℤ
  log : List Act
  snap : List (ℤ × ℤ × ℤ)
deriving DecidableEq, Repr

/-- `fast_nonMarkov_SIS` (lines 2357-2512). -/
def fastNonMarkovSIS (G : Graph) (tif : Nat → List Nat → (Nat → List ℚ) × ℚ)
    (initial_infecteds : Option (List Nat)) (rho : Option ℚ)
    (sampleOracle : List Nat) (tmin : ℚ) (tmax : QI)
    (fuel : Nat) : Except SimErr SISTable := do
  if fast_nonMarkov_SIS_raises rho initial_infecteds then throw .eonError
  let initI := initial_infecteds.getD sampleOracle
  let Q0 := initI.foldl (fun (Q : myQueue SISEvent) u => Q.add tmin (.trans u []))
      (myQueue.init SISEvent tmax)
  let st0 : SISState :=
    { Q := Q0, status := fun _ => Status.S, rec_time := fun _ => tmin - 1,
      times := [tmin], S := [(G.n : ℤ)], I := [0], log := [],
      snap := [census G (fun _ => Status.S)] }
  let st ← edRunSIS G tif fuel st0
  pure { times := st.times.drop initI.length, S := st.S.drop initI.length,
         I := st.I.drop initI.length, log := st.log.drop initI.length,
         snap := st.snap.drop initI.length }

/-! ### Gillespie engine (lines 2518-3012)

`risk_group` is a `defaultdict` of `_ListDict_`; a Python dict is an
insertion-ordered association list with unique keys, and iteration
(`risk_group.keys()`) follows that order, so it is modelled as
`List (Nat × ListDict)`.  All random draws are oracle arguments: `u1` for
the branch draw `random.random()*total_rate`, `idx` for
`random.randint(0, I[-1]-1)`, `u2` for the `random.random()` inside
`_Gillespie_infect_`, `pick` for `random.choice`, `dt` for
`random.expovariate(total_rate)`. -/

def riskGet (risk : List (Nat × ListDict)) (k : Nat) : ListDict :=
  (risk.lookup k).getD ListDict.empty

def riskSet : List (Nat × ListDict) → Nat → ListDict → List (Nat × ListDict)
  | [], k, b => [(k, b)]
  | (k', b') :: rest, k, b =>
      if k' = k then (k, b) :: rest else (k', b') :: riskSet rest k b

/-- `sum(n*len(risk_group[n]) for n in risk_group.keys())` -/
def totalW (risk : List (Nat × ListDict)) : ℚ :=
  (risk.map (fun kb => (kb.1 : ℚ) * (kb.2.items.length : ℚ))).sum

/-- The linear weighted scan of `_Gillespie_infect_` (lines 2600-2604):
`for n in risk_group.keys(): r -= n*len(risk_group[n]); if r<0: break`.
After a `for` that never breaks, Python leaves `n` bound to the last key;
`none` is the NameError of a keyless dict. -/
def scanRisk : List (Nat × ListDict) → ℚ → Option Nat → Option Nat
  | [], _, last => last
  | (k, b) :: rest, r, _ =>
      let r' := r - (k : ℚ) * (b.items.length : ℚ)
      if r' < 0 then some k else scanRisk rest r' (some k)

structure GState where
  times : List ℚ
  S : List ℤ
  I : List ℤ
  R : List ℤ
  status : Nat → Status
  infected : List Nat
  inc : Nat → Nat                   -- infected_neighbor_count
  risk : List (Nat × ListDict)      -- risk_group
  log : List Act                    -- ghost
  snap : List (ℤ × ℤ × ℤ)           -- ghost

/-- `random.expovariate(rate)`: ZeroDivisionError when the rate is zero,
otherwise the oracle value. -/
def expovariate (rate : ℚ) (dt : ℚ) : Except SimErr ℚ :=
  if rate = 0 then .error .zeroDivisionError else .ok dt

/-- The body of the neighbor loop of `_Gillespie_infect_` (lines 2626-2631):
a still-susceptible neighbor moves from its current bucket (when tracked) to
the bucket one risk level up. -/
def infectNbrStep (status' : Nat → Status)
    (acc : (Nat → Nat) × List (Nat × ListDict)) (v : Nat) :
    Except SimErr ((Nat → Nat) × List (Nat × ListDict)) := do
  if status' v = .S then
    let (inc, risk) := acc
    let risk ←
      if inc v > 0 then do
        let bb ← (riskGet risk (inc v)).remove v
        pure (riskSet risk (inc v) bb)
      else pure risk
    let inc2 := Function.update inc v (inc v + 1)
    pure (inc2, riskSet risk (inc2 v) ((riskGet risk (inc2 v)).add v))
  else pure acc

/-- `_Gillespie_infect_` (lines 2579-2631). -/
def Gillespie_infect (G : Graph) (u2 : ℚ) (pick : Nat) (current_time : ℚ)
    (sir : Bool) (st : GState) : Except SimErr GState := do
  let r := u2 * totalW st.risk
  match scanRisk st.risk r none with
  | none => throw .nameError
  | some n => do
    let recipient ← (riskGet st.risk n).choose_random pick
    if st.status recipient = .S then pure () else throw .assertionError
    let b' ← (riskGet st.risk n).remove recipient
    let risk1 := riskSet st.risk n b'
    let infected' := st.infected ++ [recipient]
    let status' := Function.update st.status recipient .I
    let S' ← appendLast st.S (-1)
    let I' ← appendLast st.I 1
    let times' := st.times ++ [current_time]
    let R' ← if sir then appendLast st.R 0 else pure st.R
    let incrisk ← (G.neighbors recipient).foldlM (infectNbrStep status')
      (st.inc, risk1)
    pure { st with times := times', S := S', I := I', R := R', status := status',
                   infected := infected', inc := incrisk.1, risk := incrisk.2,
                   log := st.log ++ [.inf], snap := st.snap ++ [census G status'] }

/-- The body of the neighbor loop of `_Gillespie_recover_SIR_`
(lines 2650-2656): a susceptible neighbor's risk just got smaller, so it is
removed from its bucket, its count decremented, and re-inserted one level
down unless the count reached zero.  The same update is the final branch of
`_Gillespie_recover_SIS_`'s loop (lines 2686-2690). -/
def decrNbrStep (status' : Nat → Status)
    (acc : (Nat → Nat) × List (Nat × ListDict)) (v : Nat) :
    Except SimErr ((Nat → Nat) × List (Nat × ListDict)) := do
  if status' v = .S then
    let (inc, risk) := acc
    let bb ← (riskGet risk (inc v)).remove v
    let risk := riskSet risk (inc v) bb
    let inc2 := Function.update inc v (inc v - 1)
    if inc2 v > 0 then
      pure (inc2, riskSet risk (inc2 v) ((riskGet risk (inc2 v)).add v))
    else pure (inc2, risk)
  else pure acc

/-- The body of the neighbor loop of `_Gillespie_recover_SIS_`
(lines 2679-2690): self-loops are skipped, infected neighbors bump the
recovering node's own count, susceptible neighbors get the same decrement
as in the SIR case. -/
def recoverSISNbrStep (recovering : Nat) (status' : Nat → Status)
    (acc : (Nat → Nat) × List (Nat × ListDict)) (v : Nat) :
    Except SimErr ((Nat → Nat) × List (Nat × ListDict)) := do
  if v = recovering then pure acc    -- deals with selfloops
  else if status' v = .I then
    pure (Function.update acc.1 recovering (acc.1 recovering + 1), acc.2)
  else decrNbrStep status' acc v

/-- The body of the double loop of `_Gillespie_initialize_SIR_` and
`_Gillespie_initialize_SIS_` (lines 2537-2544, 2565-2572): an infected
node's susceptible neighbor has its count incremented and is moved up one
bucket (removed from the previous bucket when the new count exceeds 1). -/
def initNbrStep (status1 : Nat → Status)
    (acc : (Nat → Nat) × List (Nat × ListDict)) (v : Nat) :
    Except SimErr ((Nat → Nat) × List (Nat × ListDict)) := do
  if status1 v = .S then
    let (inc, risk) := acc
    let inc2 := Function.update inc v (inc v + 1)
    let risk ←
      if inc2 v > 1 then do
        let bb ← (riskGet risk (inc2 v - 1)).remove v
        pure (riskSet risk (inc2 v - 1) bb)
      else pure risk
    pure (inc2, riskSet risk (inc2 v) ((riskGet risk (inc2 v)).add v))
  else pure acc

/-- swap-and-pop of `infected` shared by both recovery handlers:
`infected[index], infected[-1] = infected[-1], infected[index]`,
`recovering_node = infected.pop()`. -/
def swapPop (infected : List Nat) (index : Nat) : Except SimErr (Nat × List Nat) :=
  if hlt : index < infected.length then
    match infected.getLast? with
    | none => .error .indexError
    | some last => .ok (infected.get ⟨index, hlt⟩, (infected.set index last).dropLast)
  else .error .indexError

/-- `_Gillespie_recover_SIR_` (lines 2635-2658). -/
def Gillespie_recover_SIR (G : Graph) (idx : Nat) (current_time : ℚ)
    (st : GState) : Except SimErr GState := do
  let iLast ← (match st.I.getLast? with
    | none => throw SimErr.indexError
    | some x => pure x)
  if iLast ≤ 0 then throw .valueError   -- random.randint(0, I[-1]-1) on an empty range
  let index := idx % iLast.toNat
  let (recovering, infected') ← swapPop st.infected index
  let I' ← appendLast st.I (-1)
  let status' := Function.update st.status recovering .R
  let S' ← appendLast st.S 0
  let R' ← appendLast st.R 1
  let times' := st.times ++ [current_time]
  let incrisk ← (G.neighbors recovering).foldlM (decrNbrStep status')
    (st.inc, st.risk)
  pure { st with times := times', S := S', I := I', R := R', status := status',
                 infected := infected', inc := incrisk.1, risk := incrisk.2,
                 log := st.log ++ [.recR], snap := st.snap ++ [census G status'] }

/-- `_Gillespie_recover_SIS_` (lines 2660-2695). -/
def Gillespie_recover_SIS (G : Graph) (idx : Nat) (current_time : ℚ)
    (st : GState) : Except SimErr GState := do
  let iLast ← (match st.I.getLast? with
    | none => throw SimErr.indexError
    | some x => pure x)
  if iLast = (st.infected.length : ℤ) then pure () else throw .assertionError
  if iLast ≤ 0 then throw .valueError
  let index := idx % iLast.toNat
  let (recovering, infected') ← swapPop st.infected index
  let I' ← appendLast st.I (-1)
  let status' := Function.update st.status recovering .S
  let S' ← appendLast st.S 1
  let times' := st.times ++ [current_time]
  let inc0 := Function.update st.inc recovering 0
  let incrisk ← (G.neighbors recovering).foldlM
    (recoverSISNbrStep recovering status') (inc0, st.risk)
  let risk2 :=
    if incrisk.1 recovering > 0 then
      riskSet incrisk.2 (incrisk.1 recovering)
        ((riskGet incrisk.2 (incrisk.1 recovering)).add recovering)
    else incrisk.2
  pure { st with times := times', S := S', I := I', status := status',
                 infected := infected', inc := incrisk.1, risk := risk2,
                 log := st.log ++ [.recS], snap := st.snap ++ [census G status'] }

/-- `_Gillespie_initialize_SIR_` (lines 2518-2550). -/
def Gillespie_initialize_SIR (G : Graph) (initI initR : List Nat) (tmin : ℚ) :
    Except SimErr GState := do
  let status0 := initI.foldl (fun s v => Function.update s v Status.I) (fun _ => Status.S)
  let status1 := initR.foldl (fun s v => Function.update s v Status.R) status0
  let incrisk ← initI.foldlM
    (fun acc node => (G.neighbors node).foldlM (initNbrStep status1) acc)
    ((fun _ => 0), ([] : List (Nat × ListDict)))
  pure { times := [tmin], S := [(G.n : ℤ) - initI.length], I := [(initI.length : ℤ)],
         R := [0], status := status1, infected := initI, inc := incrisk.1,
         risk := incrisk.2, log := [], snap := [census G status1] }

/-- `_Gillespie_initialize_SIS_` (lines 2553-2577). -/
def Gillespie_initialize_SIS (G : Graph) (initI : List Nat) (tmin : ℚ) :
    Except SimErr GState := do
  let status0 := initI.foldl (fun s v => Function.update s v Status.I) (fun _ => Status.S)
  let incrisk ← initI.foldlM
    (fun acc node => (G.neighbors node).foldlM (initNbrStep status0) acc)
    ((fun _ => 0), ([] : List (Nat × ListDict)))
  pure { times := [tmin], S := [(G.n : ℤ) - initI.length], I := [(initI.length : ℤ)],
         R := [], status := status0, infected := initI, inc := incrisk.1,
         risk := incrisk.2, log := [], snap := [census G status0] }

/-- One loop iteration's random draws. -/
structure GOracle where
  u1 : ℚ
  idx : Nat
  u2 : ℚ
  pick : Nat
  dt : ℚ
deriving DecidableEq, Repr

/-- The `Gillespie_SIR` main loop (lines 2830-2848).  `trr` is the
loop-carried `total_rec_rate` (recomputed only in the recovery branch) and
`total_rate` the value fixed at the end of the previous iteration.  When
the oracle list runs out mid-loop the state reached so far is returned;
when the loop guard fails the unconsumed oracle suffix is returned with it. -/
def GillespieSIRloop (G : Graph) (tau gamma : ℚ) (tmax : QI) :
    List GOracle → GState → ℚ → ℚ → QI → Except SimErr (GState × List GOracle)
  | [], st, _, _, _ => .ok (st, [])
  | o :: rest, st, trr, total_rate, next_time =>
    if next_time < tmax ∧ st.infected ≠ [] then do
        let nt ← (match next_time with
          | some t => pure t
          | none => throw SimErr.indexError)   -- unreachable: next_time < tmax rules out ⊤
        let r := o.u1 * total_rate
        let strr ←
          if r < trr then do
            let st' ← Gillespie_recover_SIR G o.idx nt st
            let iLast ← (match st'.I.getLast? with
              | some x => pure x
              | none => throw SimErr.indexError)
            pure (st', gamma * (iLast : ℚ))
          else do
            let st' ← Gillespie_infect G o.u2 o.pick nt true st
            pure (st', trr)
        let total_trans_rate := tau * totalW strr.1.risk
        let total' := strr.2 + total_trans_rate
        let next' : QI := if total' > 0 then ((nt + o.dt : ℚ) : QI) else next_time
        GillespieSIRloop G tau gamma tmax rest strr.1 strr.2 total' next'
    else .ok (st, o :: rest)

/-- The `Gillespie_SIS` main loop (lines 2983-3004); differs from SIR in the
handlers and in `else: next_time = float('Inf')` when the total rate is zero. -/
def GillespieSISloop (G : Graph) (tau gamma : ℚ) (tmax : QI) :
    List GOracle → GState → ℚ → ℚ → QI → Except SimErr (GState × List GOracle)
  | [], st, _, _, _ => .ok (st, [])
  | o :: rest, st, trr, total_rate, next_time =>
    if next_time < tmax ∧ st.infected ≠ [] then do
        let nt ← (match next_time with
          | some t => pure t
          | none => throw SimErr.indexError)
        let r := o.u1 * total_rate
        let strr ←
          if r < trr then do
            let st' ← Gillespie_recover_SIS G o.idx nt st
            let iLast ← (match st'.I.getLast? with
              | some x => pure x
              | none => throw SimErr.indexError)
            pure (st', gamma * (iLast : ℚ))
          else do
            let st' ← Gillespie_infect G o.u2 o.pick nt false st
            pure (st', trr)
        let total_trans_rate := tau * totalW strr.1.risk
        let total' := strr.2 + total_trans_rate
        let next' : QI := if total' > 0 then ((nt + o.dt : ℚ) : QI) else ⊤
        GillespieSISloop G tau gamma tmax rest strr.1 strr.2 total' next'
    else .ok (st, o :: rest)

/-- `Gillespie_SIR` (lines 2697-2860). -/
def GillespieSIRrun (G : Graph) (tau gamma : ℚ) (initial_infecteds : Option (List Nat))
    (initial_recovereds : Option (List Nat)) (rho : Option ℚ) (sampleOracle : List Nat)
    (tmin : ℚ) (tmax : QI) (dt0 : ℚ) (oracle : List GOracle) :
    Except SimErr (GState × List GOracle) := do
  if Gillespie_SIR_raises rho initial_infecteds then throw .eonError
  let initI := initial_infecteds.getD sampleOracle
  let st0 ← Gillespie_initialize_SIR G initI (initial_recovereds.getD []) tmin
  let total_trans_rate := tau * totalW st0.risk
  let total_rec_rate := gamma * (st0.infected.length : ℚ)
  let total_rate := total_rec_rate + total_trans_rate
  let d0 ← expovariate total_rate dt0
  GillespieSIRloop G tau gamma tmax oracle st0 total_rec_rate total_rate
    ((tmin + d0 : ℚ) : QI)

/-- `Gillespie_SIS` (lines 2864-3012). -/
def GillespieSISrun (G : Graph) (tau gamma : ℚ) (initial_infecteds : Option (List Nat))
    (rho : Option ℚ) (sampleOracle : List Nat)
    (tmin : ℚ) (tmax : QI) (dt0 : ℚ) (oracle : List GOracle) :
    Except SimErr (GState × List GOracle) := do
  if Gillespie_SIS_raises rho initial_infecteds then throw .eonError
  let initI := initial_infecteds.getD sampleOracle
  let st0 ← Gillespie_initialize_SIS G initI tmin
  let total_trans_rate := tau * totalW st0.risk
  let total_rec_rate := gamma * (st0.infected.length : ℚ)
  let total_rate := total_rec_rate + total_trans_rate
  let d0 ← expovariate total_rate dt0
  GillespieSISloop G tau gamma tmax oracle st0 total_rec_rate total_rate
    ((tmin + d0 : ℚ) : QI)

/-! ### Specification predicates -/

/-- The number of currently infected neighbors of `v` — the "risk level". -/
def trueCount (G : Graph) (status : Nat → Status) (v : Nat) : Nat :=
  ((G.neighbors v).filter (fun w => status w = .I)).length

/-- How many nodes currently hold status `x`. -/
def countStat (G : Graph) (status : Nat → Status) (x : Status) : ℤ :=
  (((List.range G.n).filter (fun v => status v = x)).length : ℤ)

/-- Every recorded row of parallel S/I/R count lists sums to `n`. -/
def sumRows (n : ℤ) (S I R : List ℤ) : Prop :=
  S.length = I.length ∧ I.length = R.length ∧
  ∀ i < S.length, S.getD i 0 + I.getD i 0 + R.getD i 0 = n

/-- SIS variant: rows of the S/I lists sum to `n`. -/
def sumRowsSIS (n : ℤ) (S I : List ℤ) : Prop :=
  S.length = I.length ∧ ∀ i < S.length, S.getD i 0 + I.getD i 0 = n

/-- The (S, I, R) increments each recorded action must produce. -/
def actDelta : Act → ℤ × ℤ × ℤ
  | .inf => (-1, 1, 0)
  | .recR => (0, -1, 1)
  | .recS => (1, -1, 0)

/-- Between consecutive recorded rows, counts change exactly by the logged
action's ±1 pattern. -/
def deltaOK (S I R : List ℤ) (log : List Act) : Prop :=
  log.length + 1 = S.length ∧
  ∀ i < log.length,
    S.getD (i + 1) 0 = S.getD i 0 + (actDelta (log.getD i .inf)).1 ∧
    I.getD (i + 1) 0 = I.getD i 0 + (actDelta (log.getD i .inf)).2.1 ∧
    R.getD (i + 1) 0 = R.getD i 0 + (actDelta (log.getD i .inf)).2.2

/-- SIS variant of `deltaOK` (no R column). -/
def deltaOKSIS (S I : List ℤ) (log : List Act) : Prop :=
  log.length + 1 = S.length ∧
  ∀ i < log.length,
    S.getD (i + 1) 0 = S.getD i 0 + (actDelta (log.getD i .inf)).1 ∧
    I.getD (i + 1) 0 = I.getD i 0 + (actDelta (log.getD i .inf)).2.1

/-- Each recorded row equals the true status census taken immediately after
the corresponding event, up to a constant surplus `r0` that the S column
carries and the R column misses. -/
def snapRel (r0 : ℤ) (S I R : List ℤ) (snap : List (ℤ × ℤ × ℤ)) : Prop :=
  S.length = snap.length ∧ I.length = snap.length ∧ R.length = snap.length ∧
  ∀ i < snap.length,
    S.getD i 0 = (snap.getD i (0, 0, 0)).1 + r0 ∧
    I.getD i 0 = (snap.getD i (0, 0, 0)).2.1 ∧
    R.getD i 0 = (snap.getD i (0, 0, 0)).2.2 - r0

/-- Delta-matching between consecutive rows, free of the length coupling of
`deltaOK`: the form that survives dropping a common prefix from all columns
(as `fast_nonMarkov_SIR` does with the first `len(initial_infecteds)` rows). -/
def dropDeltaOK (S I R : List ℤ) (log : List Act) : Prop :=
  ∀ i, i + 1 < S.length →
    S.getD (i + 1) 0 = S.getD i 0 + (actDelta (log.getD i .inf)).1 ∧
    I.getD (i + 1) 0 = I.getD i 0 + (actDelta (log.getD i .inf)).2.1 ∧
    R.getD (i + 1) 0 = R.getD i 0 + (actDelta (log.getD i .inf)).2.2

/-- SIS variant of `dropDeltaOK`. -/
def dropDeltaOKSIS (S I : List ℤ) (log : List Act) : Prop :=
  ∀ i, i + 1 < S.length →
    S.getD (i + 1) 0 = S.getD i 0 + (actDelta (log.getD i .inf)).1 ∧
    I.getD (i + 1) 0 = I.getD i 0 + (actDelta (log.getD i .inf)).2.1

/-- The recorded time sequence is non-decreasing, starts at `tmin` and stays
within the horizon. -/
def timesOK (tmin : ℚ) (tmax : QI) (times : List ℚ) : Prop :=
  times.Chain' (· ≤ ·) ∧ times.head? = some tmin ∧
  ∀ t ∈ times, tmin ≤ t ∧ (t : QI) ≤ tmax

/-- The stored future-transmission list of a queued SIS event. -/
def futureOf : SISEvent → List ℚ
  | .trans _ future => future
  | .recover _ => []

/-- Mid-run time coherence of an event-driven SIR state: the recorded times
are a `timesOK` sequence and every queued event is no earlier than the last
recorded time and strictly inside the horizon. -/
def edTimesInv (tmin : ℚ) (tmax : QI) (times : List ℚ)
    (Q : myQueue EDEvent) : Prop :=
  timesOK tmin tmax times ∧ Q.tmax = tmax ∧
  ∃ tl, times.getLast? = some tl ∧ ∀ e ∈ Q.Q, tl ≤ e.1 ∧ (e.1 : QI) < tmax

/-- SIS variant: a queued transmission also carries its future candidate
times, all at or after the event itself and sorted. -/
def sisTimesInv (tmin : ℚ) (tmax : QI) (times : List ℚ)
    (Q : myQueue SISEvent) : Prop :=
  timesOK tmin tmax times ∧ Q.tmax = tmax ∧
  ∃ tl, times.getLast? = some tl ∧ ∀ e ∈ Q.Q,
    tl ≤ e.1 ∧ (e.1 : QI) < tmax ∧ (∀ f ∈ futureOf e.2.2, e.1 ≤ f) ∧
    (futureOf e.2.2).Pairwise (· ≤ ·)

/-- The heap entries created for the initial infecteds of
`fast_nonMarkov_SIR`: one transmission event per seed, all at `tmin`, with
consecutive counters starting at `c0`. -/
def seedEntriesSIR (tmin : ℚ) : Nat → List Nat → List (ℚ × Nat × EDEvent)
  | _, [] => []
  | c0, u :: rest => (tmin, c0, .trans u) :: seedEntriesSIR tmin (c0 + 1) rest

/-- The seed entries of `fast_nonMarkov_SIS`: the stored
future-transmission list of a seed event is empty. -/
def seedEntriesSIS (tmin : ℚ) : Nat → List Nat → List (ℚ × Nat × SISEvent)
  | _, [] => []
  | c0, u :: rest =>
      (tmin, c0, .trans u []) :: seedEntriesSIS tmin (c0 + 1) rest

/-- Structural invariant of a Gillespie state: the risk buckets track
exactly the susceptible nodes with a positive infected-neighbor count, the
bucket key is that count, and the `infected` list is exactly the set of
infected nodes. -/
structure GInv (G : Graph) (st : GState) : Prop where
  keysNodup : (st.risk.map Prod.fst).Nodup
  bNodup : ∀ k, (riskGet st.risk k).items.Nodup
  bMem : ∀ k, ∀ v ∈ (riskGet st.risk k).items,
    st.status v = .S ∧ st.inc v = k ∧ v < G.n ∧ 0 < k
  counts : ∀ v < G.n, st.status v = .S → st.inc v = trueCount G st.status v
  tracked : ∀ v < G.n, st.status v = .S → 0 < st.inc v →
    v ∈ (riskGet st.risk (st.inc v)).items
  infNodup : st.infected.Nodup
  infMem : ∀ v, v ∈ st.infected ↔ st.status v = .I
  infLt : ∀ v ∈ st.infected, v < G.n

/-- States reachable inside a `Gillespie_SIR` run: the initialized state of
a well-formed initial condition, closed under successful infection and
SIR-recovery events. -/
inductive GReachSIR (G : Graph) : GState → Prop
  | init (initI initR : List Nat) (tmin : ℚ) (st : GState)
      (hI : initI.Nodup) (hIlt : ∀ v ∈ initI, v < G.n)
      (hdisj : ∀ v ∈ initR, v ∉ initI)
      (h : Gillespie_initialize_SIR G initI initR tmin = .ok st) : GReachSIR G st
  | infect (st st' : GState) (u2 : ℚ) (pick : Nat) (t : ℚ)
      (hr : GReachSIR G st) (h : Gillespie_infect G u2 pick t true st = .ok st') :
      GReachSIR G st'
  | recover (st st' : GState) (idx : Nat) (t : ℚ)
      (hr : GReachSIR G st) (h : Gillespie_recover_SIR G idx t st = .ok st') :
      GReachSIR G st'

/-- States reachable inside a `Gillespie_SIS` run. -/
inductive GReachSIS (G : Graph) : GState → Prop
  | init (initI : List Nat) (tmin : ℚ) (st : GState)
      (hI : initI.Nodup) (hIlt : ∀ v ∈ initI, v < G.n)
      (h : Gillespie_initialize_SIS G initI tmin = .ok st) : GReachSIS G st
  | infect (st st' : GState) (u2 : ℚ) (pick : Nat) (t : ℚ)
      (hr : GReachSIS G st) (h : Gillespie_infect G u2 pick t false st = .ok st') :
      GReachSIS G st'
  | recover (st st' : GState) (idx : Nat) (t : ℚ)
      (hr : GReachSIS G st) (h : Gillespie_recover_SIS G idx t st = .ok st') :
      GReachSIS G st'

/-- Mid-loop bucket coherence.  `cnt` is the reference infected-neighbor
count (the neighbor loops move it node-by-node from the pre-flip to the
post-flip census); `skip` names a node exempted from tracking (the
recovering node of the SIS handler, which rejoins the buckets only after
its loop). -/
def BucketsOK (G : Graph) (status' : Nat → Status) (inc : Nat → Nat)
    (risk : List (Nat × ListDict)) (cnt : Nat → Nat) (skip : Option Nat) :
    Prop :=
  ((risk.map Prod.fst).Nodup) ∧
  (∀ k, (riskGet risk k).items.Nodup) ∧
  (∀ k, ∀ v ∈ (riskGet risk k).items,
    status' v = .S ∧ inc v = k ∧ v < G.n ∧ 0 < k) ∧
  (∀ v < G.n, status' v = .S → skip ≠ some v → inc v = cnt v) ∧
  (∀ v < G.n, status' v = .S → skip ≠ some v → 0 < inc v →
    v ∈ (riskGet risk (inc v)).items) ∧
  (∀ u, skip = some u → ∀ k, u ∉ (riskGet risk k).items)

/-! ### Concrete instances used by witnesses and counterexamples -/

/-- The single-edge graph on nodes 0 and 1. -/
def pairGraph : Graph := ⟨2, fun u v => u != v⟩

/-- Two isolated nodes. -/
def edgeless2 : Graph := ⟨2, fun _ _ => false⟩

/-- One isolated node. -/
def oneNode : Graph := ⟨1, fun _ _ => false⟩

/-- Deterministic delays for the event-driven SIR engine: transmission after
1 time unit to every susceptible neighbor, recovery after 2. -/
def pathDelays : Nat → List Nat → List (Nat × ℚ) × ℚ :=
  fun _ nbrs => (nbrs.map (fun v => (v, (1 : ℚ))), 2)

/-- SIS delay function: no transmissions, recovery after 1. -/
def sisNoTrans : Nat → List Nat → (Nat → List ℚ) × ℚ :=
  fun _ _ => ((fun _ => []), 1)

def gO1 : GOracle := ⟨1/2, 0, 0, 0, 1⟩

def gO0 : GOracle := ⟨0, 0, 0, 0, 1⟩

/-- A default Gillespie state (used only as a `match` fallback). -/
def GState0 : GState :=
  ⟨[], [], [], [], fun _ => .S, [], fun _ => 0, [], [], []⟩

/-- The initialized state of `Gillespie_SIR` on `pairGraph` with node 0
infected. -/
def pairInitState : GState :=
  match Gillespie_initialize_SIR pairGraph [0] [] 0 with
  | .ok st => st
  | .error _ => GState0

/-- The table returned by `fast_nonMarkov_SIR` on the one-node graph, used
as a concrete sanity instance. -/
def oneNodeSIRTable : RunTable :=
  match fastNonMarkovSIR oneNode pathDelays (some [0]) none none [] 0
      (some 10) 3 with
  | .ok T => T
  | .error _ => ⟨[], [], [], [], [], []⟩

/-! ### Lemmas about `_ListDict_` -/

theorem ListDict.remove_absent (ld : ListDict) (x : Nat) (h : x ∉ ld.items) :
    ld.remove x = .error .keyError := by
  have hnone : ld.items.findIdx? (fun y => y == x) = none := by
    rw [List.findIdx?_eq_none_iff]
    intro y hy
    simp only [beq_eq_false_iff_ne]
    rintro rfl; exact h hy
  unfold ListDict.remove
  rw [hnone]

theorem ListDict.remove_perm_erase :
    ∀ (l : List Nat) (x : Nat), x ∈ l → l.Nodup →
      ∃ l', ListDict.remove ⟨l⟩ x = .ok ⟨l'⟩ ∧ l'.Perm (l.erase x) := by
  intro l
  induction l with
  | nil => intro x hx; exact absurd hx (List.not_mem_nil x)
  | cons a rest ih =>
    intro x hmem hnd
    by_cases hax : a = x
    · subst hax
      cases rest with
      | nil =>
        refine ⟨[], ?_, by simp⟩
        unfold ListDict.remove
        simp [List.findIdx?_cons]
      | cons b rs =>
        refine ⟨(b :: rs).getLast (by simp) :: (b :: rs).dropLast, ?_, ?_⟩
        · unfold ListDict.remove
          rw [List.findIdx?_cons]
          simp only [beq_self_eq_true, if_pos rfl]
          rw [List.getLast?_cons_cons, List.getLast?_eq_getLast _ (by simp)]
          simp [List.dropLast_cons₂, List.set_cons_zero]
        · rw [List.erase_cons_head]
          calc ((b :: rs).getLast (by simp) :: (b :: rs).dropLast).Perm
                ((b :: rs).dropLast ++ [(b :: rs).getLast (by simp)]) :=
                (List.perm_append_singleton _ _).symm
            _ = b :: rs := List.dropLast_append_getLast (by simp)
    · have hxrest : x ∈ rest := by
        rcases List.mem_cons.mp hmem with h | h
        · exact absurd h.symm hax
        · exact h
      have hrest_ne : rest ≠ [] := by rintro rfl; exact List.not_mem_nil x hxrest
      obtain ⟨l', hrem, hperm⟩ := ih x hxrest hnd.of_cons
      -- compute the pieces of `remove` on the tail
      obtain ⟨j, hj⟩ : ∃ j, rest.findIdx? (fun y => y == x) = some j := by
        rcases hfind : rest.findIdx? (fun y => y == x) with _ | j
        · rw [List.findIdx?_eq_none_iff] at hfind
          have := hfind x hxrest
          simp at this
        · exact ⟨j, rfl⟩
      obtain ⟨last, hlast⟩ : ∃ last, rest.getLast? = some last :=
        ⟨rest.getLast hrest_ne, List.getLast?_eq_getLast _ hrest_ne⟩
      have hl' : l' = rest.dropLast.set j last := by
        unfold ListDict.remove at hrem
        rw [hj, hlast] at hrem
        have h2 := Except.ok.inj hrem
        exact (congrArg ListDict.items h2).symm
      refine ⟨a :: (rest.dropLast.set j last), ?_, ?_⟩
      · unfold ListDict.remove
        rw [List.findIdx?_cons]
        have hne : ((a == x) = false) := beq_eq_false_iff_ne.mpr hax
        rw [hne]
        simp only [Bool.false_eq_true, if_false]
        rw [List.findIdx?_succ, hj]
        cases rest with
        | nil => exact absurd rfl hrest_ne
        | cons b rs =>
          rw [List.getLast?_cons_cons, hlast]
          simp [List.dropLast_cons₂]
      · rw [List.erase_cons_tail (by simpa using hax)]
        rw [← hl']
        exact hperm.cons a

theorem ListDict.remove_ok_spec (l : List Nat) (x : Nat) (hx : x ∈ l)
    (hnd : l.Nodup) :
    ∃ l', ListDict.remove ⟨l⟩ x = .ok ⟨l'⟩ ∧ l'.Nodup ∧
      (∀ y, y ∈ l' ↔ y ∈ l ∧ y ≠ x) ∧ l'.length + 1 = l.length := by
  obtain ⟨l', hrem, hperm⟩ := ListDict.remove_perm_erase l x hx hnd
  refine ⟨l', hrem, ?_, ?_, ?_⟩
  · exact hperm.nodup_iff.mpr (hnd.erase x)
  · intro y
    rw [hperm.mem_iff, hnd.mem_erase_iff]
    tauto
  · have h1 := hperm.length_eq
    rw [List.length_erase_of_mem hx] at h1
    have h2 : 0 < l.length := List.length_pos_of_mem hx
    omega

theorem ListDict.mem_add (ld : ListDict) (x y : Nat) :
    y ∈ (ld.add x).items ↔ y ∈ ld.items ∨ y = x := by
  unfold ListDict.add
  by_cases h : x ∈ ld.items
  · rw [if_pos h]
    exact ⟨Or.inl, by rintro (hy | rfl); exacts [hy, h]⟩
  · rw [if_neg h]
    simp

theorem ListDict.add_nodup (ld : ListDict) (x : Nat) (h : ld.items.Nodup) :
    (ld.add x).items.Nodup := by
  unfold ListDict.add
  split
  · exact h
  · next hx => simpa [List.nodup_append] using ⟨h, hx⟩

theorem ListDict.choose_random_spec (ld : ListDict) (k : Nat)
    (h : ld.items ≠ []) :
    ∃ y, ld.choose_random k = .ok y ∧ y ∈ ld.items := by
  unfold ListDict.choose_random
  have hlen : ld.items.length ≠ 0 := by simpa using h
  rw [dif_neg hlen]
  exact ⟨_, rfl, ld.items.get_mem _ _⟩

theorem ListDict.choose_random_empty (ld : ListDict) (k : Nat)
    (h : ld.items = []) : ld.choose_random k = .error .indexError := by
  unfold ListDict.choose_random
  rw [dif_pos (by simp [h])]

/-! ### Lemmas about `myQueue` -/

theorem myQueue.keyLt_irrefl {E} (a : ℚ × Nat × E) : ¬ keyLt a a := by
  unfold keyLt
  rintro (h | ⟨-, h⟩)
  · exact lt_irrefl _ h
  · exact lt_irrefl _ h

theorem myQueue.keyLt_asymm {E} {a b : ℚ × Nat × E} (h : keyLt a b) :
    ¬ keyLt b a := by
  unfold keyLt at h ⊢
  rcases h with h | ⟨heq, hc⟩
  · rintro (h' | ⟨heq', -⟩)
    · exact absurd (h.trans h') (lt_irrefl _)
    · exact absurd h (heq' ▸ lt_irrefl _)
  · rintro (h' | ⟨-, hc'⟩)
    · exact absurd h' (heq ▸ lt_irrefl _)
    · omega

theorem myQueue.not_keyLt_trans {E} {a b c : ℚ × Nat × E}
    (hba : ¬ keyLt b a) (hcb : ¬ keyLt c b) : ¬ keyLt c a := by
  unfold keyLt at *
  push_neg at hba hcb
  obtain ⟨h1, h2⟩ := hba
  obtain ⟨h3, h4⟩ := hcb
  rintro (h | ⟨heq, hc⟩)
  · linarith
  · have hab : a.1 = b.1 := le_antisymm h1 (by linarith)
    have hbc : b.1 = c.1 := by linarith
    have h5 := h2 hab.symm
    have h6 := h4 hbc.symm
    omega

theorem myQueue.extractMin_eq_none {E} {l : List (ℚ × Nat × E)} :
    extractMin l = none ↔ l = [] := by
  cases l with
  | nil => simp [extractMin]
  | cons x xs =>
    simp only [extractMin]
    rcases h : extractMin xs with - | ⟨m, rest⟩
    · simp
    · simp only
      split <;> simp

theorem myQueue.extractMin_spec {E} :
    ∀ (l : List (ℚ × Nat × E)) (m : ℚ × Nat × E) (rest : List (ℚ × Nat × E)),
      extractMin l = some (m, rest) →
      m ∈ l ∧ (∀ x ∈ rest, x ∈ l) ∧ (∀ x ∈ l, ¬ keyLt x m) ∧
        rest.length + 1 = l.length := by
  intro l
  induction l with
  | nil => intro m rest h; exact absurd h (by simp [extractMin])
  | cons x xs ih =>
    intro m rest h
    simp only [extractMin] at h
    split at h
    · next heq =>
      simp only [Option.some.injEq, Prod.mk.injEq] at h
      obtain ⟨rfl, rfl⟩ := h
      have hnil : xs = [] := extractMin_eq_none.mp heq
      subst hnil
      refine ⟨List.mem_singleton_self x, by simp, ?_, by simp⟩
      intro y hy
      rw [List.mem_singleton] at hy
      subst hy
      exact keyLt_irrefl y
    · next m' rest' heq =>
      obtain ⟨hm', hrest', hmin', hlen'⟩ := ih m' rest' heq
      by_cases hlt : keyLt m' x
      · rw [if_pos hlt] at h
        simp only [Option.some.injEq, Prod.mk.injEq] at h
        obtain ⟨rfl, rfl⟩ := h
        refine ⟨List.mem_cons_of_mem x hm', ?_, ?_, by simp [← hlen']⟩
        · intro y hy
          rcases List.mem_cons.mp hy with rfl | hy
          · exact List.mem_cons_self y xs
          · exact List.mem_cons_of_mem x (hrest' y hy)
        · intro y hy
          rcases List.mem_cons.mp hy with rfl | hy
          · exact keyLt_asymm hlt
          · exact hmin' y hy
      · rw [if_neg hlt] at h
        simp only [Option.some.injEq, Prod.mk.injEq] at h
        obtain ⟨rfl, rfl⟩ := h
        refine ⟨List.mem_cons_self x xs, fun y hy => List.mem_cons_of_mem x hy,
          ?_, rfl⟩
        intro y hy
        rcases List.mem_cons.mp hy with rfl | hy
        · exact keyLt_irrefl y
        · exact not_keyLt_trans hlt (hmin' y hy)

theorem myQueue.pop_empty {E} (q : myQueue E) (h : q.Q = []) :
    q.pop = .error .indexError := by
  unfold myQueue.pop
  rw [show extractMin q.Q = none from extractMin_eq_none.mpr h]

theorem myQueue.pop_spec {E} (q : myQueue E) (m : ℚ × Nat × E) (q' : myQueue E)
    (h : q.pop = .ok (m, q')) :
    m ∈ q.Q ∧ (∀ x ∈ q'.Q, x ∈ q.Q) ∧ (∀ x ∈ q.Q, ¬ keyLt x m) ∧
      q'.tmax = q.tmax ∧ q'.counter = q.counter := by
  unfold myQueue.pop at h
  split at h
  · exact absurd h (by simp)
  · next m' rest hx =>
    simp only [Except.ok.injEq, Prod.mk.injEq] at h
    obtain ⟨rfl, rfl⟩ := h
    obtain ⟨h1, h2, h3, -⟩ := extractMin_spec q.Q m' rest hx
    exact ⟨h1, h2, h3, rfl, rfl⟩

/-- `myQueue.add` characterized: drops exactly when `time ≥ tmax`, otherwise
appends with the current counter and bumps it. -/
theorem myQueue.add_spec {E} (q : myQueue E) (time : ℚ) (ev : E) :
    ((time : QI) < q.tmax →
       (q.add time ev).Q = q.Q ++ [(time, q.counter, ev)] ∧
       (q.add time ev).counter = q.counter + 1 ∧ (q.add time ev).tmax = q.tmax) ∧
    (¬ (time : QI) < q.tmax → q.add time ev = q) := by
  constructor
  · intro h
    unfold myQueue.add
    rw [if_pos h]
    exact ⟨rfl, rfl, rfl⟩
  · intro h
    unfold myQueue.add
    rw [if_neg h]

/-! ## Claim C3 -/

/-- C3 counterexample: the claim says an event whose time equals the
configured horizon is enqueued, but `myQueue.add` requires `time < tmax`
strictly, so with `tmax = 0` an event at time 0 — which does *not* exceed
the horizon — is silently dropped. -/
theorem claim_C3_counterexample :
    ((myQueue.init Nat ((0 : ℚ) : QI)).add 0 7).Q = [] ∧
    ¬ (((0 : ℚ) : QI) > (myQueue.init Nat ((0 : ℚ) : QI)).tmax) := by
  constructor
  · with_unfolding_all decide
  · exact lt_irrefl _

/-- C3 (amended): `myQueue.add` silently drops an event exactly when its
time is ≥ the configured horizon (not only strictly greater); an event with
`time < tmax` is appended carrying the current counter, which (given the
invariant that all enqueued counters are below the queue's counter field)
is strictly larger than the counter of every previously enqueued event,
and the invariant is preserved. -/
theorem claim_C3_theorem {E : Type} (q : myQueue E) (time : ℚ) (ev : E)
    (hinv : ∀ e ∈ q.Q, e.2.1 < q.counter) :
    (¬ (time : QI) < q.tmax → q.add time ev = q) ∧
    ((time : QI) < q.tmax →
      (q.add time ev).Q = q.Q ++ [(time, q.counter, ev)] ∧
      (∀ e ∈ q.Q, e.2.1 < q.counter) ∧
      (∀ e ∈ (q.add time ev).Q, e.2.1 < (q.add time ev).counter)) := by
  obtain ⟨hpos, hneg⟩ := myQueue.add_spec q time ev
  refine ⟨hneg, fun h => ⟨(hpos h).1, hinv, ?_⟩⟩
  intro e he
  rw [(hpos h).1] at he
  rw [(hpos h).2.1]
  rcases List.mem_append.mp he with he | he
  · exact Nat.lt_succ_of_lt (hinv e he)
  · rw [List.mem_singleton] at he
    subst he
    exact Nat.lt_succ_self _

/-- C3 witness: adding at time 1 below horizon 2 enqueues with counter 0. -/
theorem claim_C3_witness :
    ((myQueue.init Nat ((2 : ℚ) : QI)).add 1 5).Q = [(1, 0, 5)] := by
  have h := (claim_C3_theorem (myQueue.init Nat ((2 : ℚ) : QI)) 1 5
    (by intro e he; exact absurd he (List.not_mem_nil e))).2
    (by with_unfolding_all decide)
  exact h.1

/-! ## Claim C9 -/

/-- C9: `pop_and_run` on an empty queue, `_ListDict_.remove` of an absent
item, and `_ListDict_.choose_random` on an empty set each fail with an
error rather than returning silently. -/
theorem claim_C9_theorem {E : Type} (q : myQueue E) (ld1 ld2 : ListDict)
    (item k : Nat) (hq : q.Q = []) (h1 : item ∉ ld1.items)
    (h2 : ld2.items = []) :
    q.pop = .error .indexError ∧ ld1.remove item = .error .keyError ∧
      ld2.choose_random k = .error .indexError :=
  ⟨myQueue.pop_empty q hq, ListDict.remove_absent ld1 item h1,
   ListDict.choose_random_empty ld2 k h2⟩

/-- C9 witness at concrete structures. -/
theorem claim_C9_witness :
    (myQueue.init Nat ⊤).pop = .error .indexError ∧
    ListDict.remove ⟨[2]⟩ 5 = .error .keyError ∧
    ListDict.choose_random ⟨[]⟩ 0 = .error .indexError :=
  claim_C9_theorem (myQueue.init Nat ⊤) ⟨[2]⟩ ⟨[]⟩ 5 0 rfl (by decide) rfl

/-! ## Claim C2 -/

/-- C2 counterexample: the claim says every entry point errors for any
non-None `rho` including `rho = 0`, but `fast_nonMarkov_SIR` tests Python
truthiness (`if rho and initial_infecteds`), so `rho = 0` together with an
explicit `initial_infecteds` raises nothing and the run proceeds. -/
theorem claim_C2_counterexample :
    fast_nonMarkov_SIR_raises (some 0) (some [0]) = false ∧
    (fastNonMarkovSIR oneNode pathDelays (some [0]) none (some 0) [] 0 ⊤ 3).isOk
      = true := by
  constructor
  · rfl
  · with_unfolding_all decide

/-- C2 (amended): `discrete_SIR`, `basic_discrete_SIS`, `fast_SIS`,
`Gillespie_SIR` and `Gillespie_SIS` raise the configuration error for every
non-None `rho` (including 0) combined with a non-None `initial_infecteds`,
and the two Gillespie entry points do so before consuming any oracle
randomness or building state; `fast_nonMarkov_SIR` and `fast_nonMarkov_SIS`
(and hence `fast_SIR`, which forwards to the former without its own check)
raise only when `rho` is truthy (non-None and nonzero) and the collection
is truthy (nonempty); with `rho = some 0` and an explicit (non-None)
`initial_infecteds` they behave exactly as with `rho = none`.  (When
`initial_infecteds` is None the two differ: `rho = 0` draws
`int(round(n*0)) = 0` seeds where `rho = None` draws 1, lines 1887-1892
and 2468-2473, so the equivalence is stated for explicit seed lists
only.) -/
theorem claim_C2_theorem :
    (∀ (rho : Option ℚ) (ii : Option (List Nat)), rho.isSome → ii.isSome →
      discrete_SIR_raises rho ii = true ∧ basic_discrete_SIS_raises rho ii = true ∧
      fast_SIS_raises rho ii = true ∧ Gillespie_SIR_raises rho ii = true ∧
      Gillespie_SIS_raises rho ii = true) ∧
    (∀ (G : Graph) (tau gamma q : ℚ) (l : List Nat) (ir : Option (List Nat))
       (so : List Nat) (tmin : ℚ) (tmax : QI) (dt0 : ℚ) (oracle : List GOracle),
      GillespieSIRrun G tau gamma (some l) ir (some q) so tmin tmax dt0 oracle
        = .error .eonError ∧
      GillespieSISrun G tau gamma (some l) (some q) so tmin tmax dt0 oracle
        = .error .eonError) ∧
    (∀ (G : Graph) (tif : Nat → List Nat → List (Nat × ℚ) × ℚ) (q : ℚ)
       (l : List Nat) (ir : Option (List Nat)) (so : List Nat) (tmin : ℚ)
       (tmax : QI) (fuel : Nat), q ≠ 0 → l ≠ [] →
      fastNonMarkovSIR G tif (some l) ir (some q) so tmin tmax fuel
        = .error .eonError) ∧
    (∀ (G : Graph) (tif : Nat → List Nat → List (Nat × ℚ) × ℚ)
       (l : List Nat) (ir : Option (List Nat)) (so : List Nat) (tmin : ℚ)
       (tmax : QI) (fuel : Nat),
      fastNonMarkovSIR G tif (some l) ir (some 0) so tmin tmax fuel
        = fastNonMarkovSIR G tif (some l) ir none so tmin tmax fuel) ∧
    (∀ (G : Graph) (tif : Nat → List Nat → (Nat → List ℚ) × ℚ)
       (l : List Nat) (so : List Nat) (tmin : ℚ) (tmax : QI)
       (fuel : Nat),
      fastNonMarkovSIS G tif (some l) (some 0) so tmin tmax fuel
        = fastNonMarkovSIS G tif (some l) none so tmin tmax fuel) := by
  refine ⟨?_, ?_, ?_, ?_, ?_⟩
  · rintro ⟨-⟩ ii h1 h2 <;> cases ii <;> simp_all <;>
      exact ⟨rfl, rfl, rfl, rfl, rfl⟩
  · intro G tau gamma q l ir so tmin tmax dt0 oracle
    constructor
    · unfold GillespieSIRrun
      have : Gillespie_SIR_raises (some q) (some l) = true := rfl
      rw [this]
      rfl
    · unfold GillespieSISrun
      have : Gillespie_SIS_raises (some q) (some l) = true := rfl
      rw [this]
      rfl
  · intro G tif q l ir so tmin tmax fuel hq hl
    unfold fastNonMarkovSIR
    have h1 : fast_nonMarkov_SIR_raises (some q) (some l) = true := by
      unfold fast_nonMarkov_SIR_raises truthyRho truthyNodes
      simp [hq, hl]
    rw [h1]
    rfl
  · intro G tif l ir so tmin tmax fuel
    rfl
  · intro G tif l so tmin tmax fuel
    rfl

/-- C2 witness: the strict entry points error at `rho = 0` with an explicit
initial set, as the amended claim states. -/
theorem claim_C2_witness :
    discrete_SIR_raises (some 0) (some [0]) = true ∧
    GillespieSIRrun pairGraph 1 1 (some [0]) none (some 0) [] 0
      ((10 : ℚ) : QI) 1 [] = .error .eonError ∧
    fastNonMarkovSIR oneNode pathDelays (some [0]) none (some (1/2)) [] 0 ⊤ 3
      = .error .eonError := by
  refine ⟨?_, ?_, ?_⟩
  · exact ((claim_C2_theorem.1 (some 0) (some [0]) rfl rfl).1)
  · exact (claim_C2_theorem.2.1 pairGraph 1 1 0 [0] none [] 0 ((10 : ℚ) : QI) 1 []).1
  · exact claim_C2_theorem.2.2.1 oneNode pathDelays (1/2) [0] none [] 0 ⊤ 3
      (by norm_num) (by simp)

/-! ## Claim C6 -/

/-- destructor for a successful `Except` bind -/
theorem exceptBind_ok {α β ε : Type} {x : Except ε α} {f : α → Except ε β}
    {b : β} (h : (x >>= f) = .ok b) : ∃ a, x = .ok a ∧ f a = .ok b := by
  cases x with
  | error e => exact absurd h (by simp [Bind.bind, Except.bind])
  | ok a => exact ⟨a, rfl, by simpa [Bind.bind, Except.bind] using h⟩

theorem transSIRstep_pred_le (tmax : QI) (time rec_t : ℚ)
    (acc : myQueue EDEvent × (Nat → QI)) (vd : Nat × ℚ) (w : Nat) :
    (transSIRstep tmax time rec_t acc vd).2 w ≤ acc.2 w := by
  unfold transSIRstep
  dsimp only
  split
  · next h =>
    by_cases hw : w = vd.1
    · subst hw
      simp only [Function.update_same]
      exact le_of_lt h.2.1
    · simp only [Function.update_noteq hw]
      exact le_refl _
  · exact le_refl _

theorem transSIRfold_pred_le (tmax : QI) (time rec_t : ℚ) :
    ∀ (l : List (Nat × ℚ)) (acc : myQueue EDEvent × (Nat → QI)) (w : Nat),
      (l.foldl (transSIRstep tmax time rec_t) acc).2 w ≤ acc.2 w := by
  intro l
  induction l with
  | nil => intro acc w; exact le_refl _
  | cons vd rest ih =>
    intro acc w
    rw [List.foldl_cons]
    exact le_trans (ih _ w) (transSIRstep_pred_le tmax time rec_t acc vd w)

/-- C6 counterexample: with horizon `tmax = 1`, a candidate infection time
`0 + 1 = 1` is at most the source's recovery time, strictly earlier than
the target's predicted infection time `∞`, and does not exceed the horizon
— per the claim it should be enqueued — yet the queue stays empty, because
`myQueue.add` drops events at time ≥ `tmax`; the predicted infection time
is nevertheless overwritten. -/
theorem claim_C6_counterexample :
    (transSIRstep (myQueue.init EDEvent ((1 : ℚ) : QI)).tmax 0 1
       (myQueue.init EDEvent ((1 : ℚ) : QI), fun _ => ⊤) (1, 1)).1.Q = [] ∧
    (transSIRstep (myQueue.init EDEvent ((1 : ℚ) : QI)).tmax 0 1
       (myQueue.init EDEvent ((1 : ℚ) : QI), fun _ => ⊤) (1, 1)).2 1
      = ((1 : ℚ) : QI) ∧
    (0 + 1 : ℚ) ≤ 1 ∧ (((0 + 1 : ℚ) : QI) < ⊤) ∧
    ¬ (((0 + 1 : ℚ) : QI) > (myQueue.init EDEvent ((1 : ℚ) : QI)).tmax) := by
  refine ⟨?_, ?_, ?_, ?_, ?_⟩
  · with_unfolding_all decide
  · with_unfolding_all decide
  · norm_num
  · with_unfolding_all decide
  · show ¬ ((1 : QI) < ((0 + 1 : ℚ) : QI))
    rw [show ((0 + 1 : ℚ) : QI) = ((1 : ℚ) : QI) by norm_num]
    exact lt_irrefl _

/-- C6 (amended): in `_process_trans_SIR_`'s neighbor loop a transmission
attempt toward `v` is enqueued iff its candidate time is ≤ the source's
recovery time, strictly earlier than `pred_inf_time[v]`, and *strictly*
below the horizon; `pred_inf_time[v]` is overwritten with the candidate
exactly when the handler's own test (which uses ≤ on the horizon) passes —
so at a candidate time equal to `tmax` the predicted time is updated even
though no event is enqueued; predicted infection times never increase,
neither in one loop step nor across a whole successful handler call. -/
theorem claim_C6_theorem (Q : myQueue EDEvent) (pred : Nat → QI)
    (time rec_t : ℚ) (v : Nat) (d : ℚ) :
    ((transSIRstep Q.tmax time rec_t (Q, pred) (v, d)).1.Q
        = Q.Q ++ [(time + d, Q.counter, .trans v)] ↔
      (time + d ≤ rec_t ∧ ((time + d : ℚ) : QI) < pred v ∧
        ((time + d : ℚ) : QI) < Q.tmax)) ∧
    ((transSIRstep Q.tmax time rec_t (Q, pred) (v, d)).2 v =
      if time + d ≤ rec_t ∧ ((time + d : ℚ) : QI) < pred v ∧
          ((time + d : ℚ) : QI) ≤ Q.tmax
      then ((time + d : ℚ) : QI) else pred v) ∧
    (∀ w, (transSIRstep Q.tmax time rec_t (Q, pred) (v, d)).2 w ≤ pred w) ∧
    (∀ (G : Graph) (tif : Nat → List Nat → List (Nat × ℚ) × ℚ) (t : ℚ)
       (node : Nat) (st st' : EDState),
      process_trans_SIR G tif t node st = .ok st' →
      ∀ w, st'.pred_inf_time w ≤ st.pred_inf_time w) := by
  refine ⟨?_, ?_, ?_, ?_⟩
  · unfold transSIRstep
    by_cases hc : time + d ≤ rec_t ∧ ((time + d : ℚ) : QI) < pred v ∧
        ((time + d : ℚ) : QI) ≤ Q.tmax
    · rw [if_pos hc]
      by_cases hlt : ((time + d : ℚ) : QI) < Q.tmax
      · have := (myQueue.add_spec Q (time + d) (.trans v)).1 hlt
        rw [this.1]
        simp only [true_iff, iff_true]
        exact ⟨hc.1, hc.2.1, hlt⟩
      · have := (myQueue.add_spec Q (time + d) (.trans v)).2 hlt
        rw [this]
        constructor
        · intro habs
          exact absurd (congrArg List.length habs) (by simp)
        · rintro ⟨-, -, h3⟩
          exact absurd h3 hlt
    · rw [if_neg hc]
      constructor
      · intro habs
        exact absurd (congrArg List.length habs) (by simp)
      · rintro ⟨h1, h2, h3⟩
        exact (hc ⟨h1, h2, le_of_lt h3⟩).elim
  · unfold transSIRstep
    by_cases hc : time + d ≤ rec_t ∧ ((time + d : ℚ) : QI) < pred v ∧
        ((time + d : ℚ) : QI) ≤ Q.tmax
    · rw [if_pos hc, if_pos hc]
      simp [Function.update_same]
    · rw [if_neg hc, if_neg hc]
  · intro w
    exact transSIRstep_pred_le Q.tmax time rec_t (Q, pred) (v, d) w
  · intro G tif t node st st' h w
    unfold process_trans_SIR at h
    split at h
    · obtain ⟨S', hS, h⟩ := exceptBind_ok h
      obtain ⟨I', hI, h⟩ := exceptBind_ok h
      obtain ⟨R', hR, h⟩ := exceptBind_ok h
      have hst' : st' = _ := (Except.ok.inj h).symm
      rw [hst']
      exact transSIRfold_pred_le st.Q.tmax t _ _ _ w
    · have hst' : st' = st := (Except.ok.inj h).symm
      rw [hst']

/-- C6 witness: a candidate strictly inside the horizon is enqueued and the
predicted time is recorded. -/
theorem claim_C6_witness :
    ((transSIRstep (myQueue.init EDEvent ⊤).tmax 0 2
        (myQueue.init EDEvent ⊤, fun _ => ⊤) (1, 1)).1.Q
      = [] ++ [(0 + 1, 0, .trans 1)]) ∧
    (0 + 1 : ℚ) ≤ 2 ∧ (((0 + 1 : ℚ) : QI) < ⊤) := by
  refine ⟨?_, by norm_num, ?_⟩
  · exact (claim_C6_theorem (myQueue.init EDEvent ⊤) (fun _ => ⊤) 0 2 1 1).1.mpr
      ⟨by norm_num, by with_unfolding_all decide, by with_unfolding_all decide⟩
  · with_unfolding_all decide

/-! ## Claim C1 -/

/-- C1: on the two-node complete graph with `tau = 1`, `gamma = 0`, node 0
initially infected and horizon 10, the `Gillespie_SIR` loop reaches
`total_rate = 0` with both nodes infected after the single infection event;
instead of terminating it runs another iteration whose infection branch
fails (`random.choice` on the empty risk bucket raises IndexError).  The
`Gillespie_SIS` engine on the same input sets `next_time = ∞` and stops:
its run ends with an unconsumed oracle entry, times `[0, 1]` and both nodes
still infected. -/
theorem claim_C1_theorem :
    (match GillespieSIRrun pairGraph 1 0 (some [0]) none none [] 0
        ((10 : ℚ) : QI) 1 [gO1, gO0] with
      | .error e => some e
      | .ok _ => none) = some SimErr.indexError ∧
    (GillespieSISrun pairGraph 1 0 (some [0]) none [] 0 ((10 : ℚ) : QI) 1
        [gO1, gO0]).toOption.map
      (fun p => (p.1.times, p.1.infected, p.2.length)) =
      some ([0, 1], [0, 1], 1) := by
  constructor
  · with_unfolding_all decide
  · with_unfolding_all decide

/-! ### Lemmas about the risk-group dictionary -/

theorem riskGet_riskSet_self (r : List (Nat × ListDict)) (k : Nat)
    (b : ListDict) : riskGet (riskSet r k b) k = b := by
  induction r with
  | nil => simp [riskSet, riskGet]
  | cons kb rest ih =>
    obtain ⟨k', b'⟩ := kb
    unfold riskSet
    by_cases hk : k' = k
    · rw [if_pos hk]
      simp [riskGet]
    · rw [if_neg hk]
      unfold riskGet at ih ⊢
      rw [List.lookup_cons]
      have : (k == k') = false := beq_eq_false_iff_ne.mpr (Ne.symm hk)
      rw [this]
      exact ih

theorem riskGet_riskSet_ne (r : List (Nat × ListDict)) (k k' : Nat)
    (b : ListDict) (h : k' ≠ k) :
    riskGet (riskSet r k b) k' = riskGet r k' := by
  induction r with
  | nil =>
    unfold riskSet riskGet
    rw [List.lookup_cons]
    have : (k' == k) = false := beq_eq_false_iff_ne.mpr h
    rw [this]
  | cons kb rest ih =>
    obtain ⟨k'', b''⟩ := kb
    unfold riskSet
    by_cases hk : k'' = k
    · rw [if_pos hk]
      subst hk
      unfold riskGet
      rw [List.lookup_cons, List.lookup_cons]
      have : (k' == k'') = false := beq_eq_false_iff_ne.mpr h
      rw [this]
    · rw [if_neg hk]
      unfold riskGet at ih ⊢
      rw [List.lookup_cons, List.lookup_cons]
      cases hbeq : (k' == k'') with
      | true => rfl
      | false => exact ih

theorem riskSet_keys (r : List (Nat × ListDict)) (k : Nat) (b : ListDict) :
    (riskSet r k b).map Prod.fst = r.map Prod.fst ∨
    ((riskSet r k b).map Prod.fst = r.map Prod.fst ++ [k] ∧
      k ∉ r.map Prod.fst) := by
  induction r with
  | nil => right; simp [riskSet]
  | cons kb rest ih =>
    obtain ⟨k', b'⟩ := kb
    unfold riskSet
    by_cases hk : k' = k
    · rw [if_pos hk]
      left
      simp [hk]
    · rw [if_neg hk]
      rcases ih with ih | ⟨ih1, ih2⟩
      · left; simp [ih]
      · right
        constructor
        · simp [ih1]
        · simp only [List.map_cons, List.mem_cons]
          rintro (h | h)
          · exact hk h.symm
          · exact ih2 h

theorem riskSet_keys_nodup (r : List (Nat × ListDict)) (k : Nat)
    (b : ListDict) (h : (r.map Prod.fst).Nodup) :
    ((riskSet r k b).map Prod.fst).Nodup := by
  rcases riskSet_keys r k b with heq | ⟨heq, hnot⟩
  · rw [heq]; exact h
  · rw [heq]
    simp only [List.nodup_append, List.nodup_cons]
    exact ⟨h, by simp, by simpa using hnot⟩

theorem totalW_cons (k : Nat) (b : ListDict) (rest : List (Nat × ListDict)) :
    totalW ((k, b) :: rest) = (k : ℚ) * (b.items.length : ℚ) + totalW rest := by
  unfold totalW
  simp

theorem totalW_nonneg (r : List (Nat × ListDict)) : 0 ≤ totalW r := by
  induction r with
  | nil => simp [totalW]
  | cons kb rest ih =>
    obtain ⟨k, b⟩ := kb
    rw [totalW_cons]
    positivity

/-- The linear weighted scan always lands in a bucket of positive weight
when the draw is within the total weight. -/
theorem scanRisk_spec :
    ∀ (r : List (Nat × ListDict)) (x : ℚ) (last : Option Nat),
      (r.map Prod.fst).Nodup → 0 ≤ x → x < totalW r →
      ∃ k, scanRisk r x last = some k ∧ k ∈ r.map Prod.fst ∧
        0 < k ∧ (riskGet r k).items ≠ [] := by
  intro r
  induction r with
  | nil =>
    intro x last _ hx hlt
    rw [show totalW [] = 0 from rfl] at hlt
    exact absurd hlt (not_lt.mpr hx)
  | cons kb rest ih =>
    obtain ⟨k, b⟩ := kb
    intro x last hnd hx hlt
    unfold scanRisk
    by_cases hneg : x - (k : ℚ) * (b.items.length : ℚ) < 0
    · rw [if_pos hneg]
      have hpos : 0 < (k : ℚ) * (b.items.length : ℚ) := by linarith
      have hk0 : 0 < k := by
        by_contra hk
        push_neg at hk
        interval_cases k
        simp at hpos
      have hb : b.items ≠ [] := by
        intro hb
        rw [hb] at hpos
        simp at hpos
      refine ⟨k, rfl, by simp, hk0, ?_⟩
      unfold riskGet
      rw [List.lookup_cons]
      simpa using hb
    · rw [if_neg hneg]
      push_neg at hneg
      have hlt' : x - (k : ℚ) * (b.items.length : ℚ) < totalW rest := by
        rw [totalW_cons] at hlt
        linarith
      obtain ⟨k', hscan, hmem, hk0, hne⟩ :=
        ih (x - (k : ℚ) * (b.items.length : ℚ)) (some k)
          (by simpa using hnd.of_cons) hneg hlt'
      refine ⟨k', hscan, List.mem_cons_of_mem _ hmem, hk0, ?_⟩
      unfold riskGet
      rw [List.lookup_cons]
      have hkk : (k' == k) = false := by
        simp only [List.nodup_cons, List.map_cons] at hnd
        exact beq_eq_false_iff_ne.mpr (fun h => hnd.1 (h ▸ hmem))
      rw [hkk]
      exact hne

/-! ### Graph lemmas -/

theorem Graph.mem_neighbors (G : Graph) (u v : Nat) :
    v ∈ G.neighbors u ↔ v < G.n ∧ G.adj u v = true := by
  unfold Graph.neighbors
  rw [List.mem_filter, List.mem_range]

theorem Graph.neighbors_nodup (G : Graph) (u : Nat) :
    (G.neighbors u).Nodup :=
  (List.nodup_range G.n).filter _

theorem Graph.mem_neighbors_symm (G : Graph) (hs : G.Symm) {u v : Nat}
    (hu : u < G.n) (hv : v < G.n) :
    v ∈ G.neighbors u ↔ u ∈ G.neighbors v := by
  rw [G.mem_neighbors, G.mem_neighbors, hs u v]
  tauto

/-! ### Counting lemmas for status flips -/

theorem countP_update_mem {l : List Nat} (hnd : l.Nodup) {v : Nat} (hv : v ∈ l)
    (f : Nat → Status) (s x : Status) :
    l.countP (fun w => decide (Function.update f v s w = x)) +
      (if f v = x then 1 else 0) =
    l.countP (fun w => decide (f w = x)) + (if s = x then 1 else 0) := by
  induction l with
  | nil => cases hv
  | cons a rest ih =>
    rw [List.countP_cons, List.countP_cons]
    have hnd' := List.nodup_cons.mp hnd
    rcases List.mem_cons.mp hv with rfl | hv'
    · have hcount : rest.countP (fun w => decide (Function.update f v s w = x)) =
          rest.countP (fun w => decide (f w = x)) := by
        apply List.countP_congr
        intro w hw
        have hwv : w ≠ v := fun h => hnd'.1 (by rw [← h]; exact hw)
        rw [Function.update_noteq hwv]
      rw [hcount, Function.update_same]
      by_cases h1 : s = x <;> by_cases h2 : f v = x <;>
        simp [h1, h2] <;> omega
    · have hav : a ≠ v := fun h => hnd'.1 (by rw [h]; exact hv')
      rw [Function.update_noteq hav]
      have hih := ih hnd'.2 hv'
      by_cases ha : f a = x <;> simp [ha] <;> omega

theorem countP_update_not_mem {l : List Nat} {v : Nat} (hv : v ∉ l)
    (f : Nat → Status) (s x : Status) :
    l.countP (fun w => decide (Function.update f v s w = x)) =
    l.countP (fun w => decide (f w = x)) := by
  apply List.countP_congr
  intro w hw
  have hwv : w ≠ v := fun h => hv (by rw [← h]; exact hw)
  rw [Function.update_noteq hwv]

theorem countStat_update (G : Graph) (status : Nat → Status) (v : Nat)
    (hv : v < G.n) (s x : Status) :
    countStat G (Function.update status v s) x +
      (if status v = x then 1 else 0) =
    countStat G status x + (if s = x then 1 else 0) := by
  unfold countStat
  rw [← List.countP_eq_length_filter, ← List.countP_eq_length_filter]
  have h := countP_update_mem (List.nodup_range G.n)
    (List.mem_range.mpr hv) status s x
  by_cases h1 : s = x <;> by_cases h2 : status v = x <;>
    simp only [h1, h2, if_true, if_false] at h ⊢ <;> push_cast <;> omega

theorem trueCount_update_mem (G : Graph) {v w : Nat} (hw : w ∈ G.neighbors v)
    (status : Nat → Status) (s : Status) :
    trueCount G (Function.update status w s) v +
      (if status w = .I then 1 else 0) =
    trueCount G status v + (if s = .I then 1 else 0) := by
  unfold trueCount
  rw [← List.countP_eq_length_filter, ← List.countP_eq_length_filter]
  exact countP_update_mem (G.neighbors_nodup v) hw status s .I

theorem trueCount_update_not_mem (G : Graph) {v w : Nat}
    (hw : w ∉ G.neighbors v) (status : Nat → Status) (s : Status) :
    trueCount G (Function.update status w s) v = trueCount G status v := by
  unfold trueCount
  rw [← List.countP_eq_length_filter, ← List.countP_eq_length_filter]
  exact countP_update_not_mem hw status s .I

/-! ### Specifications of the neighbor-loop step functions -/

theorem ListDict.remove_ok_mem {ld : ListDict} {x : Nat} {b' : ListDict}
    (h : ld.remove x = .ok b') : x ∈ ld.items := by
  by_contra hx
  rw [ListDict.remove_absent ld x hx] at h
  cases h

theorem ListDict.remove_ok_char {ld : ListDict} {x : Nat} {b' : ListDict}
    (hnd : ld.items.Nodup) (h : ld.remove x = .ok b') :
    x ∈ ld.items ∧ b'.items.Nodup ∧
      (∀ y, y ∈ b'.items ↔ y ∈ ld.items ∧ y ≠ x) ∧
      b'.items.length + 1 = ld.items.length := by
  have hx := ListDict.remove_ok_mem h
  obtain ⟨l', h1, h2, h3, h4⟩ := ListDict.remove_ok_spec ld.items x hx hnd
  have heq : ListDict.remove ⟨ld.items⟩ x = ld.remove x := by cases ld; rfl
  rw [heq, h] at h1
  have hb : b' = ⟨l'⟩ := Except.ok.inj h1
  subst hb
  exact ⟨hx, h2, h3, h4⟩

theorem ListDict.choose_random_ok_mem {ld : ListDict} {k : Nat} {y : Nat}
    (h : ld.choose_random k = .ok y) : y ∈ ld.items := by
  unfold ListDict.choose_random at h
  split at h
  · cases h
  · exact (Except.ok.inj h) ▸ ld.items.get_mem _ _

/-- One infect-loop step on a susceptible neighbor: only `v`'s count and
bucket membership change; `v` ends up exactly in the bucket one level up. -/
theorem infectNbrStep_spec_S (status' : Nat → Status) (inc : Nat → Nat)
    (risk : List (Nat × ListDict)) (v : Nat)
    (res : (Nat → Nat) × List (Nat × ListDict))
    (hS : status' v = .S)
    (hkeys : (risk.map Prod.fst).Nodup)
    (hbn : ∀ k, (riskGet risk k).items.Nodup)
    (hvb : ∀ k, v ∈ (riskGet risk k).items → k = inc v ∧ 0 < k)
    (h : infectNbrStep status' (inc, risk) v = .ok res) :
    res.1 = Function.update inc v (inc v + 1) ∧
    ((res.2.map Prod.fst).Nodup) ∧
    (∀ k, (riskGet res.2 k).items.Nodup) ∧
    (∀ w k, w ≠ v → (w ∈ (riskGet res.2 k).items ↔ w ∈ (riskGet risk k).items)) ∧
    (∀ k, v ∈ (riskGet res.2 k).items ↔ k = inc v + 1) := by
  unfold infectNbrStep at h
  rw [if_pos hS] at h
  dsimp only at h
  by_cases h0 : inc v > 0
  · rw [if_pos h0] at h
    obtain ⟨bb, hrem, h⟩ := exceptBind_ok h
    obtain ⟨riskA, hpure, h⟩ := exceptBind_ok h
    have hA : riskA = riskSet risk (inc v) bb := (Except.ok.inj hpure).symm
    subst hA
    have hres : res = (Function.update inc v (inc v + 1),
        riskSet (riskSet risk (inc v) bb) (Function.update inc v (inc v + 1) v)
          ((riskGet (riskSet risk (inc v) bb)
            (Function.update inc v (inc v + 1) v)).add v)) :=
      (Except.ok.inj h).symm
    subst hres
    simp only [Function.update_same]
    obtain ⟨hvmem, hbbnd, hbbmem, -⟩ := ListDict.remove_ok_char (hbn (inc v)) hrem
    have hne : inc v + 1 ≠ inc v := Nat.succ_ne_self _
    have hAget : ∀ k, k ≠ inc v →
        riskGet (riskSet risk (inc v) bb) k = riskGet risk k :=
      fun k hk => riskGet_riskSet_ne risk (inc v) k bb hk
    have hAget_self : riskGet (riskSet risk (inc v) bb) (inc v) = bb :=
      riskGet_riskSet_self risk (inc v) bb
    refine ⟨by trivial, ?_, ?_, ?_, ?_⟩
    · exact riskSet_keys_nodup _ _ _ (riskSet_keys_nodup _ _ _ hkeys)
    · intro k
      by_cases hk1 : k = inc v + 1
      · subst hk1
        rw [riskGet_riskSet_self]
        exact ListDict.add_nodup _ _ (by rw [hAget _ hne]; exact hbn _)
      · rw [riskGet_riskSet_ne _ _ _ _ hk1]
        by_cases hk2 : k = inc v
        · subst hk2; rw [hAget_self]; exact hbbnd
        · rw [hAget _ hk2]; exact hbn k
    · intro w k hw
      by_cases hk1 : k = inc v + 1
      · subst hk1
        rw [riskGet_riskSet_self, ListDict.mem_add, hAget _ hne]
        constructor
        · rintro (hmem | rfl)
          · exact hmem
          · exact absurd rfl hw
        · exact Or.inl
      · rw [riskGet_riskSet_ne _ _ _ _ hk1]
        by_cases hk2 : k = inc v
        · subst hk2
          rw [hAget_self]
          rw [hbbmem w]
          exact ⟨fun hh => hh.1, fun hh => ⟨hh, hw⟩⟩
        · rw [hAget _ hk2]
    · intro k
      by_cases hk1 : k = inc v + 1
      · subst hk1
        rw [riskGet_riskSet_self, ListDict.mem_add]
        simp
      · rw [riskGet_riskSet_ne _ _ _ _ hk1]
        by_cases hk2 : k = inc v
        · subst hk2
          rw [hAget_self]
          constructor
          · intro hmem
            exact absurd rfl ((hbbmem v).mp hmem).2
          · intro hmem
            exact absurd hmem hk1
        · rw [hAget _ hk2]
          constructor
          · intro hmem
            exact absurd ((hvb k hmem).1) hk2
          · intro hmem
            exact absurd hmem hk1
  · rw [if_neg h0] at h
    push_neg at h0
    have hv0 : inc v = 0 := Nat.le_zero.mp h0
    obtain ⟨riskA, hbind, h⟩ := exceptBind_ok h
    have hA : riskA = risk := (Except.ok.inj hbind).symm
    rw [hA] at h
    have hres : res = (Function.update inc v (inc v + 1),
        riskSet risk (Function.update inc v (inc v + 1) v)
          ((riskGet risk (Function.update inc v (inc v + 1) v)).add v)) :=
      (Except.ok.inj h).symm
    subst hres
    simp only [Function.update_same]
    refine ⟨by trivial, riskSet_keys_nodup _ _ _ hkeys, ?_, ?_, ?_⟩
    · intro k
      by_cases hk1 : k = inc v + 1
      · subst hk1
        rw [riskGet_riskSet_self]
        exact ListDict.add_nodup _ _ (hbn _)
      · rw [riskGet_riskSet_ne _ _ _ _ hk1]
        exact hbn k
    · intro w k hw
      by_cases hk1 : k = inc v + 1
      · subst hk1
        rw [riskGet_riskSet_self, ListDict.mem_add]
        constructor
        · rintro (hmem | rfl)
          · exact hmem
          · exact absurd rfl hw
        · exact Or.inl
      · rw [riskGet_riskSet_ne _ _ _ _ hk1]
    · intro k
      by_cases hk1 : k = inc v + 1
      · subst hk1
        rw [riskGet_riskSet_self, ListDict.mem_add]
        simp
      · rw [riskGet_riskSet_ne _ _ _ _ hk1]
        constructor
        · intro hmem
          obtain ⟨hk, hpos⟩ := hvb k hmem
          rw [hk, hv0] at hpos
          cases hpos
        · intro hmem
          exact absurd hmem hk1

theorem infectNbrStep_spec_nS (status' : Nat → Status) (inc : Nat → Nat)
    (risk : List (Nat × ListDict)) (v : Nat)
    (res : (Nat → Nat) × List (Nat × ListDict))
    (hS : ¬ status' v = .S)
    (h : infectNbrStep status' (inc, risk) v = .ok res) : res = (inc, risk) := by
  unfold infectNbrStep at h
  rw [if_neg hS] at h
  exact (Except.ok.inj h).symm

/-- One decrement step on a susceptible neighbor (used by both recovery
handlers): success implies the node was tracked, and it moves down one
bucket, leaving the buckets when its count hits zero. -/
theorem decrNbrStep_spec_S (status' : Nat → Status) (inc : Nat → Nat)
    (risk : List (Nat × ListDict)) (v : Nat)
    (res : (Nat → Nat) × List (Nat × ListDict))
    (hS : status' v = .S)
    (hkeys : (risk.map Prod.fst).Nodup)
    (hbn : ∀ k, (riskGet risk k).items.Nodup)
    (hvb : ∀ k, v ∈ (riskGet risk k).items → k = inc v ∧ 0 < k)
    (h : decrNbrStep status' (inc, risk) v = .ok res) :
    0 < inc v ∧
    res.1 = Function.update inc v (inc v - 1) ∧
    ((res.2.map Prod.fst).Nodup) ∧
    (∀ k, (riskGet res.2 k).items.Nodup) ∧
    (∀ w k, w ≠ v → (w ∈ (riskGet res.2 k).items ↔ w ∈ (riskGet risk k).items)) ∧
    (∀ k, v ∈ (riskGet res.2 k).items ↔ (k = inc v - 1 ∧ 0 < inc v - 1)) := by
  unfold decrNbrStep at h
  rw [if_pos hS] at h
  dsimp only at h
  obtain ⟨bb, hrem, h⟩ := exceptBind_ok h
  have hvmem := ListDict.remove_ok_mem hrem
  have hpos : 0 < inc v := (hvb (inc v) hvmem).2
  obtain ⟨-, hbbnd, hbbmem, -⟩ := ListDict.remove_ok_char (hbn (inc v)) hrem
  have hAget : ∀ k, k ≠ inc v →
      riskGet (riskSet risk (inc v) bb) k = riskGet risk k :=
    fun k hk => riskGet_riskSet_ne risk (inc v) k bb hk
  have hAget_self : riskGet (riskSet risk (inc v) bb) (inc v) = bb :=
    riskGet_riskSet_self risk (inc v) bb
  have hkeysA : ((riskSet risk (inc v) bb).map Prod.fst).Nodup :=
    riskSet_keys_nodup _ _ _ hkeys
  have hbnA : ∀ k, (riskGet (riskSet risk (inc v) bb) k).items.Nodup := by
    intro k
    by_cases hk : k = inc v
    · subst hk; rw [hAget_self]; exact hbbnd
    · rw [hAget _ hk]; exact hbn k
  simp only [Function.update_same] at h
  by_cases hgt : inc v - 1 > 0
  · rw [if_pos hgt] at h
    have hne : inc v - 1 ≠ inc v := by omega
    have hres : res = (Function.update inc v (inc v - 1),
        riskSet (riskSet risk (inc v) bb) (inc v - 1)
          ((riskGet (riskSet risk (inc v) bb) (inc v - 1)).add v)) :=
      (Except.ok.inj h).symm
    subst hres
    refine ⟨hpos, by trivial, riskSet_keys_nodup _ _ _ hkeysA, ?_, ?_, ?_⟩
    · intro k
      by_cases hk1 : k = inc v - 1
      · subst hk1
        rw [riskGet_riskSet_self]
        exact ListDict.add_nodup _ _ (hbnA _)
      · rw [riskGet_riskSet_ne _ _ _ _ hk1]
        exact hbnA k
    · intro w k hw
      by_cases hk1 : k = inc v - 1
      · subst hk1
        rw [riskGet_riskSet_self, ListDict.mem_add, hAget _ hne]
        constructor
        · rintro (hmem | rfl)
          · exact hmem
          · exact absurd rfl hw
        · exact Or.inl
      · rw [riskGet_riskSet_ne _ _ _ _ hk1]
        by_cases hk2 : k = inc v
        · subst hk2
          rw [hAget_self, hbbmem w]
          exact ⟨fun hh => hh.1, fun hh => ⟨hh, hw⟩⟩
        · rw [hAget _ hk2]
    · intro k
      by_cases hk1 : k = inc v - 1
      · subst hk1
        rw [riskGet_riskSet_self, ListDict.mem_add]
        simp [hgt]
      · rw [riskGet_riskSet_ne _ _ _ _ hk1]
        constructor
        · intro hmem
          by_cases hk2 : k = inc v
          · subst hk2
            rw [hAget_self] at hmem
            exact absurd rfl ((hbbmem v).mp hmem).2
          · rw [hAget _ hk2] at hmem
            exact absurd (hvb k hmem).1 hk2
        · rintro ⟨hk, -⟩
          exact absurd hk hk1
  · rw [if_neg hgt] at h
    have hres : res = (Function.update inc v (inc v - 1),
        riskSet risk (inc v) bb) := (Except.ok.inj h).symm
    subst hres
    refine ⟨hpos, by trivial, hkeysA, hbnA, ?_, ?_⟩
    · intro w k hw
      by_cases hk2 : k = inc v
      · subst hk2
        rw [hAget_self, hbbmem w]
        exact ⟨fun hh => hh.1, fun hh => ⟨hh, hw⟩⟩
      · rw [hAget _ hk2]
    · intro k
      constructor
      · intro hmem
        by_cases hk2 : k = inc v
        · subst hk2
          rw [hAget_self] at hmem
          exact absurd rfl ((hbbmem v).mp hmem).2
        · rw [hAget _ hk2] at hmem
          exact absurd (hvb k hmem).1 hk2
      · rintro ⟨-, hgt'⟩
        exact absurd hgt' hgt

theorem decrNbrStep_spec_nS (status' : Nat → Status) (inc : Nat → Nat)
    (risk : List (Nat × ListDict)) (v : Nat)
    (res : (Nat → Nat) × List (Nat × ListDict))
    (hS : ¬ status' v = .S)
    (h : decrNbrStep status' (inc, risk) v = .ok res) : res = (inc, risk) := by
  unfold decrNbrStep at h
  rw [if_neg hS] at h
  exact (Except.ok.inj h).symm

theorem recoverSISNbrStep_self (recovering : Nat) (status' : Nat → Status)
    (acc : (Nat → Nat) × List (Nat × ListDict)) (v : Nat) (hv : v = recovering) :
    recoverSISNbrStep recovering status' acc v = .ok acc := by
  unfold recoverSISNbrStep
  rw [if_pos hv]
  rfl

theorem recoverSISNbrStep_I (recovering : Nat) (status' : Nat → Status)
    (acc : (Nat → Nat) × List (Nat × ListDict)) (v : Nat)
    (hv : v ≠ recovering) (hI : status' v = .I) :
    recoverSISNbrStep recovering status' acc v =
      .ok (Function.update acc.1 recovering (acc.1 recovering + 1), acc.2) := by
  unfold recoverSISNbrStep
  rw [if_neg hv, if_pos hI]
  rfl

theorem recoverSISNbrStep_S (recovering : Nat) (status' : Nat → Status)
    (acc : (Nat → Nat) × List (Nat × ListDict)) (v : Nat)
    (hv : v ≠ recovering) (hI : ¬ status' v = .I) :
    recoverSISNbrStep recovering status' acc v = decrNbrStep status' acc v := by
  unfold recoverSISNbrStep
  rw [if_neg hv, if_neg hI]

/-- One initialization step on a susceptible neighbor: identical effect to
the infect-loop step (count up one, move up one bucket). -/
theorem initNbrStep_spec_S (status1 : Nat → Status) (inc : Nat → Nat)
    (risk : List (Nat × ListDict)) (v : Nat)
    (res : (Nat → Nat) × List (Nat × ListDict))
    (hS : status1 v = .S)
    (hkeys : (risk.map Prod.fst).Nodup)
    (hbn : ∀ k, (riskGet risk k).items.Nodup)
    (hvb : ∀ k, v ∈ (riskGet risk k).items → k = inc v ∧ 0 < k)
    (h : initNbrStep status1 (inc, risk) v = .ok res) :
    res.1 = Function.update inc v (inc v + 1) ∧
    ((res.2.map Prod.fst).Nodup) ∧
    (∀ k, (riskGet res.2 k).items.Nodup) ∧
    (∀ w k, w ≠ v → (w ∈ (riskGet res.2 k).items ↔ w ∈ (riskGet risk k).items)) ∧
    (∀ k, v ∈ (riskGet res.2 k).items ↔ k = inc v + 1) := by
  unfold initNbrStep at h
  rw [if_pos hS] at h
  dsimp only at h
  simp only [Function.update_same] at h
  by_cases h0 : inc v + 1 > 1
  · rw [if_pos h0] at h
    have h0' : 0 < inc v := by omega
    obtain ⟨bb, hrem, h⟩ := exceptBind_ok h
    obtain ⟨riskA, hpure, h⟩ := exceptBind_ok h
    simp only [Nat.add_sub_cancel] at hrem hpure
    have hA : riskA = riskSet risk (inc v) bb := (Except.ok.inj hpure).symm
    subst hA
    have hres : res = (Function.update inc v (inc v + 1),
        riskSet (riskSet risk (inc v) bb) (inc v + 1)
          ((riskGet (riskSet risk (inc v) bb) (inc v + 1)).add v)) :=
      (Except.ok.inj h).symm
    subst hres
    obtain ⟨hvmem, hbbnd, hbbmem, -⟩ := ListDict.remove_ok_char (hbn (inc v)) hrem
    have hne : inc v + 1 ≠ inc v := Nat.succ_ne_self _
    have hAget : ∀ k, k ≠ inc v →
        riskGet (riskSet risk (inc v) bb) k = riskGet risk k :=
      fun k hk => riskGet_riskSet_ne risk (inc v) k bb hk
    have hAget_self : riskGet (riskSet risk (inc v) bb) (inc v) = bb :=
      riskGet_riskSet_self risk (inc v) bb
    refine ⟨by trivial, ?_, ?_, ?_, ?_⟩
    · exact riskSet_keys_nodup _ _ _ (riskSet_keys_nodup _ _ _ hkeys)
    · intro k
      by_cases hk1 : k = inc v + 1
      · subst hk1
        rw [riskGet_riskSet_self]
        exact ListDict.add_nodup _ _ (by rw [hAget _ hne]; exact hbn _)
      · rw [riskGet_riskSet_ne _ _ _ _ hk1]
        by_cases hk2 : k = inc v
        · subst hk2; rw [hAget_self]; exact hbbnd
        · rw [hAget _ hk2]; exact hbn k
    · intro w k hw
      by_cases hk1 : k = inc v + 1
      · subst hk1
        rw [riskGet_riskSet_self, ListDict.mem_add, hAget _ hne]
        constructor
        · rintro (hmem | rfl)
          · exact hmem
          · exact absurd rfl hw
        · exact Or.inl
      · rw [riskGet_riskSet_ne _ _ _ _ hk1]
        by_cases hk2 : k = inc v
        · subst hk2
          rw [hAget_self, hbbmem w]
          exact ⟨fun hh => hh.1, fun hh => ⟨hh, hw⟩⟩
        · rw [hAget _ hk2]
    · intro k
      by_cases hk1 : k = inc v + 1
      · subst hk1
        rw [riskGet_riskSet_self, ListDict.mem_add]
        simp
      · rw [riskGet_riskSet_ne _ _ _ _ hk1]
        by_cases hk2 : k = inc v
        · subst hk2
          rw [hAget_self]
          constructor
          · intro hmem
            exact absurd rfl ((hbbmem v).mp hmem).2
          · intro hmem
            exact absurd hmem hk1
        · rw [hAget _ hk2]
          constructor
          · intro hmem
            exact absurd (hvb k hmem).1 hk2
          · intro hmem
            exact absurd hmem hk1
  · rw [if_neg h0] at h
    have hv0 : inc v = 0 := by omega
    obtain ⟨riskA, hbind, h⟩ := exceptBind_ok h
    have hA : riskA = risk := (Except.ok.inj hbind).symm
    rw [hA] at h
    have hres : res = (Function.update inc v (inc v + 1),
        riskSet risk (inc v + 1) ((riskGet risk (inc v + 1)).add v)) :=
      (Except.ok.inj h).symm
    subst hres
    refine ⟨by trivial, riskSet_keys_nodup _ _ _ hkeys, ?_, ?_, ?_⟩
    · intro k
      by_cases hk1 : k = inc v + 1
      · subst hk1
        rw [riskGet_riskSet_self]
        exact ListDict.add_nodup _ _ (hbn _)
      · rw [riskGet_riskSet_ne _ _ _ _ hk1]
        exact hbn k
    · intro w k hw
      by_cases hk1 : k = inc v + 1
      · subst hk1
        rw [riskGet_riskSet_self, ListDict.mem_add]
        constructor
        · rintro (hmem | rfl)
          · exact hmem
          · exact absurd rfl hw
        · exact Or.inl
      · rw [riskGet_riskSet_ne _ _ _ _ hk1]
    · intro k
      by_cases hk1 : k = inc v + 1
      · subst hk1
        rw [riskGet_riskSet_self, ListDict.mem_add]
        simp
      · rw [riskGet_riskSet_ne _ _ _ _ hk1]
        constructor
        · intro hmem
          obtain ⟨hk, hposk⟩ := hvb k hmem
          rw [hk, hv0] at hposk
          cases hposk
        · intro hmem
          exact absurd hmem hk1

theorem initNbrStep_spec_nS (status1 : Nat → Status) (inc : Nat → Nat)
    (risk : List (Nat × ListDict)) (v : Nat)
    (res : (Nat → Nat) × List (Nat × ListDict))
    (hS : ¬ status1 v = .S)
    (h : initNbrStep status1 (inc, risk) v = .ok res) : res = (inc, risk) := by
  unfold initNbrStep at h
  rw [if_neg hS] at h
  exact (Except.ok.inj h).symm

/-! ### Neighbor-loop fold invariants -/

theorem bucketsOK_congr {G : Graph} {status' : Nat → Status} {inc : Nat → Nat}
    {risk : List (Nat × ListDict)} {cnt cnt' : Nat → Nat} {skip : Option Nat}
    (h : BucketsOK G status' inc risk cnt skip)
    (hc : ∀ v, v < G.n → status' v = .S → skip ≠ some v → cnt v = cnt' v) :
    BucketsOK G status' inc risk cnt' skip := by
  obtain ⟨h1, h2, h3, h4, h5, h6⟩ := h
  exact ⟨h1, h2, h3,
    fun v hv hs hsk => (h4 v hv hs hsk).trans (hc v hv hs hsk), h5, h6⟩

/-- The infect-loop fold: processing the still-susceptible neighbors of the
just-infected `recipient` turns bucket coherence w.r.t. the pre-flip counts
into bucket coherence w.r.t. the post-flip counts. -/
theorem infect_fold_ok (G : Graph) (hs : G.Symm) (statusOld : Nat → Status)
    (recipient : Nat) (hrn : recipient < G.n)
    (hrecS : statusOld recipient = .S) :
    ∀ (todo : List Nat) (inc : Nat → Nat) (risk : List (Nat × ListDict)),
      todo.Nodup → (∀ v ∈ todo, v ∈ G.neighbors recipient) →
      BucketsOK G (Function.update statusOld recipient .I) inc risk
        (fun v => if v ∈ todo then trueCount G statusOld v
                  else trueCount G (Function.update statusOld recipient .I) v)
        none →
      ∀ res, todo.foldlM
          (infectNbrStep (Function.update statusOld recipient .I)) (inc, risk)
          = .ok res →
        BucketsOK G (Function.update statusOld recipient .I) res.1 res.2
          (trueCount G (Function.update statusOld recipient .I)) none := by
  intro todo
  induction todo with
  | nil =>
    intro inc risk _ _ hB res h
    rw [List.foldlM_nil] at h
    have hres : res = (inc, risk) := (Except.ok.inj h).symm
    subst hres
    exact bucketsOK_congr hB (fun v _ _ _ => by simp)
  | cons v rest ih =>
    intro inc risk hnd htodo hB res h
    rw [List.foldlM_cons] at h
    obtain ⟨acc', hstep, h⟩ := exceptBind_ok h
    obtain ⟨inc1, risk1⟩ := acc'
    have hnd' := List.nodup_cons.mp hnd
    obtain ⟨hkeys, hbn, hbm, hcnt, htr, -⟩ := hB
    by_cases hSv : Function.update statusOld recipient .I v = .S
    · have hvn : v < G.n :=
        ((G.mem_neighbors recipient v).mp (htodo v (List.mem_cons_self v rest))).1
      have hvnbr : recipient ∈ G.neighbors v :=
        (G.mem_neighbors_symm hs hrn hvn).mp (htodo v (List.mem_cons_self v rest))
      obtain ⟨hinc1, hkeys', hbn', hmemne, hmemv⟩ :=
        infectNbrStep_spec_S _ inc risk v (inc1, risk1) hSv hkeys hbn
          (fun k hk => ⟨(hbm k v hk).2.1.symm, (hbm k v hk).2.2.2⟩) hstep
      simp only at hinc1
      subst hinc1
      have hflip : trueCount G (Function.update statusOld recipient .I) v
          = trueCount G statusOld v + 1 := by
        have h2 := trueCount_update_mem G hvnbr statusOld Status.I
        rw [hrecS] at h2
        simp at h2
        omega
      refine ih (Function.update inc v (inc v + 1)) risk1 hnd'.2
        (fun w hw => htodo w (List.mem_cons_of_mem v hw))
        ⟨hkeys', hbn', ?_, ?_, ?_, by simp⟩ res h
      · intro k w hw
        by_cases hwv : w = v
        · subst hwv
          have hk := (hmemv k).mp hw
          subst hk
          exact ⟨hSv, Function.update_same _ _ _, hvn, Nat.succ_pos _⟩
        · have hw' := (hmemne w k hwv).mp hw
          obtain ⟨ha, hb, hc, hd⟩ := hbm k w hw'
          exact ⟨ha, by rw [Function.update_noteq hwv]; exact hb, hc, hd⟩
      · rintro w hwn hwS -
        have h1 := hcnt w hwn hwS (by simp)
        dsimp only at h1 ⊢
        by_cases hwv : w = v
        · subst hwv
          rw [Function.update_same]
          rw [if_pos (List.mem_cons_self w rest)] at h1
          rw [if_neg hnd'.1]
          omega
        · rw [Function.update_noteq hwv]
          by_cases hwr : w ∈ rest
          · rw [if_pos hwr]
            rw [if_pos (List.mem_cons_of_mem v hwr)] at h1
            exact h1
          · rw [if_neg hwr]
            rw [if_neg (fun hh => (List.mem_cons.mp hh).elim hwv hwr)] at h1
            exact h1
      · rintro w hwn hwS - hpos
        by_cases hwv : w = v
        · subst hwv
          rw [Function.update_same] at hpos ⊢
          exact (hmemv (inc w + 1)).mpr rfl
        · rw [Function.update_noteq hwv] at hpos ⊢
          exact (hmemne w (inc w) hwv).mpr (htr w hwn hwS (by simp) hpos)
    · have hacc : (inc1, risk1) = (inc, risk) :=
        infectNbrStep_spec_nS _ inc risk v (inc1, risk1) hSv hstep
      rw [hacc] at h
      refine ih inc risk hnd'.2 (fun w hw => htodo w (List.mem_cons_of_mem v hw))
        ⟨hkeys, hbn, hbm, ?_, htr, by simp⟩ res h
      intro w hwn hwS hsk
      have h1 := hcnt w hwn hwS hsk
      dsimp only at h1 ⊢
      have hwv : w ≠ v := fun hh => hSv (hh ▸ hwS)
      by_cases hwr : w ∈ rest
      · rw [if_pos hwr]
        rw [if_pos (List.mem_cons_of_mem v hwr)] at h1
        exact h1
      · rw [if_neg hwr]
        rw [if_neg (fun hh => (List.mem_cons.mp hh).elim hwv hwr)] at h1
        exact h1

/-- The SIR recovery-loop fold: susceptible neighbors of the recovering
node move down one risk level, preserving bucket coherence. -/
theorem recover_fold_ok (G : Graph) (hs : G.Symm) (statusOld : Nat → Status)
    (recovering : Nat) (hrn : recovering < G.n)
    (hrecI : statusOld recovering = .I) :
    ∀ (todo : List Nat) (inc : Nat → Nat) (risk : List (Nat × ListDict)),
      todo.Nodup → (∀ v ∈ todo, v ∈ G.neighbors recovering) →
      BucketsOK G (Function.update statusOld recovering .R) inc risk
        (fun v => if v ∈ todo then trueCount G statusOld v
                  else trueCount G (Function.update statusOld recovering .R) v)
        none →
      ∀ res, todo.foldlM
          (decrNbrStep (Function.update statusOld recovering .R)) (inc, risk)
          = .ok res →
        BucketsOK G (Function.update statusOld recovering .R) res.1 res.2
          (trueCount G (Function.update statusOld recovering .R)) none := by
  intro todo
  induction todo with
  | nil =>
    intro inc risk _ _ hB res h
    rw [List.foldlM_nil] at h
    have hres : res = (inc, risk) := (Except.ok.inj h).symm
    subst hres
    exact bucketsOK_congr hB (fun v _ _ _ => by simp)
  | cons v rest ih =>
    intro inc risk hnd htodo hB res h
    rw [List.foldlM_cons] at h
    obtain ⟨acc', hstep, h⟩ := exceptBind_ok h
    obtain ⟨inc1, risk1⟩ := acc'
    have hnd' := List.nodup_cons.mp hnd
    obtain ⟨hkeys, hbn, hbm, hcnt, htr, -⟩ := hB
    by_cases hSv : Function.update statusOld recovering .R v = .S
    · have hvn : v < G.n :=
        ((G.mem_neighbors recovering v).mp (htodo v (List.mem_cons_self v rest))).1
      have hvnbr : recovering ∈ G.neighbors v :=
        (G.mem_neighbors_symm hs hrn hvn).mp (htodo v (List.mem_cons_self v rest))
      obtain ⟨hposv, hinc1, hkeys', hbn', hmemne, hmemv⟩ :=
        decrNbrStep_spec_S _ inc risk v (inc1, risk1) hSv hkeys hbn
          (fun k hk => ⟨(hbm k v hk).2.1.symm, (hbm k v hk).2.2.2⟩) hstep
      simp only at hinc1
      subst hinc1
      have hflip : trueCount G (Function.update statusOld recovering .R) v + 1
          = trueCount G statusOld v := by
        have h2 := trueCount_update_mem G hvnbr statusOld Status.R
        rw [hrecI] at h2
        simp at h2
        omega
      refine ih (Function.update inc v (inc v - 1)) risk1 hnd'.2
        (fun w hw => htodo w (List.mem_cons_of_mem v hw))
        ⟨hkeys', hbn', ?_, ?_, ?_, by simp⟩ res h
      · intro k w hw
        by_cases hwv : w = v
        · subst hwv
          obtain ⟨hk, hkpos⟩ := (hmemv k).mp hw
          subst hk
          exact ⟨hSv, Function.update_same _ _ _, hvn, hkpos⟩
        · have hw' := (hmemne w k hwv).mp hw
          obtain ⟨ha, hb, hc, hd⟩ := hbm k w hw'
          exact ⟨ha, by rw [Function.update_noteq hwv]; exact hb, hc, hd⟩
      · rintro w hwn hwS -
        have h1 := hcnt w hwn hwS (by simp)
        dsimp only at h1 ⊢
        by_cases hwv : w = v
        · subst hwv
          rw [Function.update_same]
          rw [if_pos (List.mem_cons_self w rest)] at h1
          rw [if_neg hnd'.1]
          omega
        · rw [Function.update_noteq hwv]
          by_cases hwr : w ∈ rest
          · rw [if_pos hwr]
            rw [if_pos (List.mem_cons_of_mem v hwr)] at h1
            exact h1
          · rw [if_neg hwr]
            rw [if_neg (fun hh => (List.mem_cons.mp hh).elim hwv hwr)] at h1
            exact h1
      · rintro w hwn hwS - hpos
        by_cases hwv : w = v
        · subst hwv
          rw [Function.update_same] at hpos ⊢
          exact (hmemv (inc w - 1)).mpr ⟨rfl, hpos⟩
        · rw [Function.update_noteq hwv] at hpos ⊢
          exact (hmemne w (inc w) hwv).mpr (htr w hwn hwS (by simp) hpos)
    · have hacc : (inc1, risk1) = (inc, risk) :=
        decrNbrStep_spec_nS _ inc risk v (inc1, risk1) hSv hstep
      rw [hacc] at h
      refine ih inc risk hnd'.2 (fun w hw => htodo w (List.mem_cons_of_mem v hw))
        ⟨hkeys, hbn, hbm, ?_, htr, by simp⟩ res h
      intro w hwn hwS hsk
      have h1 := hcnt w hwn hwS hsk
      dsimp only at h1 ⊢
      have hwv : w ≠ v := fun hh => hSv (hh ▸ hwS)
      by_cases hwr : w ∈ rest
      · rw [if_pos hwr]
        rw [if_pos (List.mem_cons_of_mem v hwr)] at h1
        exact h1
      · rw [if_neg hwr]
        rw [if_neg (fun hh => (List.mem_cons.mp hh).elim hwv hwr)] at h1
        exact h1

/-- The SIS recovery-loop fold: susceptible neighbors move down one level,
infected neighbors accumulate into the recovering node's rebuilt count, the
recovering node itself stays outside all buckets until after the loop. -/
theorem recoverSIS_fold_ok (G : Graph) (hs : G.Symm) (statusOld : Nat → Status)
    (recovering : Nat) (hrn : recovering < G.n)
    (hrecI : statusOld recovering = .I)
    (hnoR : ∀ w, statusOld w ≠ .R) :
    ∀ (todo : List Nat) (inc : Nat → Nat) (risk : List (Nat × ListDict)),
      todo.Nodup → (∀ v ∈ todo, v ∈ G.neighbors recovering) →
      BucketsOK G (Function.update statusOld recovering .S) inc risk
        (fun v => if v ∈ todo then trueCount G statusOld v
                  else trueCount G (Function.update statusOld recovering .S) v)
        (some recovering) →
      ∀ res, todo.foldlM
          (recoverSISNbrStep recovering
            (Function.update statusOld recovering .S)) (inc, risk) = .ok res →
        BucketsOK G (Function.update statusOld recovering .S) res.1 res.2
          (trueCount G (Function.update statusOld recovering .S))
          (some recovering) ∧
        res.1 recovering = inc recovering +
          (todo.filter (fun w => decide (w ≠ recovering) &&
            decide (Function.update statusOld recovering .S w = .I))).length := by
  intro todo
  induction todo with
  | nil =>
    intro inc risk _ _ hB res h
    rw [List.foldlM_nil] at h
    have hres : res = (inc, risk) := (Except.ok.inj h).symm
    subst hres
    exact ⟨bucketsOK_congr hB (fun v _ _ _ => by simp), by simp⟩
  | cons v rest ih =>
    intro inc risk hnd htodo hB res h
    rw [List.foldlM_cons] at h
    obtain ⟨acc', hstep, h⟩ := exceptBind_ok h
    obtain ⟨inc1, risk1⟩ := acc'
    have hnd' := List.nodup_cons.mp hnd
    by_cases hvr : v = recovering
    · rw [recoverSISNbrStep_self recovering _ (inc, risk) v hvr] at hstep
      have hacc : (inc1, risk1) = (inc, risk) := (Except.ok.inj hstep).symm
      rw [hacc] at h
      have hc1 : ∀ w, w < G.n →
          Function.update statusOld recovering Status.S w = Status.S →
          (some recovering : Option Nat) ≠ some w →
          (if w ∈ v :: rest then trueCount G statusOld w
           else trueCount G (Function.update statusOld recovering Status.S) w) =
          (if w ∈ rest then trueCount G statusOld w
           else trueCount G (Function.update statusOld recovering Status.S) w) := by
        intro w hwn hwS hsk
        have hwv : w ≠ v := by
          intro hh
          rw [hh, hvr] at hsk
          exact hsk rfl
        by_cases hwr : w ∈ rest
        · rw [if_pos hwr, if_pos (List.mem_cons_of_mem v hwr)]
        · rw [if_neg hwr,
            if_neg (fun hh => (List.mem_cons.mp hh).elim hwv hwr)]
      obtain ⟨hB', hcount⟩ := ih inc risk hnd'.2
        (fun w hw => htodo w (List.mem_cons_of_mem v hw))
        (bucketsOK_congr hB hc1) res h
      refine ⟨hB', ?_⟩
      rw [hcount, List.filter_cons]
      have hfalse : (decide (v ≠ recovering) &&
          decide (Function.update statusOld recovering Status.S v = .I)) = false := by
        simp [hvr]
      rw [hfalse, if_neg Bool.false_ne_true]
    · by_cases hIv : Function.update statusOld recovering .S v = .I
      · rw [recoverSISNbrStep_I recovering _ (inc, risk) v hvr hIv] at hstep
        have hacc : (inc1, risk1) =
            (Function.update inc recovering (inc recovering + 1), risk) :=
          (Except.ok.inj hstep).symm
        rw [hacc] at h
        obtain ⟨hkeys, hbn, hbm, hcnt, htr, hnr⟩ := hB
        have hbm2 : ∀ k w, w ∈ (riskGet risk k).items →
            Function.update statusOld recovering Status.S w = Status.S ∧
            Function.update inc recovering (inc recovering + 1) w = k ∧
            w < G.n ∧ 0 < k := by
          intro k w hw
          obtain ⟨ha, hb, hc, hd⟩ := hbm k w hw
          have hwrec : w ≠ recovering := by
            intro hh
            exact hnr recovering rfl k (hh ▸ hw)
          exact ⟨ha, by rw [Function.update_noteq hwrec]; exact hb, hc, hd⟩
        have hcnt2 : ∀ w, w < G.n →
            Function.update statusOld recovering Status.S w = Status.S →
            (some recovering : Option Nat) ≠ some w →
            Function.update inc recovering (inc recovering + 1) w =
            (if w ∈ rest then trueCount G statusOld w
             else trueCount G (Function.update statusOld recovering Status.S) w) := by
          intro w hwn hwS hsk
          have hwrec : w ≠ recovering := fun hh => hsk (by rw [hh])
          rw [Function.update_noteq hwrec]
          have h1 := hcnt w hwn hwS hsk
          dsimp only at h1
          have hwv : w ≠ v := by
            intro hh
            rw [← hh] at hIv
            rw [hwS] at hIv
            cases hIv
          by_cases hwr : w ∈ rest
          · rw [if_pos hwr]
            rw [if_pos (List.mem_cons_of_mem v hwr)] at h1
            exact h1
          · rw [if_neg hwr]
            rw [if_neg (fun hh => (List.mem_cons.mp hh).elim hwv hwr)] at h1
            exact h1
        have htr2 : ∀ w, w < G.n →
            Function.update statusOld recovering Status.S w = Status.S →
            (some recovering : Option Nat) ≠ some w →
            0 < Function.update inc recovering (inc recovering + 1) w →
            w ∈ (riskGet risk (Function.update inc recovering
              (inc recovering + 1) w)).items := by
          intro w hwn hwS hsk hpos
          have hwrec : w ≠ recovering := fun hh => hsk (by rw [hh])
          rw [Function.update_noteq hwrec] at hpos ⊢
          exact htr w hwn hwS hsk hpos
        obtain ⟨hB', hcount⟩ := ih _ risk hnd'.2
          (fun w hw => htodo w (List.mem_cons_of_mem v hw))
          ⟨hkeys, hbn, hbm2, hcnt2, htr2, hnr⟩ res h
        refine ⟨hB', ?_⟩
        rw [hcount, Function.update_same, List.filter_cons]
        have hIv' : statusOld v = Status.I := by
          rwa [Function.update_noteq hvr] at hIv
        have htrue : (decide (v ≠ recovering) &&
            decide (Function.update statusOld recovering Status.S v = .I)) = true := by
          simp [hvr, hIv']
        rw [htrue, if_pos rfl, List.length_cons]
        omega
      · have hSv : Function.update statusOld recovering .S v = .S := by
          rw [Function.update_noteq hvr] at hIv ⊢
          cases hv : statusOld v with
          | S => rfl
          | I => exact absurd hv (fun hh => hIv hh)
          | R => exact absurd hv (hnoR v)
        rw [recoverSISNbrStep_S recovering _ (inc, risk) v hvr hIv] at hstep
        have hvn : v < G.n :=
          ((G.mem_neighbors recovering v).mp
            (htodo v (List.mem_cons_self v rest))).1
        have hvnbr : recovering ∈ G.neighbors v :=
          (G.mem_neighbors_symm hs hrn hvn).mp
            (htodo v (List.mem_cons_self v rest))
        obtain ⟨hkeys, hbn, hbm, hcnt, htr, hnr⟩ := hB
        obtain ⟨hposv, hinc1, hkeys', hbn', hmemne, hmemv⟩ :=
          decrNbrStep_spec_S _ inc risk v (inc1, risk1) hSv hkeys hbn
            (fun k hk => ⟨(hbm k v hk).2.1.symm, (hbm k v hk).2.2.2⟩) hstep
        simp only at hinc1
        subst hinc1
        have hflip : trueCount G (Function.update statusOld recovering .S) v + 1
            = trueCount G statusOld v := by
          have h2 := trueCount_update_mem G hvnbr statusOld Status.S
          rw [hrecI] at h2
          simp at h2
          omega
        have hbm3 : ∀ k w, w ∈ (riskGet risk1 k).items →
            Function.update statusOld recovering Status.S w = Status.S ∧
            Function.update inc v (inc v - 1) w = k ∧ w < G.n ∧ 0 < k := by
          intro k w hw
          by_cases hwv : w = v
          · subst hwv
            obtain ⟨hk, hkpos⟩ := (hmemv k).mp hw
            subst hk
            exact ⟨hSv, Function.update_same _ _ _, hvn, hkpos⟩
          · have hw' := (hmemne w k hwv).mp hw
            obtain ⟨ha, hb, hc, hd⟩ := hbm k w hw'
            exact ⟨ha, by rw [Function.update_noteq hwv]; exact hb, hc, hd⟩
        have hcnt3 : ∀ w, w < G.n →
            Function.update statusOld recovering Status.S w = Status.S →
            (some recovering : Option Nat) ≠ some w →
            Function.update inc v (inc v - 1) w =
            (if w ∈ rest then trueCount G statusOld w
             else trueCount G (Function.update statusOld recovering Status.S) w) := by
          intro w hwn hwS hsk
          have h1 := hcnt w hwn hwS hsk
          dsimp only at h1
          by_cases hwv : w = v
          · subst hwv
            rw [Function.update_same]
            rw [if_pos (List.mem_cons_self w rest)] at h1
            rw [if_neg hnd'.1]
            omega
          · rw [Function.update_noteq hwv]
            by_cases hwr : w ∈ rest
            · rw [if_pos hwr]
              rw [if_pos (List.mem_cons_of_mem v hwr)] at h1
              exact h1
            · rw [if_neg hwr]
              rw [if_neg (fun hh => (List.mem_cons.mp hh).elim hwv hwr)] at h1
              exact h1
        have htr3 : ∀ w, w < G.n →
            Function.update statusOld recovering Status.S w = Status.S →
            (some recovering : Option Nat) ≠ some w →
            0 < Function.update inc v (inc v - 1) w →
            w ∈ (riskGet risk1 (Function.update inc v (inc v - 1) w)).items := by
          intro w hwn hwS hsk hpos
          by_cases hwv : w = v
          · subst hwv
            rw [Function.update_same] at hpos ⊢
            exact (hmemv (inc w - 1)).mpr ⟨rfl, hpos⟩
          · rw [Function.update_noteq hwv] at hpos ⊢
            exact (hmemne w (inc w) hwv).mpr (htr w hwn hwS hsk hpos)
        have hnr3 : ∀ u, (some recovering : Option Nat) = some u →
            ∀ k, u ∉ (riskGet risk1 k).items := by
          intro u hu k
          have hur : u = recovering := by
            injection hu with hu
            exact hu.symm
          subst hur
          rw [hmemne u k (Ne.symm hvr)]
          exact hnr u rfl k
        obtain ⟨hB', hcount⟩ := ih (Function.update inc v (inc v - 1)) risk1
          hnd'.2 (fun w hw => htodo w (List.mem_cons_of_mem v hw))
          ⟨hkeys', hbn', hbm3, hcnt3, htr3, hnr3⟩ res h
        refine ⟨hB', ?_⟩
        rw [hcount, Function.update_noteq (Ne.symm hvr), List.filter_cons]
        have hfalse : (decide (v ≠ recovering) &&
            decide (Function.update statusOld recovering Status.S v = .I)) = false := by
          simp [hIv]
        rw [hfalse, if_neg Bool.false_ne_true]

/-- The double loop of the initializers walks each initially-infected node's
neighborhood once, raising every susceptible neighbor of the current prefix
one bucket per incidence. -/
theorem init_inner_fold_ok (G : Graph) (status1 : Nat → Status) (node : Nat) :
    ∀ (todo : List Nat) (cnt inc : Nat → Nat) (risk : List (Nat × ListDict)),
      todo.Nodup → (∀ v ∈ todo, v ∈ G.neighbors node) →
      BucketsOK G status1 inc risk cnt none →
      ∀ res, todo.foldlM (initNbrStep status1) (inc, risk) = .ok res →
        BucketsOK G status1 res.1 res.2
          (fun v => if v ∈ todo then cnt v + 1 else cnt v) none := by
  intro todo
  induction todo with
  | nil =>
    intro cnt inc risk _ _ hB res h
    rw [List.foldlM_nil] at h
    have hres : res = (inc, risk) := (Except.ok.inj h).symm
    subst hres
    exact bucketsOK_congr hB (fun v _ _ _ => by simp)
  | cons v rest ih =>
    intro cnt inc risk hnd htodo hB res h
    rw [List.foldlM_cons] at h
    obtain ⟨acc', hstep, h⟩ := exceptBind_ok h
    obtain ⟨inc1, risk1⟩ := acc'
    have hnd' := List.nodup_cons.mp hnd
    obtain ⟨hkeys, hbn, hbm, hcnt, htr, -⟩ := hB
    by_cases hSv : status1 v = .S
    · have hvn : v < G.n :=
        ((G.mem_neighbors node v).mp (htodo v (List.mem_cons_self v rest))).1
      obtain ⟨hinc1, hkeys', hbn', hmemne, hmemv⟩ :=
        initNbrStep_spec_S _ inc risk v (inc1, risk1) hSv hkeys hbn
          (fun k hk => ⟨(hbm k v hk).2.1.symm, (hbm k v hk).2.2.2⟩) hstep
      simp only at hinc1
      subst hinc1
      have hB2 : BucketsOK G status1 (Function.update inc v (inc v + 1)) risk1
          (Function.update cnt v (cnt v + 1)) none := by
        refine ⟨hkeys', hbn', ?_, ?_, ?_, by simp⟩
        · intro k w hw
          by_cases hwv : w = v
          · subst hwv
            have hk := (hmemv k).mp hw
            subst hk
            exact ⟨hSv, Function.update_same _ _ _, hvn, Nat.succ_pos _⟩
          · have hw' := (hmemne w k hwv).mp hw
            obtain ⟨ha, hb, hc, hd⟩ := hbm k w hw'
            exact ⟨ha, by rw [Function.update_noteq hwv]; exact hb, hc, hd⟩
        · rintro w hwn hwS -
          by_cases hwv : w = v
          · subst hwv
            rw [Function.update_same, Function.update_same,
              hcnt w hwn hwS (by simp)]
          · rw [Function.update_noteq hwv, Function.update_noteq hwv,
              hcnt w hwn hwS (by simp)]
        · rintro w hwn hwS - hpos
          by_cases hwv : w = v
          · subst hwv
            rw [Function.update_same] at hpos ⊢
            exact (hmemv (inc w + 1)).mpr rfl
          · rw [Function.update_noteq hwv] at hpos ⊢
            exact (hmemne w (inc w) hwv).mpr (htr w hwn hwS (by simp) hpos)
      have hB3 := ih (Function.update cnt v (cnt v + 1))
        (Function.update inc v (inc v + 1)) risk1 hnd'.2
        (fun w hw => htodo w (List.mem_cons_of_mem v hw)) hB2 res h
      refine bucketsOK_congr hB3 ?_
      rintro w hwn hwS -
      dsimp only
      by_cases hwv : w = v
      · subst hwv
        rw [if_neg hnd'.1, Function.update_same,
          if_pos (List.mem_cons_self w rest)]
      · rw [Function.update_noteq hwv]
        by_cases hwr : w ∈ rest
        · rw [if_pos hwr, if_pos (List.mem_cons_of_mem v hwr)]
        · rw [if_neg hwr,
            if_neg (fun hh => (List.mem_cons.mp hh).elim hwv hwr)]
    · have hacc : (inc1, risk1) = (inc, risk) :=
        initNbrStep_spec_nS _ inc risk v (inc1, risk1) hSv hstep
      rw [hacc] at h
      have hB3 := ih cnt inc risk hnd'.2
        (fun w hw => htodo w (List.mem_cons_of_mem v hw))
        ⟨hkeys, hbn, hbm, hcnt, htr, by simp⟩ res h
      refine bucketsOK_congr hB3 ?_
      rintro w hwn hwS -
      dsimp only
      have hwv : w ≠ v := fun hh => hSv (hh ▸ hwS)
      by_cases hwr : w ∈ rest
      · rw [if_pos hwr, if_pos (List.mem_cons_of_mem v hwr)]
      · rw [if_neg hwr,
          if_neg (fun hh => (List.mem_cons.mp hh).elim hwv hwr)]

/-- Outer loop of the initializers: after processing `todoI`, each node's
bucket level has grown by its number of incidences with `todoI`. -/
theorem init_outer_fold_ok (G : Graph) (status1 : Nat → Status) :
    ∀ (todoI : List Nat) (cnt inc : Nat → Nat) (risk : List (Nat × ListDict)),
      BucketsOK G status1 inc risk cnt none →
      ∀ res, todoI.foldlM
          (fun acc node => (G.neighbors node).foldlM (initNbrStep status1) acc)
          (inc, risk) = .ok res →
        BucketsOK G status1 res.1 res.2
          (fun v => cnt v +
            (todoI.filter (fun u => decide (v ∈ G.neighbors u))).length)
          none := by
  intro todoI
  induction todoI with
  | nil =>
    intro cnt inc risk hB res h
    rw [List.foldlM_nil] at h
    have hres : res = (inc, risk) := (Except.ok.inj h).symm
    subst hres
    exact bucketsOK_congr hB (fun v _ _ _ => by simp)
  | cons node rest ih =>
    intro cnt inc risk hB res h
    rw [List.foldlM_cons] at h
    obtain ⟨acc', hstep, h⟩ := exceptBind_ok h
    obtain ⟨inc1, risk1⟩ := acc'
    have hB1 := init_inner_fold_ok G status1 node (G.neighbors node) cnt inc
      risk (G.neighbors_nodup node) (fun _ hv => hv) hB (inc1, risk1) hstep
    have hB2 := ih _ inc1 risk1 hB1 res h
    refine bucketsOK_congr hB2 ?_
    rintro w hwn hwS -
    dsimp only
    rw [List.filter_cons]
    by_cases hwnb : w ∈ G.neighbors node
    · rw [if_pos hwnb, if_pos (by simp [hwnb])]
      simp
      omega
    · rw [if_neg hwnb, if_neg (by simp [hwnb])]

theorem foldl_update_status :
    ∀ (l : List Nat) (s : Nat → Status) (x : Status) (v : Nat),
      l.foldl (fun f u => Function.update f u x) s v = if v ∈ l then x else s v := by
  intro l
  induction l with
  | nil => intro s x v; simp [List.foldl_nil]
  | cons u rest ih =>
    intro s x v
    rw [List.foldl_cons, ih]
    by_cases hvr : v ∈ rest
    · rw [if_pos hvr, if_pos (List.mem_cons_of_mem u hvr)]
    · rw [if_neg hvr]
      by_cases hvu : v = u
      · subst hvu
        rw [Function.update_same, if_pos (List.mem_cons_self v rest)]
      · rw [Function.update_noteq hvu,
          if_neg (fun hh => (List.mem_cons.mp hh).elim hvu hvr)]

theorem length_filter_toFinset (A B : List Nat) (hA : A.Nodup) :
    (A.filter (fun x => decide (x ∈ B))).length = (A.toFinset ∩ B.toFinset).card := by
  rw [← List.toFinset_card_of_nodup (hA.filter _), List.toFinset_filter,
    ← Finset.filter_mem_eq_inter]
  apply congrArg
  apply Finset.filter_congr
  intro x hx
  simp

/-- Counting `A ∩ B` from either side agrees for duplicate-free lists. -/
theorem length_filter_mem_comm (A B : List Nat) (hA : A.Nodup) (hB : B.Nodup) :
    (A.filter (fun x => decide (x ∈ B))).length
      = (B.filter (fun x => decide (x ∈ A))).length := by
  rw [length_filter_toFinset A B hA, length_filter_toFinset B A hB, Finset.inter_comm]

theorem swapPop_perm (l : List Nat) (i : Nat) (rec' : Nat) (l' : List Nat)
    (h : swapPop l i = .ok (rec', l')) : (l' ++ [rec']).Perm l := by
  unfold swapPop at h
  by_cases hlt : i < l.length
  · rw [dif_pos hlt] at h
    cases hq : l.getLast? with
    | none =>
      rw [hq] at h
      cases h
    | some last =>
      rw [hq] at h
      have hpair : (rec', l') = (l.get ⟨i, hlt⟩, (l.set i last).dropLast) :=
        (Except.ok.inj h).symm
      have h1 : rec' = l.get ⟨i, hlt⟩ := congrArg Prod.fst hpair
      have h2 : l' = (l.set i last).dropLast := congrArg Prod.snd hpair
      have hfull : l.dropLast ++ [last] = l :=
        List.dropLast_append_getLast? last hq
      have hdec : l = l.take i ++ l.get ⟨i, hlt⟩ :: l.drop (i + 1) := by
        conv_lhs => rw [← List.take_append_drop i l]
        rw [List.drop_eq_getElem_cons hlt]
        rfl
      have hset : l.set i last = l.take i ++ last :: l.drop (i + 1) :=
        List.set_eq_take_cons_drop _ hlt
      by_cases hD : l.drop (i + 1) = []
      · rw [hD] at hdec
        have hdl : l.dropLast = l.take i := by
          conv_lhs => rw [hdec]
          exact List.dropLast_concat
        have hlast : last = l.get ⟨i, hlt⟩ := by
          have heL : l.take i ++ [last] = l := by
            rw [← hdl]; exact hfull
          have he : l.take i ++ [last] = l.take i ++ [l.get ⟨i, hlt⟩] :=
            heL.trans hdec
          exact List.singleton_inj.mp (List.append_cancel_left he)
        rw [h2, hset, hD, hlast, List.dropLast_concat, h1]
        conv_rhs => rw [hdec]
      · have hDdec : l.drop (i + 1) =
            (l.drop (i + 1)).dropLast ++ [(l.drop (i + 1)).getLast hD] :=
          (List.dropLast_append_getLast hD).symm
        have hdl : l.dropLast =
            l.take i ++ l.get ⟨i, hlt⟩ :: (l.drop (i + 1)).dropLast := by
          conv_lhs => rw [hdec]
          conv_lhs => rw [hDdec]
          rw [← List.cons_append, ← List.append_assoc]
          exact List.dropLast_concat
        have hlast : last = (l.drop (i + 1)).getLast hD := by
          have heL : (l.take i ++ l.get ⟨i, hlt⟩ :: (l.drop (i + 1)).dropLast)
              ++ [last] = l := by
            rw [← hdl]; exact hfull
          have heR : (l.take i ++ l.get ⟨i, hlt⟩ :: (l.drop (i + 1)).dropLast)
              ++ [(l.drop (i + 1)).getLast hD] = l := by
            conv_rhs => rw [hdec]
            conv_rhs => rw [hDdec]
            rw [← List.cons_append, ← List.append_assoc]
          exact List.singleton_inj.mp
            (List.append_cancel_left (heL.trans heR.symm))
        have hl' : l' = l.take i ++ last :: (l.drop (i + 1)).dropLast := by
          rw [h2, hset]
          conv_lhs => rw [hDdec]
          rw [← hlast, ← List.cons_append, ← List.append_assoc]
          exact List.dropLast_concat
        rw [hl', h1]
        conv_rhs => rw [hdec]
        conv_rhs => rw [hDdec]
        rw [← hlast, List.append_assoc, List.cons_append]
        apply List.Perm.append_left
        refine List.Perm.trans
          (List.Perm.cons _ (List.perm_append_singleton _ _)) ?_
        refine List.Perm.trans (List.Perm.swap _ _ _) ?_
        exact List.Perm.cons _ (List.perm_append_singleton _ _).symm
  · rw [dif_neg hlt] at h
    cases h

/-- The swap-and-pop idiom removes exactly the selected element. -/
theorem swapPop_spec (l : List Nat) (i : Nat) (hnd : l.Nodup) (rec' : Nat)
    (l' : List Nat) (h : swapPop l i = .ok (rec', l')) :
    rec' ∈ l ∧ l'.Nodup ∧ (∀ w, w ∈ l' ↔ (w ∈ l ∧ w ≠ rec')) ∧
      l'.length + 1 = l.length := by
  have hperm := swapPop_perm l i rec' l' h
  have hmem : ∀ w, w ∈ l ↔ (w ∈ l' ∨ w = rec') := by
    intro w
    rw [← hperm.mem_iff]
    simp
  have hnd2 : (l' ++ [rec']).Nodup := hperm.nodup_iff.mpr hnd
  rw [List.nodup_append, List.disjoint_singleton] at hnd2
  refine ⟨(hmem rec').mpr (Or.inr rfl), hnd2.1, ?_, ?_⟩
  · intro w
    constructor
    · intro hw
      refine ⟨(hmem w).mpr (Or.inl hw), ?_⟩
      intro hh
      rw [hh] at hw
      exact hnd2.2.2 hw
    · intro hwp
      rcases (hmem w).mp hwp.1 with h3 | h3
      · exact h3
      · exact absurd h3 hwp.2
  · have hl := hperm.length_eq
    simp at hl
    omega

theorem initialize_status_apply (initX : List Nat) (x : Status)
    (s : Nat → Status) (v : Nat) :
    initX.foldl (fun f u => Function.update f u x) s v
      = if v ∈ initX then x else s v :=
  foldl_update_status initX s x v

theorem Gillespie_initialize_SIR_ok (G : Graph) (initI initR : List Nat)
    (tmin : ℚ) (st : GState)
    (h : Gillespie_initialize_SIR G initI initR tmin = .ok st) :
    ∃ incrisk : (Nat → Nat) × List (Nat × ListDict),
      initI.foldlM
        (fun acc node => (G.neighbors node).foldlM (initNbrStep
          (initR.foldl (fun s v => Function.update s v Status.R)
            (initI.foldl (fun s v => Function.update s v Status.I)
              (fun _ => Status.S)))) acc)
        ((fun _ => 0), ([] : List (Nat × ListDict))) = .ok incrisk ∧
      st = { times := [tmin], S := [(G.n : ℤ) - initI.length],
             I := [(initI.length : ℤ)], R := [0],
             status := initR.foldl (fun s v => Function.update s v Status.R)
               (initI.foldl (fun s v => Function.update s v Status.I)
                 (fun _ => Status.S)),
             infected := initI, inc := incrisk.1, risk := incrisk.2,
             log := [],
             snap := [census G
               (initR.foldl (fun s v => Function.update s v Status.R)
                 (initI.foldl (fun s v => Function.update s v Status.I)
                   (fun _ => Status.S)))] } := by
  unfold Gillespie_initialize_SIR at h
  obtain ⟨incrisk, hfold, hpure⟩ := exceptBind_ok h
  exact ⟨incrisk, hfold, (Except.ok.inj hpure).symm⟩

/-- Base bucket state of the initializers: no buckets, all counts zero. -/
theorem bucketsOK_empty (G : Graph) (status1 : Nat → Status) :
    BucketsOK G status1 (fun _ => 0) [] (fun _ => 0) none := by
  refine ⟨by simp, ?_, ?_, fun _ _ _ _ => rfl, ?_, by simp⟩
  · intro k
    simp [riskGet, ListDict.empty]
  · intro k v hv
    simp [riskGet, ListDict.empty] at hv
  · intro v _ _ _ hpos
    cases hpos

/-- The initializer's incidence count of a susceptible node equals its
true infected-neighbor count. -/
theorem init_count_eq_trueCount (G : Graph) (hs : G.Symm)
    (initI initR : List Nat) (hI : initI.Nodup)
    (hIlt : ∀ v ∈ initI, v < G.n) (hdisj : ∀ v ∈ initR, v ∉ initI)
    (v : Nat) (hvn : v < G.n) :
    (initI.filter (fun u => decide (v ∈ G.neighbors u))).length
      = trueCount G
          (initR.foldl (fun s u => Function.update s u Status.R)
            (initI.foldl (fun s u => Function.update s u Status.I)
              (fun _ => Status.S))) v := by
  have step1 : initI.filter (fun u => decide (v ∈ G.neighbors u))
      = initI.filter (fun u => decide (u ∈ G.neighbors v)) := by
    apply List.filter_congr
    intro u hu
    have hun : u < G.n := hIlt u hu
    exact decide_eq_decide.mpr (G.mem_neighbors_symm hs hun hvn)
  have step3 : (G.neighbors v).filter (fun w => decide (w ∈ initI))
      = (G.neighbors v).filter (fun w => decide
          ((initR.foldl (fun s u => Function.update s u Status.R)
            (initI.foldl (fun s u => Function.update s u Status.I)
              (fun _ => Status.S))) w = Status.I)) := by
    apply List.filter_congr
    intro w _
    apply decide_eq_decide.mpr
    rw [initialize_status_apply, initialize_status_apply]
    by_cases hwI : w ∈ initI
    · rw [if_neg (fun hwR => hdisj w hwR hwI), if_pos hwI]
      simp [hwI]
    · constructor
      · intro hw
        exact absurd hw hwI
      · intro hw
        by_cases hwR : w ∈ initR
        · rw [if_pos hwR] at hw
          cases hw
        · rw [if_neg hwR, if_neg hwI] at hw
          cases hw
  rw [step1,
    length_filter_mem_comm initI (G.neighbors v) hI (G.neighbors_nodup v),
    trueCount, ← step3]

/-- `_Gillespie_initialize_SIR_` establishes the bucket/infected-list
invariant on any well-formed initial condition. -/
theorem Gillespie_initialize_SIR_inv (G : Graph) (hs : G.Symm)
    (initI initR : List Nat) (tmin : ℚ) (st : GState)
    (hI : initI.Nodup) (hIlt : ∀ v ∈ initI, v < G.n)
    (hdisj : ∀ v ∈ initR, v ∉ initI)
    (h : Gillespie_initialize_SIR G initI initR tmin = .ok st) :
    GInv G st := by
  obtain ⟨incrisk, hfold, hst⟩ := Gillespie_initialize_SIR_ok G initI initR tmin st h
  obtain ⟨hkeys, hbn, hbm, hcnt, htr, -⟩ :=
    init_outer_fold_ok G _ initI (fun _ => 0) (fun _ => 0) []
      (bucketsOK_empty G _) incrisk hfold
  subst hst
  refine ⟨hkeys, hbn, hbm, ?_, ?_, hI, ?_, hIlt⟩
  · intro v hvn hvS
    have h1 := hcnt v hvn hvS (by simp)
    dsimp only at h1 ⊢
    rw [h1, Nat.zero_add]
    exact init_count_eq_trueCount G hs initI initR hI hIlt hdisj v hvn
  · intro v hvn hvS hpos
    exact htr v hvn hvS (by simp) hpos
  · intro v
    dsimp only
    rw [initialize_status_apply, initialize_status_apply]
    constructor
    · intro hvI
      rw [if_neg (fun hvR => hdisj v hvR hvI), if_pos hvI]
    · intro hv
      by_cases hvR : v ∈ initR
      · rw [if_pos hvR] at hv
        cases hv
      · by_cases hvI : v ∈ initI
        · exact hvI
        · rw [if_neg hvR, if_neg hvI] at hv
          cases hv

theorem Gillespie_initialize_SIS_ok (G : Graph) (initI : List Nat)
    (tmin : ℚ) (st : GState)
    (h : Gillespie_initialize_SIS G initI tmin = .ok st) :
    ∃ incrisk : (Nat → Nat) × List (Nat × ListDict),
      initI.foldlM
        (fun acc node => (G.neighbors node).foldlM (initNbrStep
          (initI.foldl (fun s v => Function.update s v Status.I)
            (fun _ => Status.S))) acc)
        ((fun _ => 0), ([] : List (Nat × ListDict))) = .ok incrisk ∧
      st = { times := [tmin], S := [(G.n : ℤ) - initI.length],
             I := [(initI.length : ℤ)], R := [],
             status := initI.foldl (fun s v => Function.update s v Status.I)
               (fun _ => Status.S),
             infected := initI, inc := incrisk.1, risk := incrisk.2,
             log := [],
             snap := [census G
               (initI.foldl (fun s v => Function.update s v Status.I)
                 (fun _ => Status.S))] } := by
  unfold Gillespie_initialize_SIS at h
  obtain ⟨incrisk, hfold, hpure⟩ := exceptBind_ok h
  exact ⟨incrisk, hfold, (Except.ok.inj hpure).symm⟩

/-- `_Gillespie_initialize_SIS_` establishes the invariant and produces no
recovered nodes. -/
theorem Gillespie_initialize_SIS_inv (G : Graph) (hs : G.Symm)
    (initI : List Nat) (tmin : ℚ) (st : GState)
    (hI : initI.Nodup) (hIlt : ∀ v ∈ initI, v < G.n)
    (h : Gillespie_initialize_SIS G initI tmin = .ok st) :
    GInv G st ∧ ∀ w, st.status w ≠ .R := by
  obtain ⟨incrisk, hfold, hst⟩ := Gillespie_initialize_SIS_ok G initI tmin st h
  obtain ⟨hkeys, hbn, hbm, hcnt, htr, -⟩ :=
    init_outer_fold_ok G _ initI (fun _ => 0) (fun _ => 0) []
      (bucketsOK_empty G _) incrisk hfold
  have hstat : ∀ v, (initI.foldl (fun s u => Function.update s u Status.I)
      (fun _ => Status.S)) v = if v ∈ initI then Status.I else Status.S :=
    fun v => initialize_status_apply initI Status.I _ v
  have hkey : ∀ v, v < G.n →
      (initI.foldl (fun s u => Function.update s u Status.I)
        (fun _ => Status.S)) v = .S →
      (initI.filter (fun u => decide (v ∈ G.neighbors u))).length
        = trueCount G (initI.foldl (fun s u => Function.update s u Status.I)
            (fun _ => Status.S)) v := by
    intro v hvn _
    have h0 := init_count_eq_trueCount G hs initI [] hI hIlt
      (fun w hw => absurd hw (List.not_mem_nil w)) v hvn
    have hsame : ∀ w,
        (([] : List Nat).foldl (fun s u => Function.update s u Status.R)
          (initI.foldl (fun s u => Function.update s u Status.I)
            (fun _ => Status.S))) w
        = (initI.foldl (fun s u => Function.update s u Status.I)
            (fun _ => Status.S)) w := fun w => rfl
    rw [h0]
    unfold trueCount
    apply congrArg
    apply List.filter_congr
    intro w _
    rw [hsame w]
  subst hst
  constructor
  · refine ⟨hkeys, hbn, hbm, ?_, ?_, hI, ?_, hIlt⟩
    · intro v hvn hvS
      have h1 := hcnt v hvn hvS (by simp)
      dsimp only at h1 ⊢
      rw [h1, Nat.zero_add]
      exact hkey v hvn hvS
    · intro v hvn hvS hpos
      exact htr v hvn hvS (by simp) hpos
    · intro v
      dsimp only
      rw [hstat v]
      by_cases hvI : v ∈ initI
      · simp [hvI]
      · simp [hvI]
  · intro w
    dsimp only
    rw [hstat w]
    by_cases hwI : w ∈ initI
    · simp [hwI]
    · simp [hwI]

theorem appendLast_ok {l res : List ℤ} {d : ℤ} (h : appendLast l d = .ok res) :
    ∃ x, l.getLast? = some x ∧ res = l ++ [x + d] := by
  unfold appendLast at h
  cases hq : l.getLast? with
  | none => rw [hq] at h; cases h
  | some x => rw [hq] at h; exact ⟨x, rfl, (Except.ok.inj h).symm⟩

/-- A successful `_Gillespie_infect_` keeps the bucket/infected-list
invariant and performs exactly one S→I flip, appending one row to every
recorded column. -/
theorem Gillespie_infect_inv (G : Graph) (hs : G.Symm) (u2 : ℚ) (pick : Nat)
    (t : ℚ) (sir : Bool) (st st' : GState) (hinv : GInv G st)
    (h : Gillespie_infect G u2 pick t sir st = .ok st') :
    GInv G st' ∧
    ∃ recipient, recipient < G.n ∧ st.status recipient = .S ∧
      st'.status = Function.update st.status recipient .I ∧
      st'.infected = st.infected ++ [recipient] ∧
      st'.times = st.times ++ [t] ∧
      st'.log = st.log ++ [Act.inf] ∧
      st'.snap = st.snap ++ [census G st'.status] ∧
      appendLast st.S (-1) = .ok st'.S ∧
      appendLast st.I 1 = .ok st'.I ∧
      (sir = true → appendLast st.R 0 = .ok st'.R) ∧
      (sir = false → st'.R = st.R) := by
  unfold Gillespie_infect at h
  dsimp only at h
  cases hscan : scanRisk st.risk (u2 * totalW st.risk) none with
  | none =>
    rw [hscan] at h
    cases h
  | some n =>
    rw [hscan] at h
    obtain ⟨recipient, hchoose, h⟩ := exceptBind_ok h
    by_cases hstS : st.status recipient = .S
    · rw [if_pos hstS] at h
      obtain ⟨u, -, h⟩ := exceptBind_ok h
      obtain ⟨b', hrem, h⟩ := exceptBind_ok h
      obtain ⟨S', hS, h⟩ := exceptBind_ok h
      obtain ⟨I', hI2, h⟩ := exceptBind_ok h
      have hmemb : recipient ∈ (riskGet st.risk n).items :=
        ListDict.choose_random_ok_mem hchoose
      obtain ⟨hrS, hrinc, hrn, hnpos⟩ := hinv.bMem n recipient hmemb
      obtain ⟨-, hb'nd, hb'mem, -⟩ :=
        ListDict.remove_ok_char (hinv.bNodup n) hrem
      have hpre : BucketsOK G (Function.update st.status recipient .I) st.inc
          (riskSet st.risk n b')
          (fun v => if v ∈ G.neighbors recipient then trueCount G st.status v
                    else trueCount G (Function.update st.status recipient .I) v)
          none := by
        refine ⟨riskSet_keys_nodup _ _ _ hinv.keysNodup, ?_, ?_, ?_, ?_, by simp⟩
        · intro k
          by_cases hk : k = n
          · subst hk
            rw [riskGet_riskSet_self]
            exact hb'nd
          · rw [riskGet_riskSet_ne _ _ _ _ hk]
            exact hinv.bNodup k
        · intro k w hw
          by_cases hk : k = n
          · subst hk
            rw [riskGet_riskSet_self] at hw
            obtain ⟨hw1, hw2⟩ := (hb'mem w).mp hw
            obtain ⟨ha, hb, hc, hd⟩ := hinv.bMem _ w hw1
            exact ⟨by rw [Function.update_noteq hw2]; exact ha, hb, hc, hd⟩
          · rw [riskGet_riskSet_ne _ _ _ _ hk] at hw
            obtain ⟨ha, hb, hc, hd⟩ := hinv.bMem _ w hw
            have hwrec : w ≠ recipient := by
              intro hh
              rw [hh, hrinc] at hb
              exact hk hb.symm
            exact ⟨by rw [Function.update_noteq hwrec]; exact ha, hb, hc, hd⟩
        · rintro v hvn hvS -
          have hvrec : v ≠ recipient := by
            intro hh
            rw [hh, Function.update_same] at hvS
            cases hvS
          rw [Function.update_noteq hvrec] at hvS
          dsimp only
          by_cases hvnb : v ∈ G.neighbors recipient
          · rw [if_pos hvnb]
            exact hinv.counts v hvn hvS
          · rw [if_neg hvnb]
            have hnb' : recipient ∉ G.neighbors v :=
              fun hh => hvnb ((G.mem_neighbors_symm hs hrn hvn).mpr hh)
            rw [trueCount_update_not_mem G hnb']
            exact hinv.counts v hvn hvS
        · rintro v hvn hvS - hpos
          have hvrec : v ≠ recipient := by
            intro hh
            rw [hh, Function.update_same] at hvS
            cases hvS
          rw [Function.update_noteq hvrec] at hvS
          have hmem := hinv.tracked v hvn hvS hpos
          by_cases hk : st.inc v = n
          · rw [hk] at hmem ⊢
            rw [riskGet_riskSet_self]
            exact (hb'mem v).mpr ⟨hmem, hvrec⟩
          · rw [riskGet_riskSet_ne _ _ _ _ hk]
            exact hmem
      have htail : ∀ R0 : List ℤ,
          ((G.neighbors recipient).foldlM
              (infectNbrStep (Function.update st.status recipient .I))
              (st.inc, riskSet st.risk n b') >>= fun incrisk =>
            (pure { st with times := st.times ++ [t], S := S', I := I', R := R0,
                            status := Function.update st.status recipient .I,
                            infected := st.infected ++ [recipient],
                            inc := incrisk.1, risk := incrisk.2,
                            log := st.log ++ [.inf],
                            snap := st.snap ++
                              [census G (Function.update st.status recipient .I)] }
              : Except SimErr GState)) = .ok st' →
          GInv G st' ∧
            st'.status = Function.update st.status recipient .I ∧
            st'.infected = st.infected ++ [recipient] ∧
            st'.times = st.times ++ [t] ∧
            st'.log = st.log ++ [Act.inf] ∧
            st'.snap = st.snap ++ [census G st'.status] ∧
            st'.S = S' ∧ st'.I = I' ∧ st'.R = R0 := by
        intro R0 h
        obtain ⟨incrisk, hfold, h⟩ := exceptBind_ok h
        have hst' : st' =
            { st with times := st.times ++ [t], S := S', I := I', R := R0,
                      status := Function.update st.status recipient .I,
                      infected := st.infected ++ [recipient],
                      inc := incrisk.1, risk := incrisk.2,
                      log := st.log ++ [.inf],
                      snap := st.snap ++
                        [census G (Function.update st.status recipient .I)] } :=
          (Except.ok.inj h).symm
        obtain ⟨hkeys', hbn', hbm', hcnt', htr', -⟩ :=
          infect_fold_ok G hs st.status recipient hrn hstS (G.neighbors recipient)
            st.inc (riskSet st.risk n b') (G.neighbors_nodup recipient)
            (fun _ hv => hv) hpre incrisk hfold
        subst hst'
        refine ⟨⟨hkeys', hbn', hbm', ?_, ?_, ?_, ?_, ?_⟩,
          rfl, rfl, rfl, rfl, rfl, rfl, rfl, rfl⟩
        · intro v hvn hvS
          exact hcnt' v hvn hvS (by simp)
        · intro v hvn hvS hpos
          exact htr' v hvn hvS (by simp) hpos
        · dsimp only
          rw [List.nodup_append, List.disjoint_singleton]
          refine ⟨hinv.infNodup, List.nodup_singleton _, ?_⟩
          intro hmem
          rw [(hinv.infMem recipient).mp hmem] at hstS
          cases hstS
        · intro v
          dsimp only
          rw [List.mem_append, List.mem_singleton]
          by_cases hvrec : v = recipient
          · subst hvrec
            rw [Function.update_same]
            simp
          · rw [Function.update_noteq hvrec]
            rw [hinv.infMem v]
            simp [hvrec]
        · intro v hv
          dsimp only at hv
          rw [List.mem_append, List.mem_singleton] at hv
          rcases hv with hv | hv
          · exact hinv.infLt v hv
          · rw [hv]; exact hrn
      cases sir with
      | true =>
        rw [if_pos rfl] at h
        obtain ⟨R0, hR, h⟩ := exceptBind_ok h
        obtain ⟨hginv, hstat, hinf, htm, hlog, hsnap, hSS, hII, hRR⟩ := htail R0 h
        exact ⟨hginv, recipient, hrn, hstS, hstat, hinf, htm, hlog, hsnap,
          by rw [hSS]; exact hS, by rw [hII]; exact hI2,
          fun _ => by rw [hRR]; exact hR,
          fun hf => absurd hf.symm Bool.false_ne_true⟩
      | false =>
        rw [if_neg Bool.false_ne_true] at h
        obtain ⟨R0, hR, h⟩ := exceptBind_ok h
        have hR0 : R0 = st.R := (Except.ok.inj hR).symm
        obtain ⟨hginv, hstat, hinf, htm, hlog, hsnap, hSS, hII, hRR⟩ := htail R0 h
        exact ⟨hginv, recipient, hrn, hstS, hstat, hinf, htm, hlog, hsnap,
          by rw [hSS]; exact hS, by rw [hII]; exact hI2,
          fun hf => absurd hf Bool.false_ne_true,
          fun _ => by rw [hRR, hR0]⟩
    · rw [if_neg hstS] at h
      obtain ⟨u, hu, -⟩ := exceptBind_ok h
      cases hu

/-- A successful `_Gillespie_recover_SIR_` keeps the invariant and performs
exactly one I→R flip. -/
theorem Gillespie_recover_SIR_inv (G : Graph) (hs : G.Symm) (idx : Nat)
    (t : ℚ) (st st' : GState) (hinv : GInv G st)
    (h : Gillespie_recover_SIR G idx t st = .ok st') :
    GInv G st' ∧
    ∃ recovering, recovering < G.n ∧ st.status recovering = .I ∧
      st'.status = Function.update st.status recovering .R ∧
      (∀ w, w ∈ st'.infected ↔ (w ∈ st.infected ∧ w ≠ recovering)) ∧
      st'.infected.length + 1 = st.infected.length ∧
      st'.times = st.times ++ [t] ∧
      st'.log = st.log ++ [Act.recR] ∧
      st'.snap = st.snap ++ [census G st'.status] ∧
      appendLast st.S 0 = .ok st'.S ∧
      appendLast st.I (-1) = .ok st'.I ∧
      appendLast st.R 1 = .ok st'.R := by
  unfold Gillespie_recover_SIR at h
  dsimp only at h
  cases hq : st.I.getLast? with
  | none =>
    rw [hq] at h
    cases h
  | some iLast =>
    rw [hq] at h
    obtain ⟨iL, hiL, h⟩ := exceptBind_ok h
    have hiLeq : iLast = iL := Except.ok.inj hiL
    subst hiLeq
    by_cases hle : iLast ≤ 0
    · rw [if_pos hle] at h
      cases h
    · rw [if_neg hle] at h
      obtain ⟨u, -, h⟩ := exceptBind_ok h
      obtain ⟨p, hswap, h⟩ := exceptBind_ok h
      obtain ⟨recovering, infected'⟩ := p
      obtain ⟨I', hI2, h⟩ := exceptBind_ok h
      obtain ⟨S', hS, h⟩ := exceptBind_ok h
      obtain ⟨R', hR, h⟩ := exceptBind_ok h
      obtain ⟨incrisk, hfold, h⟩ := exceptBind_ok h
      have hst' : st' =
          { st with times := st.times ++ [t], S := S', I := I', R := R',
                    status := Function.update st.status recovering .R,
                    infected := infected',
                    inc := incrisk.1, risk := incrisk.2,
                    log := st.log ++ [.recR],
                    snap := st.snap ++
                      [census G (Function.update st.status recovering .R)] } :=
        (Except.ok.inj h).symm
      obtain ⟨hrecmem, hnd', hmem', hlen'⟩ :=
        swapPop_spec st.infected _ hinv.infNodup recovering infected' hswap
      have hrecI : st.status recovering = .I := (hinv.infMem recovering).mp hrecmem
      have hrn : recovering < G.n := hinv.infLt recovering hrecmem
      have hpre : BucketsOK G (Function.update st.status recovering .R) st.inc
          st.risk
          (fun v => if v ∈ G.neighbors recovering then trueCount G st.status v
                    else trueCount G (Function.update st.status recovering .R) v)
          none := by
        refine ⟨hinv.keysNodup, hinv.bNodup, ?_, ?_, ?_, by simp⟩
        · intro k w hw
          obtain ⟨ha, hb, hc, hd⟩ := hinv.bMem k w hw
          have hwrec : w ≠ recovering := by
            intro hh
            rw [hh, hrecI] at ha
            cases ha
          exact ⟨by rw [Function.update_noteq hwrec]; exact ha, hb, hc, hd⟩
        · rintro v hvn hvS -
          have hvrec : v ≠ recovering := by
            intro hh
            rw [hh, Function.update_same] at hvS
            cases hvS
          rw [Function.update_noteq hvrec] at hvS
          dsimp only
          by_cases hvnb : v ∈ G.neighbors recovering
          · rw [if_pos hvnb]
            exact hinv.counts v hvn hvS
          · rw [if_neg hvnb]
            have hnb' : recovering ∉ G.neighbors v :=
              fun hh => hvnb ((G.mem_neighbors_symm hs hrn hvn).mpr hh)
            rw [trueCount_update_not_mem G hnb']
            exact hinv.counts v hvn hvS
        · rintro v hvn hvS - hpos
          have hvrec : v ≠ recovering := by
            intro hh
            rw [hh, Function.update_same] at hvS
            cases hvS
          rw [Function.update_noteq hvrec] at hvS
          exact hinv.tracked v hvn hvS hpos
      obtain ⟨hkeys', hbn', hbm', hcnt', htr', -⟩ :=
        recover_fold_ok G hs st.status recovering hrn hrecI
          (G.neighbors recovering) st.inc st.risk
          (G.neighbors_nodup recovering) (fun _ hv => hv) hpre incrisk hfold
      subst hst'
      refine ⟨⟨hkeys', hbn', hbm', ?_, ?_, hnd', ?_, ?_⟩,
        recovering, hrn, hrecI, rfl, hmem', ?_, rfl, rfl, rfl,
        hS, hI2, hR⟩
      · intro v hvn hvS
        exact hcnt' v hvn hvS (by simp)
      · intro v hvn hvS hpos
        exact htr' v hvn hvS (by simp) hpos
      · intro v
        dsimp only
        rw [hmem' v]
        by_cases hvrec : v = recovering
        · subst hvrec
          rw [Function.update_same]
          simp
        · rw [Function.update_noteq hvrec, hinv.infMem v]
          simp [hvrec]
      · intro v hv
        dsimp only at hv
        exact hinv.infLt v ((hmem' v).mp hv).1
      · dsimp only
        exact hlen'

/-- The SIS recovery-loop's infected-neighbor filter counts exactly the
recovering node's new risk level. -/
theorem recoverSIS_filter_count (G : Graph) (status0 : Nat → Status)
    (recovering : Nat) (hrecS : Function.update status0 recovering .S recovering = .S) :
    ((G.neighbors recovering).filter (fun w => decide (w ≠ recovering) &&
        decide (Function.update status0 recovering .S w = .I))).length
      = trueCount G (Function.update status0 recovering .S) recovering := by
  unfold trueCount
  apply congrArg
  apply List.filter_congr
  intro w _
  by_cases hwr : w = recovering
  · subst hwr
    rw [hrecS]
    simp
  · simp [hwr]

/-- A successful `_Gillespie_recover_SIS_` keeps the invariant (including
the absence of recovered nodes) and performs exactly one I→S flip. -/
theorem Gillespie_recover_SIS_inv (G : Graph) (hs : G.Symm) (idx : Nat)
    (t : ℚ) (st st' : GState) (hinv : GInv G st)
    (hnoR : ∀ w, st.status w ≠ .R)
    (h : Gillespie_recover_SIS G idx t st = .ok st') :
    GInv G st' ∧ (∀ w, st'.status w ≠ .R) ∧
    ∃ recovering, recovering < G.n ∧ st.status recovering = .I ∧
      st'.status = Function.update st.status recovering .S ∧
      (∀ w, w ∈ st'.infected ↔ (w ∈ st.infected ∧ w ≠ recovering)) ∧
      st'.infected.length + 1 = st.infected.length ∧
      st'.times = st.times ++ [t] ∧
      st'.log = st.log ++ [Act.recS] ∧
      st'.snap = st.snap ++ [census G st'.status] ∧
      appendLast st.S 1 = .ok st'.S ∧
      appendLast st.I (-1) = .ok st'.I ∧
      st'.R = st.R := by
  unfold Gillespie_recover_SIS at h
  dsimp only at h
  cases hq : st.I.getLast? with
  | none =>
    rw [hq] at h
    cases h
  | some iLast =>
    rw [hq] at h
    obtain ⟨iL, hiL, h⟩ := exceptBind_ok h
    have hiLeq : iLast = iL := Except.ok.inj hiL
    subst hiLeq
    by_cases hassert : iLast = (st.infected.length : ℤ)
    · rw [if_pos hassert] at h
      obtain ⟨u1, -, h⟩ := exceptBind_ok h
      by_cases hle : iLast ≤ 0
      · rw [if_pos hle] at h
        cases h
      · rw [if_neg hle] at h
        obtain ⟨u2, -, h⟩ := exceptBind_ok h
        obtain ⟨p, hswap, h⟩ := exceptBind_ok h
        obtain ⟨recovering, infected'⟩ := p
        obtain ⟨I', hI2, h⟩ := exceptBind_ok h
        obtain ⟨S', hS, h⟩ := exceptBind_ok h
        obtain ⟨incrisk, hfold, h⟩ := exceptBind_ok h
        have hst' : st' =
            { st with times := st.times ++ [t], S := S', I := I',
                      status := Function.update st.status recovering .S,
                      infected := infected',
                      inc := incrisk.1,
                      risk :=
                        if incrisk.1 recovering > 0 then
                          riskSet incrisk.2 (incrisk.1 recovering)
                            ((riskGet incrisk.2 (incrisk.1 recovering)).add
                              recovering)
                        else incrisk.2,
                      log := st.log ++ [.recS],
                      snap := st.snap ++
                        [census G (Function.update st.status recovering .S)] } :=
          (Except.ok.inj h).symm
        obtain ⟨hrecmem, hnd', hmem', hlen'⟩ :=
          swapPop_spec st.infected _ hinv.infNodup recovering infected' hswap
        have hrecI : st.status recovering = .I :=
          (hinv.infMem recovering).mp hrecmem
        have hrn : recovering < G.n := hinv.infLt recovering hrecmem
        have hpre : BucketsOK G (Function.update st.status recovering .S)
            (Function.update st.inc recovering 0) st.risk
            (fun v => if v ∈ G.neighbors recovering then trueCount G st.status v
                      else trueCount G (Function.update st.status recovering .S) v)
            (some recovering) := by
          refine ⟨hinv.keysNodup, hinv.bNodup, ?_, ?_, ?_, ?_⟩
          · intro k w hw
            obtain ⟨ha, hb, hc, hd⟩ := hinv.bMem k w hw
            have hwrec : w ≠ recovering := by
              intro hh
              rw [hh, hrecI] at ha
              cases ha
            exact ⟨by rw [Function.update_noteq hwrec]; exact ha,
              by rw [Function.update_noteq hwrec]; exact hb, hc, hd⟩
          · intro v hvn hvS hsk
            have hvrec : v ≠ recovering := fun hh => hsk (by rw [hh])
            rw [Function.update_noteq hvrec] at hvS
            rw [Function.update_noteq hvrec]
            dsimp only
            by_cases hvnb : v ∈ G.neighbors recovering
            · rw [if_pos hvnb]
              exact hinv.counts v hvn hvS
            · rw [if_neg hvnb]
              have hnb' : recovering ∉ G.neighbors v :=
                fun hh => hvnb ((G.mem_neighbors_symm hs hrn hvn).mpr hh)
              rw [trueCount_update_not_mem G hnb']
              exact hinv.counts v hvn hvS
          · intro v hvn hvS hsk hpos
            have hvrec : v ≠ recovering := fun hh => hsk (by rw [hh])
            rw [Function.update_noteq hvrec] at hvS hpos ⊢
            exact hinv.tracked v hvn hvS hpos
          · intro u hu k
            have hur : u = recovering := (Option.some.inj hu).symm
            subst hur
            intro hmem
            obtain ⟨ha, -, -, -⟩ := hinv.bMem k u hmem
            rw [hrecI] at ha
            cases ha
        obtain ⟨hBpost, hcount⟩ :=
          recoverSIS_fold_ok G hs st.status recovering hrn hrecI hnoR
            (G.neighbors recovering) (Function.update st.inc recovering 0)
            st.risk (G.neighbors_nodup recovering) (fun _ hv => hv) hpre
            incrisk hfold
        obtain ⟨hkeys', hbn', hbm', hcnt', htr', hnr'⟩ := hBpost
        have hrecS : Function.update st.status recovering .S recovering = .S :=
          Function.update_same _ _ _
        have hcnt_rec : incrisk.1 recovering =
            trueCount G (Function.update st.status recovering .S) recovering := by
          rw [hcount, Function.update_same, Nat.zero_add]
          exact recoverSIS_filter_count G st.status recovering hrecS
        have hnotin : ∀ k, recovering ∉ (riskGet incrisk.2 k).items :=
          hnr' recovering rfl
        have hginv : GInv G
            { st with times := st.times ++ [t], S := S', I := I',
                      status := Function.update st.status recovering .S,
                      infected := infected',
                      inc := incrisk.1,
                      risk :=
                        if incrisk.1 recovering > 0 then
                          riskSet incrisk.2 (incrisk.1 recovering)
                            ((riskGet incrisk.2 (incrisk.1 recovering)).add
                              recovering)
                        else incrisk.2,
                      log := st.log ++ [.recS],
                      snap := st.snap ++
                        [census G (Function.update st.status recovering .S)] } := by
          by_cases hpos : incrisk.1 recovering > 0
          · rw [if_pos hpos]
            refine ⟨riskSet_keys_nodup _ _ _ hkeys', ?_, ?_, ?_, ?_, hnd', ?_, ?_⟩
            · intro k
              by_cases hk : k = incrisk.1 recovering
              · subst hk
                rw [riskGet_riskSet_self]
                exact ListDict.add_nodup _ _ (hbn' _)
              · rw [riskGet_riskSet_ne _ _ _ _ hk]
                exact hbn' k
            · intro k w hw
              dsimp only
              by_cases hk : k = incrisk.1 recovering
              · subst hk
                rw [riskGet_riskSet_self, ListDict.mem_add] at hw
                rcases hw with hw | hw
                · exact hbm' _ w hw
                · subst hw
                  exact ⟨hrecS, rfl, hrn, hpos⟩
              · rw [riskGet_riskSet_ne _ _ _ _ hk] at hw
                exact hbm' k w hw
            · intro v hvn hvS
              dsimp only at hvS ⊢
              by_cases hvrec : v = recovering
              · subst hvrec
                exact hcnt_rec
              · exact hcnt' v hvn hvS
                  (fun hh => hvrec ((Option.some.inj hh)).symm)
            · intro v hvn hvS hp
              dsimp only at hvS hp ⊢
              by_cases hvrec : v = recovering
              · subst hvrec
                rw [riskGet_riskSet_self, ListDict.mem_add]
                exact Or.inr rfl
              · have hvmem := htr' v hvn hvS
                  (fun hh => hvrec ((Option.some.inj hh)).symm) hp
                by_cases hk : incrisk.1 v = incrisk.1 recovering
                · rw [hk] at hvmem ⊢
                  rw [riskGet_riskSet_self, ListDict.mem_add]
                  exact Or.inl hvmem
                · rw [riskGet_riskSet_ne _ _ _ _ hk]
                  exact hvmem
            · intro v
              dsimp only
              rw [hmem' v]
              by_cases hvrec : v = recovering
              · subst hvrec
                rw [Function.update_same]
                simp
              · rw [Function.update_noteq hvrec, hinv.infMem v]
                simp [hvrec]
            · intro v hv
              dsimp only at hv
              exact hinv.infLt v ((hmem' v).mp hv).1
          · rw [if_neg hpos]
            have hzero : incrisk.1 recovering = 0 := by omega
            refine ⟨hkeys', hbn', ?_, ?_, ?_, hnd', ?_, ?_⟩
            · intro k w hw
              exact hbm' k w hw
            · intro v hvn hvS
              dsimp only at hvS ⊢
              by_cases hvrec : v = recovering
              · subst hvrec
                exact hcnt_rec
              · exact hcnt' v hvn hvS
                  (fun hh => hvrec ((Option.some.inj hh)).symm)
            · intro v hvn hvS hp
              dsimp only at hvS hp ⊢
              by_cases hvrec : v = recovering
              · subst hvrec
                rw [hzero] at hp
                cases hp
              · exact htr' v hvn hvS
                  (fun hh => hvrec ((Option.some.inj hh)).symm) hp
            · intro v
              dsimp only
              rw [hmem' v]
              by_cases hvrec : v = recovering
              · subst hvrec
                rw [Function.update_same]
                simp
              · rw [Function.update_noteq hvrec, hinv.infMem v]
                simp [hvrec]
            · intro v hv
              dsimp only at hv
              exact hinv.infLt v ((hmem' v).mp hv).1
        subst hst'
        refine ⟨hginv, ?_, recovering, hrn, hrecI, rfl, hmem', ?_, rfl, rfl,
          rfl, hS, hI2, rfl⟩
        · intro w
          dsimp only
          by_cases hwrec : w = recovering
          · subst hwrec
            rw [Function.update_same]
            intro hh
            cases hh
          · rw [Function.update_noteq hwrec]
            exact hnoR w
        · dsimp only
          exact hlen'
    · rw [if_neg hassert] at h
      obtain ⟨u1, hu1, -⟩ := exceptBind_ok h
      cases hu1

/-- Every state reachable inside `Gillespie_SIR` satisfies the structural
invariant. -/
theorem greachSIR_inv (G : Graph) (hs : G.Symm) :
    ∀ st, GReachSIR G st → GInv G st := by
  intro st hr
  induction hr with
  | init initI initR tmin st hI hIlt hdisj h =>
    exact Gillespie_initialize_SIR_inv G hs initI initR tmin st hI hIlt hdisj h
  | infect st st2 u2 pick t hr h ih =>
    exact (Gillespie_infect_inv G hs u2 pick t true st st2 ih h).1
  | recover st st2 idx t hr h ih =>
    exact (Gillespie_recover_SIR_inv G hs idx t st st2 ih h).1

/-- Every state reachable inside `Gillespie_SIS` satisfies the structural
invariant and has no recovered node. -/
theorem greachSIS_inv (G : Graph) (hs : G.Symm) :
    ∀ st, GReachSIS G st → GInv G st ∧ ∀ w, st.status w ≠ .R := by
  intro st hr
  induction hr with
  | init initI tmin st hI hIlt h =>
    exact Gillespie_initialize_SIS_inv G hs initI tmin st hI hIlt h
  | infect st st2 u2 pick t hr h ih =>
    obtain ⟨hginv, recipient, hrn, hrS, hstat, hrest⟩ :=
      Gillespie_infect_inv G hs u2 pick t false st st2 ih.1 h
    refine ⟨hginv, ?_⟩
    intro w
    rw [hstat]
    by_cases hwrec : w = recipient
    · subst hwrec
      rw [Function.update_same]
      intro hh
      cases hh
    · rw [Function.update_noteq hwrec]
      exact ih.2 w
  | recover st st2 idx t hr h ih =>
    obtain ⟨hg, hnr, -⟩ :=
      Gillespie_recover_SIS_inv G hs idx t st st2 ih.1 ih.2 h
    exact ⟨hg, hnr⟩

theorem pairGraph_symm : pairGraph.Symm := by
  intro u v
  show (u != v) = (v != u)
  by_cases h : u = v
  · subst h
    rfl
  · have h1 : (u != v) = true := bne_iff_ne.mpr h
    have h2 : (v != u) = true := bne_iff_ne.mpr (Ne.symm h)
    rw [h1, h2]

theorem pairInit_reach : GReachSIR pairGraph pairInitState :=
  GReachSIR.init [0] [] 0 pairInitState (by decide)
    (by with_unfolding_all decide) (by simp)
    (by with_unfolding_all rfl)

/-- C5: in every state reachable inside a `Gillespie_SIR` or `Gillespie_SIS`
run on a symmetric graph, a susceptible node with a positive
infected-neighbor count lies in exactly the bucket keyed by that count, and
a susceptible node with no infected neighbor lies in no bucket. -/
theorem claim_C5_theorem (G : Graph) (hs : G.Symm) (st : GState)
    (hr : GReachSIR G st ∨ GReachSIS G st) :
    ∀ v, v < G.n → st.status v = .S →
      (0 < trueCount G st.status v →
        ∀ k, v ∈ (riskGet st.risk k).items ↔ k = trueCount G st.status v) ∧
      (trueCount G st.status v = 0 →
        ∀ k, v ∉ (riskGet st.risk k).items) := by
  have hinv : GInv G st := by
    rcases hr with hr | hr
    · exact greachSIR_inv G hs st hr
    · exact (greachSIS_inv G hs st hr).1
  intro v hvn hvS
  have hcnt := hinv.counts v hvn hvS
  constructor
  · intro hpos k
    constructor
    · intro hmem
      rw [← hcnt]
      exact (hinv.bMem k v hmem).2.1.symm
    · intro hk
      subst hk
      rw [← hcnt] at hpos ⊢
      exact hinv.tracked v hvn hvS hpos
  · intro hzero k hmem
    obtain ⟨-, hkinc, -, hkpos⟩ := hinv.bMem k v hmem
    rw [hcnt, hzero] at hkinc
    rw [← hkinc] at hkpos
    cases hkpos

theorem claim_C5_witness :
    (pairGraph.Symm ∧ GReachSIR pairGraph pairInitState ∧
      1 < pairGraph.n ∧ pairInitState.status 1 = Status.S) ∧
    ((0 < trueCount pairGraph pairInitState.status 1 →
        ∀ k, 1 ∈ (riskGet pairInitState.risk k).items ↔
          k = trueCount pairGraph pairInitState.status 1) ∧
      (trueCount pairGraph pairInitState.status 1 = 0 →
        ∀ k, 1 ∉ (riskGet pairInitState.risk k).items)) :=
  ⟨⟨pairGraph_symm, pairInit_reach, by with_unfolding_all decide,
      by with_unfolding_all decide⟩,
    claim_C5_theorem pairGraph pairGraph_symm pairInitState
      (Or.inl pairInit_reach) 1 (by with_unfolding_all decide)
      (by with_unfolding_all decide)⟩

/-- C10: in every reachable state of a `Gillespie_SIR` or `Gillespie_SIS`
run on a self-loop-free symmetric graph, a positive total bucket weight
makes the weighted scan pick a non-empty bucket (for a unit draw in
`[0,1)`), and any node drawn from that bucket is susceptible, so the
handler's `status[recipient] == 'S'` assertion holds. -/
theorem claim_C10_theorem (G : Graph) (hs : G.Symm)
    (hloop : ∀ v, G.adj v v = false) (st : GState)
    (hr : GReachSIR G st ∨ GReachSIS G st)
    (u2 : ℚ) (hu0 : 0 ≤ u2) (hu1 : u2 < 1)
    (hpos : 0 < totalW st.risk) :
    ∃ n, scanRisk st.risk (u2 * totalW st.risk) none = some n ∧
      (riskGet st.risk n).items ≠ [] ∧
      ∀ pick recipient,
        (riskGet st.risk n).choose_random pick = .ok recipient →
        st.status recipient = .S := by
  have hinv : GInv G st := by
    rcases hr with hr | hr
    · exact greachSIR_inv G hs st hr
    · exact (greachSIS_inv G hs st hr).1
  have hx0 : 0 ≤ u2 * totalW st.risk := mul_nonneg hu0 (le_of_lt hpos)
  have hx1 : u2 * totalW st.risk < totalW st.risk := by
    have := mul_lt_mul_of_pos_right hu1 hpos
    rwa [one_mul] at this
  obtain ⟨n, hscan, -, -, hne⟩ :=
    scanRisk_spec st.risk _ none hinv.keysNodup hx0 hx1
  refine ⟨n, hscan, hne, ?_⟩
  intro pick recipient hchoose
  exact (hinv.bMem n recipient (ListDict.choose_random_ok_mem hchoose)).1

theorem claim_C10_witness :
    (pairGraph.Symm ∧ (∀ v, pairGraph.adj v v = false) ∧
      GReachSIR pairGraph pairInitState ∧ (0 : ℚ) ≤ 1/2 ∧ (1/2 : ℚ) < 1 ∧
      0 < totalW pairInitState.risk) ∧
    ∃ n, scanRisk pairInitState.risk (1/2 * totalW pairInitState.risk) none
        = some n ∧
      (riskGet pairInitState.risk n).items ≠ [] ∧
      ∀ pick recipient,
        (riskGet pairInitState.risk n).choose_random pick = .ok recipient →
        pairInitState.status recipient = .S := by
  have hloop : ∀ v, pairGraph.adj v v = false := by
    intro v
    show (v != v) = false
    simp
  have hposW : 0 < totalW pairInitState.risk := by
    with_unfolding_all decide
  exact ⟨⟨pairGraph_symm, hloop, pairInit_reach, by norm_num, by norm_num,
      hposW⟩,
    claim_C10_theorem pairGraph pairGraph_symm hloop pairInitState
      (Or.inl pairInit_reach) (1/2) (by norm_num) (by norm_num) hposW⟩

/-! ### Row bookkeeping for the recorded count tables -/

theorem getD_concat_lt {α : Type} (l : List α) (x d : α) (i : Nat)
    (h : i < l.length) : (l ++ [x]).getD i d = l.getD i d := by
  rw [List.getD_eq_getElem?_getD, List.getD_eq_getElem?_getD,
    List.getElem?_append, if_pos h]

theorem getD_concat_len {α : Type} (l : List α) (x d : α) :
    (l ++ [x]).getD l.length d = x := by
  rw [List.getD_eq_getElem?_getD,
    List.getElem?_append_right (Nat.le_refl _), Nat.sub_self]
  rfl

theorem getLast?_getD {α : Type} (l : List α) (y d : α)
    (h : l.getLast? = some y) : 0 < l.length ∧ l.getD (l.length - 1) d = y := by
  have hne : l ≠ [] := by
    intro hnil
    rw [hnil] at h
    cases h
  have hpos : 0 < l.length := List.length_pos.mpr hne
  refine ⟨hpos, ?_⟩
  rw [List.getD_eq_getElem?_getD, ← List.getLast?_eq_getElem?, h]
  rfl

theorem getD_drop {α : Type} (l : List α) (k i : Nat) (d : α) :
    (l.drop k).getD i d = l.getD (k + i) d := by
  rw [List.getD_eq_getElem?_getD, List.getD_eq_getElem?_getD, List.getElem?_drop]

theorem sumRows_append {n : ℤ} {S I R : List ℤ} {s0 i0 r0 dS dI dR : ℤ}
    (h : sumRows n S I R) (hS : S.getLast? = some s0)
    (hI : I.getLast? = some i0) (hR : R.getLast? = some r0)
    (hd : dS + dI + dR = 0) :
    sumRows n (S ++ [s0 + dS]) (I ++ [i0 + dI]) (R ++ [r0 + dR]) := by
  obtain ⟨hl1, hl2, hrow⟩ := h
  obtain ⟨hSpos, hSlast⟩ := getLast?_getD S s0 0 hS
  obtain ⟨-, hIlast⟩ := getLast?_getD I i0 0 hI
  obtain ⟨-, hRlast⟩ := getLast?_getD R r0 0 hR
  have e2 : I.getD (S.length - 1) 0 = i0 := by rw [hl1]; exact hIlast
  have e3 : R.getD (S.length - 1) 0 = r0 := by rw [hl1, hl2]; exact hRlast
  have hlastrow := hrow (S.length - 1) (by omega)
  rw [hSlast, e2, e3] at hlastrow
  refine ⟨by simp [hl1], by simp [hl2], ?_⟩
  intro i hi
  simp only [List.length_append, List.length_cons, List.length_nil] at hi
  by_cases hilt : i < S.length
  · rw [getD_concat_lt S _ 0 i hilt, getD_concat_lt I _ 0 i (by omega),
      getD_concat_lt R _ 0 i (by omega)]
    exact hrow i hilt
  · have hieq : i = S.length := by omega
    subst hieq
    rw [getD_concat_len S]
    have e2' : (I ++ [i0 + dI]).getD S.length 0 = i0 + dI := by
      rw [hl1]; exact getD_concat_len I _ _
    have e3' : (R ++ [r0 + dR]).getD S.length 0 = r0 + dR := by
      rw [hl1, hl2]; exact getD_concat_len R _ _
    rw [e2', e3']
    omega

theorem sumRowsSIS_append {n : ℤ} {S I : List ℤ} {s0 i0 dS dI : ℤ}
    (h : sumRowsSIS n S I) (hS : S.getLast? = some s0)
    (hI : I.getLast? = some i0) (hd : dS + dI = 0) :
    sumRowsSIS n (S ++ [s0 + dS]) (I ++ [i0 + dI]) := by
  obtain ⟨hl1, hrow⟩ := h
  obtain ⟨hSpos, hSlast⟩ := getLast?_getD S s0 0 hS
  obtain ⟨-, hIlast⟩ := getLast?_getD I i0 0 hI
  have e2 : I.getD (S.length - 1) 0 = i0 := by rw [hl1]; exact hIlast
  have hlastrow := hrow (S.length - 1) (by omega)
  rw [hSlast, e2] at hlastrow
  refine ⟨by simp [hl1], ?_⟩
  intro i hi
  simp only [List.length_append, List.length_cons, List.length_nil] at hi
  by_cases hilt : i < S.length
  · rw [getD_concat_lt S _ 0 i hilt, getD_concat_lt I _ 0 i (by omega)]
    exact hrow i hilt
  · have hieq : i = S.length := by omega
    subst hieq
    rw [getD_concat_len S]
    have e2' : (I ++ [i0 + dI]).getD S.length 0 = i0 + dI := by
      rw [hl1]; exact getD_concat_len I _ _
    rw [e2']
    omega

theorem deltaOK_append {S I R : List ℤ} {log : List Act} {s0 i0 r0 : ℤ} (a : Act)
    (h : deltaOK S I R log) (hS : S.getLast? = some s0)
    (hI : I.getLast? = some i0) (hR : R.getLast? = some r0)
    (hl1 : S.length = I.length) (hl2 : I.length = R.length) :
    deltaOK (S ++ [s0 + (actDelta a).1]) (I ++ [i0 + (actDelta a).2.1])
      (R ++ [r0 + (actDelta a).2.2]) (log ++ [a]) := by
  obtain ⟨hlen, hrow⟩ := h
  obtain ⟨hSpos, hSlast⟩ := getLast?_getD S s0 0 hS
  obtain ⟨-, hIlast⟩ := getLast?_getD I i0 0 hI
  obtain ⟨-, hRlast⟩ := getLast?_getD R r0 0 hR
  refine ⟨by simp only [List.length_append, List.length_cons, List.length_nil]; omega, ?_⟩
  intro i hi
  simp only [List.length_append, List.length_cons, List.length_nil] at hi
  by_cases hilt : i < log.length
  · rw [getD_concat_lt S _ 0 (i + 1) (by omega), getD_concat_lt S _ 0 i (by omega),
      getD_concat_lt I _ 0 (i + 1) (by omega), getD_concat_lt I _ 0 i (by omega),
      getD_concat_lt R _ 0 (i + 1) (by omega), getD_concat_lt R _ 0 i (by omega),
      getD_concat_lt log _ _ i hilt]
    exact hrow i hilt
  · have hieq : i = log.length := by omega
    subst hieq
    have hiS : log.length + 1 = S.length := hlen
    have eS1 : (S ++ [s0 + (actDelta a).1]).getD (log.length + 1) 0
        = s0 + (actDelta a).1 := by
      rw [hiS]; exact getD_concat_len S _ _
    have eS0 : (S ++ [s0 + (actDelta a).1]).getD log.length 0 = s0 := by
      rw [getD_concat_lt S _ 0 log.length (by omega)]
      have e : log.length = S.length - 1 := by omega
      rw [e, hSlast]
    have eI1 : (I ++ [i0 + (actDelta a).2.1]).getD (log.length + 1) 0
        = i0 + (actDelta a).2.1 := by
      rw [hiS, hl1]; exact getD_concat_len I _ _
    have eI0 : (I ++ [i0 + (actDelta a).2.1]).getD log.length 0 = i0 := by
      rw [getD_concat_lt I _ 0 log.length (by omega)]
      have e : log.length = I.length - 1 := by omega
      rw [e, hIlast]
    have eR1 : (R ++ [r0 + (actDelta a).2.2]).getD (log.length + 1) 0
        = r0 + (actDelta a).2.2 := by
      rw [hiS, hl1, hl2]; exact getD_concat_len R _ _
    have eR0 : (R ++ [r0 + (actDelta a).2.2]).getD log.length 0 = r0 := by
      rw [getD_concat_lt R _ 0 log.length (by omega)]
      have e : log.length = R.length - 1 := by omega
      rw [e, hRlast]
    have elog : (log ++ [a]).getD log.length .inf = a := getD_concat_len log _ _
    rw [eS1, eS0, eI1, eI0, eR1, eR0, elog]
    exact ⟨rfl, rfl, rfl⟩

theorem deltaOKSIS_append {S I : List ℤ} {log : List Act} {s0 i0 : ℤ} (a : Act)
    (h : deltaOKSIS S I log) (hS : S.getLast? = some s0)
    (hI : I.getLast? = some i0) (hl1 : S.length = I.length) :
    deltaOKSIS (S ++ [s0 + (actDelta a).1]) (I ++ [i0 + (actDelta a).2.1])
      (log ++ [a]) := by
  obtain ⟨hlen, hrow⟩ := h
  obtain ⟨hSpos, hSlast⟩ := getLast?_getD S s0 0 hS
  obtain ⟨-, hIlast⟩ := getLast?_getD I i0 0 hI
  refine ⟨by simp only [List.length_append, List.length_cons, List.length_nil]; omega, ?_⟩
  intro i hi
  simp only [List.length_append, List.length_cons, List.length_nil] at hi
  by_cases hilt : i < log.length
  · rw [getD_concat_lt S _ 0 (i + 1) (by omega), getD_concat_lt S _ 0 i (by omega),
      getD_concat_lt I _ 0 (i + 1) (by omega), getD_concat_lt I _ 0 i (by omega),
      getD_concat_lt log _ _ i hilt]
    exact hrow i hilt
  · have hieq : i = log.length := by omega
    subst hieq
    have hiS : log.length + 1 = S.length := hlen
    have eS1 : (S ++ [s0 + (actDelta a).1]).getD (log.length + 1) 0
        = s0 + (actDelta a).1 := by
      rw [hiS]; exact getD_concat_len S _ _
    have eS0 : (S ++ [s0 + (actDelta a).1]).getD log.length 0 = s0 := by
      rw [getD_concat_lt S _ 0 log.length (by omega)]
      have e : log.length = S.length - 1 := by omega
      rw [e, hSlast]
    have eI1 : (I ++ [i0 + (actDelta a).2.1]).getD (log.length + 1) 0
        = i0 + (actDelta a).2.1 := by
      rw [hiS, hl1]; exact getD_concat_len I _ _
    have eI0 : (I ++ [i0 + (actDelta a).2.1]).getD log.length 0 = i0 := by
      rw [getD_concat_lt I _ 0 log.length (by omega)]
      have e : log.length = I.length - 1 := by omega
      rw [e, hIlast]
    have elog : (log ++ [a]).getD log.length .inf = a := getD_concat_len log _ _
    rw [eS1, eS0, eI1, eI0, elog]
    exact ⟨rfl, rfl⟩

theorem sumRows_drop {n : ℤ} {S I R : List ℤ} (k : Nat) (h : sumRows n S I R) :
    sumRows n (S.drop k) (I.drop k) (R.drop k) := by
  obtain ⟨hl1, hl2, hrow⟩ := h
  refine ⟨by simp [hl1], by simp [hl2], ?_⟩
  intro i hi
  rw [List.length_drop] at hi
  rw [getD_drop, getD_drop, getD_drop]
  exact hrow (k + i) (by omega)

theorem sumRowsSIS_drop {n : ℤ} {S I : List ℤ} (k : Nat) (h : sumRowsSIS n S I) :
    sumRowsSIS n (S.drop k) (I.drop k) := by
  obtain ⟨hl1, hrow⟩ := h
  refine ⟨by simp [hl1], ?_⟩
  intro i hi
  rw [List.length_drop] at hi
  rw [getD_drop, getD_drop]
  exact hrow (k + i) (by omega)

theorem deltaOK_dropped {S I R : List ℤ} {log : List Act} (k : Nat)
    (hd : deltaOK S I R log) :
    dropDeltaOK (S.drop k) (I.drop k) (R.drop k) (log.drop k) := by
  obtain ⟨hlen, hrow⟩ := hd
  intro i hi
  rw [List.length_drop] at hi
  have hk : k + i < log.length := by omega
  have h3 := hrow (k + i) hk
  rw [getD_drop, getD_drop, getD_drop, getD_drop, getD_drop, getD_drop,
    getD_drop]
  have e : k + (i + 1) = k + i + 1 := by omega
  rw [e]
  exact h3

theorem deltaOKSIS_dropped {S I : List ℤ} {log : List Act} (k : Nat)
    (hd : deltaOKSIS S I log) :
    dropDeltaOKSIS (S.drop k) (I.drop k) (log.drop k) := by
  obtain ⟨hlen, hrow⟩ := hd
  intro i hi
  rw [List.length_drop] at hi
  have hk : k + i < log.length := by omega
  have h3 := hrow (k + i) hk
  rw [getD_drop, getD_drop, getD_drop, getD_drop, getD_drop]
  have e : k + (i + 1) = k + i + 1 := by omega
  rw [e]
  exact h3

/-! ### Column shapes of the event-driven handlers -/

theorem process_rec_SIR_cols (G : Graph) (time : ℚ) (node : Nat)
    (st st' : EDState) (h : process_rec_SIR G time node st = .ok st') :
    ∃ s0 i0 r0, st.S.getLast? = some s0 ∧ st.I.getLast? = some i0 ∧
      st.R.getLast? = some r0 ∧
      st'.status = Function.update st.status node .R ∧
      st'.times = st.times ++ [time] ∧
      st'.S = st.S ++ [s0 + 0] ∧ st'.I = st.I ++ [i0 + -1] ∧
      st'.R = st.R ++ [r0 + 1] ∧ st'.log = st.log ++ [Act.recR] ∧
      st'.snap = st.snap ++ [census G (Function.update st.status node .R)] := by
  unfold process_rec_SIR at h
  dsimp only at h
  obtain ⟨S', hS, h⟩ := exceptBind_ok h
  obtain ⟨I', hI2, h⟩ := exceptBind_ok h
  obtain ⟨R', hR, h⟩ := exceptBind_ok h
  obtain ⟨s0, hs0, hS'⟩ := appendLast_ok hS
  obtain ⟨i0, hi0, hI'⟩ := appendLast_ok hI2
  obtain ⟨r0, hr0, hR'⟩ := appendLast_ok hR
  have hst' := (Except.ok.inj h).symm
  subst hst'
  subst hS'
  subst hI'
  subst hR'
  exact ⟨s0, i0, r0, hs0, hi0, hr0, rfl, rfl, rfl, rfl, rfl, rfl, rfl⟩

theorem process_trans_SIR_cols (G : Graph)
    (tif : Nat → List Nat → List (Nat × ℚ) × ℚ) (time : ℚ) (node : Nat)
    (st st' : EDState) (h : process_trans_SIR G tif time node st = .ok st') :
    (st' = st) ∨
    (st.status node = .S ∧ ∃ s0 i0 r0,
      st.S.getLast? = some s0 ∧ st.I.getLast? = some i0 ∧
      st.R.getLast? = some r0 ∧
      st'.status = Function.update st.status node .I ∧
      st'.times = st.times ++ [time] ∧
      st'.S = st.S ++ [s0 + -1] ∧ st'.I = st.I ++ [i0 + 1] ∧
      st'.R = st.R ++ [r0 + 0] ∧ st'.log = st.log ++ [Act.inf] ∧
      st'.snap = st.snap ++ [census G (Function.update st.status node .I)]) := by
  unfold process_trans_SIR at h
  dsimp only at h
  by_cases hstS : st.status node = .S
  · rw [if_pos hstS] at h
    obtain ⟨S', hS, h⟩ := exceptBind_ok h
    obtain ⟨I', hI2, h⟩ := exceptBind_ok h
    obtain ⟨R', hR, h⟩ := exceptBind_ok h
    obtain ⟨s0, hs0, hS'⟩ := appendLast_ok hS
    obtain ⟨i0, hi0, hI'⟩ := appendLast_ok hI2
    obtain ⟨r0, hr0, hR'⟩ := appendLast_ok hR
    right
    refine ⟨hstS, s0, i0, r0, hs0, hi0, hr0, ?_⟩
    have hst' := (Except.ok.inj h).symm
    subst hst'
    subst hS'
    subst hI'
    subst hR'
    exact ⟨rfl, rfl, rfl, rfl, rfl, rfl, rfl⟩
  · rw [if_neg hstS] at h
    exact Or.inl (Except.ok.inj h).symm

theorem process_rec_SIS_cols (G : Graph) (time : ℚ) (node : Nat)
    (st st' : SISState) (h : process_rec_SIS G time node st = .ok st') :
    ∃ s0 i0, st.S.getLast? = some s0 ∧ st.I.getLast? = some i0 ∧
      st'.status = Function.update st.status node .S ∧
      st'.times = st.times ++ [time] ∧
      st'.S = st.S ++ [s0 + 1] ∧ st'.I = st.I ++ [i0 + -1] ∧
      st'.log = st.log ++ [Act.recS] ∧
      st'.snap = st.snap ++ [census G (Function.update st.status node .S)] := by
  unfold process_rec_SIS at h
  dsimp only at h
  obtain ⟨S', hS, h⟩ := exceptBind_ok h
  obtain ⟨I', hI2, h⟩ := exceptBind_ok h
  obtain ⟨s0, hs0, hS'⟩ := appendLast_ok hS
  obtain ⟨i0, hi0, hI'⟩ := appendLast_ok hI2
  have hst' := (Except.ok.inj h).symm
  subst hst'
  subst hS'
  subst hI'
  exact ⟨s0, i0, hs0, hi0, rfl, rfl, rfl, rfl, rfl, rfl⟩

theorem process_trans_SIS_cols (G : Graph)
    (tif : Nat → List Nat → (Nat → List ℚ) × ℚ) (time : ℚ) (target : Nat)
    (future : List ℚ) (st st' : SISState)
    (h : process_trans_SIS_nonMarkov G tif time target future st = .ok st') :
    ((st'.times = st.times ∧ st'.S = st.S ∧ st'.I = st.I ∧
      st'.log = st.log ∧ st'.snap = st.snap ∧ st'.status = st.status) ∨
     (st.status target = .S ∧ ∃ s0 i0,
       st.S.getLast? = some s0 ∧ st.I.getLast? = some i0 ∧
       st'.status = Function.update st.status target .I ∧
       st'.times = st.times ++ [time] ∧
       st'.S = st.S ++ [s0 + -1] ∧ st'.I = st.I ++ [i0 + 1] ∧
       st'.log = st.log ++ [Act.inf] ∧
       st'.snap = st.snap ++
         [census G (Function.update st.status target .I)])) := by
  unfold process_trans_SIS_nonMarkov at h
  dsimp only at h
  by_cases hstS : st.status target = .S
  · rw [if_pos hstS] at h
    obtain ⟨I', hI2, h⟩ := exceptBind_ok h
    obtain ⟨S', hS, h⟩ := exceptBind_ok h
    obtain ⟨st1, hpure1, h⟩ := exceptBind_ok h
    obtain ⟨i0, hi0, hI'⟩ := appendLast_ok hI2
    obtain ⟨s0, hs0, hS'⟩ := appendLast_ok hS
    have hst1 := (Except.ok.inj hpure1).symm
    subst hst1
    subst hS'
    subst hI'
    right
    refine ⟨hstS, s0, i0, hs0, hi0, ?_⟩
    split at h
    · have he := (Except.ok.inj h).symm
      subst he
      exact ⟨rfl, rfl, rfl, rfl, rfl, rfl⟩
    · have he := (Except.ok.inj h).symm
      subst he
      exact ⟨rfl, rfl, rfl, rfl, rfl, rfl⟩
  · rw [if_neg hstS] at h
    rw [pure_bind] at h
    left
    revert h
    cases hfil : List.filter (fun t => decide (st.rec_time target < t)) future with
    | nil =>
      intro h
      have he := (Except.ok.inj h).symm
      subst he
      exact ⟨rfl, rfl, rfl, rfl, rfl, rfl⟩
    | cons t0 following =>
      intro h
      have he := (Except.ok.inj h).symm
      subst he
      exact ⟨rfl, rfl, rfl, rfl, rfl, rfl⟩

theorem edStepSIR_cols (G : Graph) (tif : Nat → List Nat → List (Nat × ℚ) × ℚ)
    (st st' : EDState) (h : edStepSIR G tif st = .ok st') :
    (st'.times = st.times ∧ st'.S = st.S ∧ st'.I = st.I ∧ st'.R = st.R ∧
     st'.log = st.log ∧ st'.snap = st.snap ∧ st'.status = st.status) ∨
    (∃ t s0 i0 r0 a,
      st.S.getLast? = some s0 ∧ st.I.getLast? = some i0 ∧
      st.R.getLast? = some r0 ∧
      st'.times = st.times ++ [t] ∧
      st'.S = st.S ++ [s0 + (actDelta a).1] ∧
      st'.I = st.I ++ [i0 + (actDelta a).2.1] ∧
      st'.R = st.R ++ [r0 + (actDelta a).2.2] ∧
      st'.log = st.log ++ [a] ∧
      st'.snap = st.snap ++ [census G st'.status]) := by
  unfold edStepSIR at h
  dsimp only at h
  obtain ⟨pq, hpop, h⟩ := exceptBind_ok h
  obtain ⟨⟨tq, cq, ev⟩, Q'⟩ := pq
  dsimp only at h
  cases ev with
  | trans v =>
    rcases process_trans_SIR_cols G tif tq v _ st' h with heq | hshape
    · subst heq
      exact Or.inl ⟨rfl, rfl, rfl, rfl, rfl, rfl, rfl⟩
    · obtain ⟨hvS, s0, i0, r0, hs0, hi0, hr0, hstat, htm, hS, hI2, hR, hlog,
        hsnap⟩ := hshape
      right
      exact ⟨tq, s0, i0, r0, .inf, hs0, hi0, hr0, htm, hS, hI2, hR, hlog,
        by rw [hsnap, hstat]⟩
  | recover v =>
    obtain ⟨s0, i0, r0, hs0, hi0, hr0, hstat, htm, hS, hI2, hR, hlog, hsnap⟩ :=
      process_rec_SIR_cols G tq v _ st' h
    right
    exact ⟨tq, s0, i0, r0, .recR, hs0, hi0, hr0, htm, hS, hI2, hR, hlog,
      by rw [hsnap, hstat]⟩

theorem edStepSIS_cols (G : Graph) (tif : Nat → List Nat → (Nat → List ℚ) × ℚ)
    (st st' : SISState) (h : edStepSIS G tif st = .ok st') :
    (st'.times = st.times ∧ st'.S = st.S ∧ st'.I = st.I ∧
     st'.log = st.log ∧ st'.snap = st.snap ∧ st'.status = st.status) ∨
    (∃ t s0 i0 a, (a = Act.inf ∨ a = Act.recS) ∧
      st.S.getLast? = some s0 ∧ st.I.getLast? = some i0 ∧
      st'.times = st.times ++ [t] ∧
      st'.S = st.S ++ [s0 + (actDelta a).1] ∧
      st'.I = st.I ++ [i0 + (actDelta a).2.1] ∧
      st'.log = st.log ++ [a] ∧
      st'.snap = st.snap ++ [census G st'.status]) := by
  unfold edStepSIS at h
  dsimp only at h
  obtain ⟨pq, hpop, h⟩ := exceptBind_ok h
  obtain ⟨⟨tq, cq, ev⟩, Q'⟩ := pq
  dsimp only at h
  cases ev with
  | trans v future =>
    rcases process_trans_SIS_cols G tif tq v future _ st' h with heq | hshape
    · exact Or.inl heq
    · obtain ⟨hvS, s0, i0, hs0, hi0, hstat, htm, hS, hI2, hlog, hsnap⟩ := hshape
      right
      exact ⟨tq, s0, i0, .inf, Or.inl rfl, hs0, hi0, htm, hS, hI2, hlog,
        by rw [hsnap, hstat]⟩
  | recover v =>
    obtain ⟨s0, i0, hs0, hi0, hstat, htm, hS, hI2, hlog, hsnap⟩ :=
      process_rec_SIS_cols G tq v _ st' h
    right
    exact ⟨tq, s0, i0, .recS, Or.inr rfl, hs0, hi0, htm, hS, hI2, hlog,
      by rw [hsnap, hstat]⟩

theorem edRunSIR_table (G : Graph) (tif : Nat → List Nat → List (Nat × ℚ) × ℚ)
    (n : ℤ) : ∀ (fuel : Nat) (st st' : EDState),
    edRunSIR G tif fuel st = .ok st' →
    sumRows n st.S st.I st.R → deltaOK st.S st.I st.R st.log →
    sumRows n st'.S st'.I st'.R ∧ deltaOK st'.S st'.I st'.R st'.log := by
  intro fuel
  induction fuel with
  | zero =>
    intro st st' h hsum hd
    have he : st = st' := Except.ok.inj h
    subst he
    exact ⟨hsum, hd⟩
  | succ fuel ih =>
    intro st st' h hsum hd
    unfold edRunSIR at h
    by_cases hemp : st.Q.Q.isEmpty = true
    · rw [if_pos hemp] at h
      have he : st = st' := Except.ok.inj h
      subst he
      exact ⟨hsum, hd⟩
    · rw [if_neg hemp] at h
      obtain ⟨st1, hstep, h⟩ := exceptBind_ok h
      rcases edStepSIR_cols G tif st st1 hstep with hsame | hshape
      · obtain ⟨e1, e2, e3, e4, e5, e6, e7⟩ := hsame
        exact ih st1 st' h (by rw [e2, e3, e4]; exact hsum)
          (by rw [e2, e3, e4, e5]; exact hd)
      · obtain ⟨t, s0, i0, r0, a, hs0, hi0, hr0, htm, hS, hI2, hR, hlog, -⟩ :=
          hshape
        refine ih st1 st' h ?_ ?_
        · rw [hS, hI2, hR]
          exact sumRows_append hsum hs0 hi0 hr0 (by cases a <;> decide)
        · rw [hS, hI2, hR, hlog]
          exact deltaOK_append a hd hs0 hi0 hr0 hsum.1 hsum.2.1

theorem edRunSIS_table (G : Graph) (tif : Nat → List Nat → (Nat → List ℚ) × ℚ)
    (n : ℤ) : ∀ (fuel : Nat) (st st' : SISState),
    edRunSIS G tif fuel st = .ok st' →
    sumRowsSIS n st.S st.I → deltaOKSIS st.S st.I st.log →
    sumRowsSIS n st'.S st'.I ∧ deltaOKSIS st'.S st'.I st'.log := by
  intro fuel
  induction fuel with
  | zero =>
    intro st st' h hsum hd
    have he : st = st' := Except.ok.inj h
    subst he
    exact ⟨hsum, hd⟩
  | succ fuel ih =>
    intro st st' h hsum hd
    unfold edRunSIS at h
    by_cases hemp : st.Q.Q.isEmpty = true
    · rw [if_pos hemp] at h
      have he : st = st' := Except.ok.inj h
      subst he
      exact ⟨hsum, hd⟩
    · rw [if_neg hemp] at h
      obtain ⟨st1, hstep, h⟩ := exceptBind_ok h
      rcases edStepSIS_cols G tif st st1 hstep with hsame | hshape
      · obtain ⟨e1, e2, e3, e4, e5, e6⟩ := hsame
        exact ih st1 st' h (by rw [e2, e3]; exact hsum)
          (by rw [e2, e3, e4]; exact hd)
      · obtain ⟨t, s0, i0, a, ha, hs0, hi0, htm, hS, hI2, hlog, -⟩ := hshape
        refine ih st1 st' h ?_ ?_
        · rw [hS, hI2]
          refine sumRowsSIS_append hsum hs0 hi0 ?_
          rcases ha with ha | ha <;> subst ha <;> decide
        · rw [hS, hI2, hlog]
          exact deltaOKSIS_append a hd hs0 hi0 hsum.1

theorem GillespieSIRloop_table (G : Graph) (hs : G.Symm) (tau gamma : ℚ)
    (tmax : QI) :
    ∀ (oracle : List GOracle) (st : GState) (trr tr : ℚ) (next : QI)
      (res : GState × List GOracle),
      GillespieSIRloop G tau gamma tmax oracle st trr tr next = .ok res →
      GReachSIR G st →
      sumRows (G.n : ℤ) st.S st.I st.R → deltaOK st.S st.I st.R st.log →
      sumRows (G.n : ℤ) res.1.S res.1.I res.1.R ∧
        deltaOK res.1.S res.1.I res.1.R res.1.log := by
  intro oracle
  induction oracle with
  | nil =>
    intro st trr tr next res h hr hsum hd
    have he : (st, ([] : List GOracle)) = res := Except.ok.inj h
    rw [← he]
    exact ⟨hsum, hd⟩
  | cons o rest ih =>
    intro st trr tr next res h hr hsum hd
    rw [GillespieSIRloop.eq_def] at h
    dsimp only at h
    by_cases hguard : next < tmax ∧ st.infected ≠ []
    · rw [if_pos hguard] at h
      cases hnext : next with
      | none =>
        rw [hnext] at h
        obtain ⟨nt, hnt, -⟩ := exceptBind_ok h
        cases hnt
      | some ntv =>
        rw [hnext] at h
        obtain ⟨nt, hnt, h⟩ := exceptBind_ok h
        have hntv : ntv = nt := Except.ok.inj hnt
        subst hntv
        by_cases hbr : o.u1 * tr < trr
        · rw [if_pos hbr] at h
          obtain ⟨st2, hrec, h⟩ := exceptBind_ok h
          obtain ⟨iL2, hiL2, h⟩ := exceptBind_ok h
          obtain ⟨-, recovering, -, -, -, -, -, -, -, -, hSap, hIap, hRap⟩ :=
            Gillespie_recover_SIR_inv G hs o.idx ntv st st2
              (greachSIR_inv G hs st hr) hrec
          obtain ⟨s0, hs0, hS2⟩ := appendLast_ok hSap
          obtain ⟨i0, hi0, hI2⟩ := appendLast_ok hIap
          obtain ⟨r0, hr0, hR2⟩ := appendLast_ok hRap
          have hlog2 : st2.log = st.log ++ [Act.recR] := by
            obtain ⟨-, recovering, -, -, -, -, -, -, hlg, -⟩ :=
              Gillespie_recover_SIR_inv G hs o.idx ntv st st2
                (greachSIR_inv G hs st hr) hrec
            exact hlg
          exact ih st2 (gamma * iL2) _ _ res h
            (GReachSIR.recover st st2 o.idx ntv hr hrec)
            (by rw [hS2, hI2, hR2]
                exact sumRows_append hsum hs0 hi0 hr0 (by decide))
            (by rw [hS2, hI2, hR2, hlog2]
                exact deltaOK_append .recR hd hs0 hi0 hr0 hsum.1 hsum.2.1)
        · rw [if_neg hbr] at h
          obtain ⟨st2, hinf, h⟩ := exceptBind_ok h
          obtain ⟨-, recipient, -, -, -, -, -, hlg, -, hSap, hIap, hRap, -⟩ :=
            Gillespie_infect_inv G hs o.u2 o.pick ntv true st st2
              (greachSIR_inv G hs st hr) hinf
          obtain ⟨s0, hs0, hS2⟩ := appendLast_ok hSap
          obtain ⟨i0, hi0, hI2⟩ := appendLast_ok hIap
          obtain ⟨r0, hr0, hR2⟩ := appendLast_ok (hRap rfl)
          exact ih st2 trr _ _ res h
            (GReachSIR.infect st st2 o.u2 o.pick ntv hr hinf)
            (by rw [hS2, hI2, hR2]
                exact sumRows_append hsum hs0 hi0 hr0 (by decide))
            (by rw [hS2, hI2, hR2, hlg]
                exact deltaOK_append .inf hd hs0 hi0 hr0 hsum.1 hsum.2.1)
    · rw [if_neg hguard] at h
      have he : (st, o :: rest) = res := Except.ok.inj h
      rw [← he]
      exact ⟨hsum, hd⟩

theorem GillespieSISloop_table (G : Graph) (hs : G.Symm) (tau gamma : ℚ)
    (tmax : QI) :
    ∀ (oracle : List GOracle) (st : GState) (trr tr : ℚ) (next : QI)
      (res : GState × List GOracle),
      GillespieSISloop G tau gamma tmax oracle st trr tr next = .ok res →
      GReachSIS G st →
      sumRowsSIS (G.n : ℤ) st.S st.I → deltaOKSIS st.S st.I st.log →
      sumRowsSIS (G.n : ℤ) res.1.S res.1.I ∧
        deltaOKSIS res.1.S res.1.I res.1.log := by
  intro oracle
  induction oracle with
  | nil =>
    intro st trr tr next res h hr hsum hd
    have he : (st, ([] : List GOracle)) = res := Except.ok.inj h
    rw [← he]
    exact ⟨hsum, hd⟩
  | cons o rest ih =>
    intro st trr tr next res h hr hsum hd
    rw [GillespieSISloop.eq_def] at h
    dsimp only at h
    by_cases hguard : next < tmax ∧ st.infected ≠ []
    · rw [if_pos hguard] at h
      cases hnext : next with
      | none =>
        rw [hnext] at h
        obtain ⟨nt, hnt, -⟩ := exceptBind_ok h
        cases hnt
      | some ntv =>
        rw [hnext] at h
        obtain ⟨nt, hnt, h⟩ := exceptBind_ok h
        have hntv : ntv = nt := Except.ok.inj hnt
        subst hntv
        by_cases hbr : o.u1 * tr < trr
        · rw [if_pos hbr] at h
          obtain ⟨st2, hrec, h⟩ := exceptBind_ok h
          obtain ⟨iL2, hiL2, h⟩ := exceptBind_ok h
          have hreach := greachSIS_inv G hs st hr
          obtain ⟨-, -, recovering, -, -, -, -, -, -, hlg, -, hSap, hIap, -⟩ :=
            Gillespie_recover_SIS_inv G hs o.idx ntv st st2
              hreach.1 hreach.2 hrec
          obtain ⟨s0, hs0, hS2⟩ := appendLast_ok hSap
          obtain ⟨i0, hi0, hI2⟩ := appendLast_ok hIap
          exact ih st2 (gamma * iL2) _ _ res h
            (GReachSIS.recover st st2 o.idx ntv hr hrec)
            (by rw [hS2, hI2]
                exact sumRowsSIS_append hsum hs0 hi0 (by decide))
            (by rw [hS2, hI2, hlg]
                exact deltaOKSIS_append .recS hd hs0 hi0 hsum.1)
        · rw [if_neg hbr] at h
          obtain ⟨st2, hinf, h⟩ := exceptBind_ok h
          obtain ⟨-, recipient, -, -, -, -, -, hlg, -, hSap, hIap, -, -⟩ :=
            Gillespie_infect_inv G hs o.u2 o.pick ntv false st st2
              (greachSIS_inv G hs st hr).1 hinf
          obtain ⟨s0, hs0, hS2⟩ := appendLast_ok hSap
          obtain ⟨i0, hi0, hI2⟩ := appendLast_ok hIap
          exact ih st2 trr _ _ res h
            (GReachSIS.infect st st2 o.u2 o.pick ntv hr hinf)
            (by rw [hS2, hI2]
                exact sumRowsSIS_append hsum hs0 hi0 (by decide))
            (by rw [hS2, hI2, hlg]
                exact deltaOKSIS_append .inf hd hs0 hi0 hsum.1)
    · rw [if_neg hguard] at h
      have he : (st, o :: rest) = res := Except.ok.inj h
      rw [← he]
      exact ⟨hsum, hd⟩

theorem GillespieSIRrun_table (G : Graph) (hs : G.Symm) (tau gamma : ℚ)
    (iinf irec : Option (List Nat)) (rho : Option ℚ) (sOr : List Nat)
    (tmin : ℚ) (tmax : QI) (dt0 : ℚ) (oracle : List GOracle)
    (st : GState) (rest : List GOracle)
    (hnd : (iinf.getD sOr).Nodup) (hlt : ∀ v ∈ iinf.getD sOr, v < G.n)
    (hdisj : ∀ v ∈ irec.getD [], v ∉ iinf.getD sOr)
    (h : GillespieSIRrun G tau gamma iinf irec rho sOr tmin tmax dt0 oracle
      = .ok (st, rest)) :
    sumRows (G.n : ℤ) st.S st.I st.R ∧ deltaOK st.S st.I st.R st.log := by
  unfold GillespieSIRrun at h
  dsimp only at h
  by_cases hra : Gillespie_SIR_raises rho iinf = true
  · rw [if_pos hra] at h
    obtain ⟨u, hu, -⟩ := exceptBind_ok h
    cases hu
  · rw [if_neg hra] at h
    obtain ⟨u, -, h⟩ := exceptBind_ok h
    obtain ⟨st0, hinit, h⟩ := exceptBind_ok h
    obtain ⟨d0, hd0, h⟩ := exceptBind_ok h
    obtain ⟨incrisk, hfold, hst0⟩ :=
      Gillespie_initialize_SIR_ok G _ _ tmin st0 hinit
    have hreach : GReachSIR G st0 :=
      GReachSIR.init _ _ tmin st0 hnd hlt hdisj hinit
    have hsum0 : sumRows (G.n : ℤ) st0.S st0.I st0.R := by
      subst hst0
      refine ⟨rfl, rfl, ?_⟩
      intro i hi
      simp only [List.length_cons, List.length_nil] at hi
      have hi0 : i = 0 := by omega
      subst hi0
      simp [List.getD]
    have hd0' : deltaOK st0.S st0.I st0.R st0.log := by
      subst hst0
      exact ⟨rfl, fun i hi => absurd hi (Nat.not_lt_zero i)⟩
    exact GillespieSIRloop_table G hs tau gamma tmax oracle st0 _ _ _
      (st, rest) h hreach hsum0 hd0'

theorem GillespieSISrun_table (G : Graph) (hs : G.Symm) (tau gamma : ℚ)
    (iinf : Option (List Nat)) (rho : Option ℚ) (sOr : List Nat)
    (tmin : ℚ) (tmax : QI) (dt0 : ℚ) (oracle : List GOracle)
    (st : GState) (rest : List GOracle)
    (hnd : (iinf.getD sOr).Nodup) (hlt : ∀ v ∈ iinf.getD sOr, v < G.n)
    (h : GillespieSISrun G tau gamma iinf rho sOr tmin tmax dt0 oracle
      = .ok (st, rest)) :
    sumRowsSIS (G.n : ℤ) st.S st.I ∧ deltaOKSIS st.S st.I st.log := by
  unfold GillespieSISrun at h
  dsimp only at h
  by_cases hra : Gillespie_SIS_raises rho iinf = true
  · rw [if_pos hra] at h
    obtain ⟨u, hu, -⟩ := exceptBind_ok h
    cases hu
  · rw [if_neg hra] at h
    obtain ⟨u, -, h⟩ := exceptBind_ok h
    obtain ⟨st0, hinit, h⟩ := exceptBind_ok h
    obtain ⟨d0, hd0, h⟩ := exceptBind_ok h
    obtain ⟨incrisk, hfold, hst0⟩ :=
      Gillespie_initialize_SIS_ok G _ tmin st0 hinit
    have hreach : GReachSIS G st0 :=
      GReachSIS.init _ tmin st0 hnd hlt hinit
    have hsum0 : sumRowsSIS (G.n : ℤ) st0.S st0.I := by
      subst hst0
      refine ⟨rfl, ?_⟩
      intro i hi
      simp only [List.length_cons, List.length_nil] at hi
      have hi0 : i = 0 := by omega
      subst hi0
      simp [List.getD]
    have hd0' : deltaOKSIS st0.S st0.I st0.log := by
      subst hst0
      exact ⟨rfl, fun i hi => absurd hi (Nat.not_lt_zero i)⟩
    exact GillespieSISloop_table G hs tau gamma tmax oracle st0 _ _ _
      (st, rest) h hreach hsum0 hd0'

theorem fastNonMarkovSIR_table (G : Graph)
    (tif : Nat → List Nat → List (Nat × ℚ) × ℚ)
    (iinf irec : Option (List Nat)) (rho : Option ℚ) (sOr : List Nat)
    (tmin : ℚ) (tmax : QI) (fuel : Nat) (T : RunTable)
    (h : fastNonMarkovSIR G tif iinf irec rho sOr tmin tmax fuel = .ok T) :
    sumRows (G.n : ℤ) T.S T.I T.R ∧ dropDeltaOK T.S T.I T.R T.log := by
  unfold fastNonMarkovSIR at h
  dsimp only at h
  by_cases h1 : fast_nonMarkov_SIR_raises rho iinf = true
  · rw [if_pos h1] at h
    obtain ⟨u, hu, -⟩ := exceptBind_ok h
    cases hu
  · rw [if_neg h1] at h
    obtain ⟨u1, -, h⟩ := exceptBind_ok h
    by_cases h2 : (truthyRho rho && truthyNodes irec) = true
    · rw [if_pos h2] at h
      obtain ⟨u, hu, -⟩ := exceptBind_ok h
      cases hu
    · rw [if_neg h2] at h
      obtain ⟨u2, -, h⟩ := exceptBind_ok h
      revert h
      cases hqp : (iinf.getD sOr).foldl
          (fun (acc : myQueue EDEvent × (Nat → QI)) u =>
            (acc.1.add tmin (.trans u), Function.update acc.2 u (tmin : QI)))
          (myQueue.init EDEvent tmax, fun _ => (⊤ : QI)) with
      | mk Q0 pred1 =>
        intro h
        obtain ⟨stf, hrun, h⟩ := exceptBind_ok h
        have hT := (Except.ok.inj h).symm
        obtain ⟨hsum, hd⟩ := edRunSIR_table G tif (G.n : ℤ) fuel _ stf hrun
          ⟨rfl, rfl, by
            intro i hi
            simp only [List.length_cons, List.length_nil] at hi
            have hi0 : i = 0 := by omega
            subst hi0
            simp [List.getD]⟩
          ⟨rfl, fun i hi => absurd hi (Nat.not_lt_zero i)⟩
        subst hT
        exact ⟨sumRows_drop _ hsum, deltaOK_dropped _ hd⟩

theorem fastNonMarkovSIS_table (G : Graph)
    (tif : Nat → List Nat → (Nat → List ℚ) × ℚ)
    (iinf : Option (List Nat)) (rho : Option ℚ) (sOr : List Nat)
    (tmin : ℚ) (tmax : QI) (fuel : Nat) (T : SISTable)
    (h : fastNonMarkovSIS G tif iinf rho sOr tmin tmax fuel = .ok T) :
    sumRowsSIS (G.n : ℤ) T.S T.I ∧ dropDeltaOKSIS T.S T.I T.log := by
  unfold fastNonMarkovSIS at h
  dsimp only at h
  by_cases h1 : fast_nonMarkov_SIS_raises rho iinf = true
  · rw [if_pos h1] at h
    obtain ⟨u, hu, -⟩ := exceptBind_ok h
    cases hu
  · rw [if_neg h1] at h
    obtain ⟨u1, -, h⟩ := exceptBind_ok h
    obtain ⟨stf, hrun, h⟩ := exceptBind_ok h
    have hT := (Except.ok.inj h).symm
    obtain ⟨hsum, hd⟩ := edRunSIS_table G tif (G.n : ℤ) fuel _ stf hrun
      ⟨rfl, by
        intro i hi
        simp only [List.length_cons, List.length_nil] at hi
        have hi0 : i = 0 := by omega
        subst hi0
        simp [List.getD]⟩
      ⟨rfl, fun i hi => absurd hi (Nat.not_lt_zero i)⟩
    subst hT
    exact ⟨sumRowsSIS_drop _ hsum, deltaOKSIS_dropped _ hd⟩

/-- C4: for every successful run of each modelled engine the recorded count
rows sum to the node count and consecutive rows differ by exactly the logged
event's ±1 pattern (S→I, I→R for SIR, I→S for SIS), all other columns
unchanged. -/
theorem claim_C4_theorem :
    (∀ (G : Graph) (tif : Nat → List Nat → List (Nat × ℚ) × ℚ)
        (iinf irec : Option (List Nat)) (rho : Option ℚ) (sOr : List Nat)
        (tmin : ℚ) (tmax : QI) (fuel : Nat) (T : RunTable),
      fastNonMarkovSIR G tif iinf irec rho sOr tmin tmax fuel = .ok T →
      sumRows (G.n : ℤ) T.S T.I T.R ∧ dropDeltaOK T.S T.I T.R T.log) ∧
    (∀ (G : Graph) (tif : Nat → List Nat → (Nat → List ℚ) × ℚ)
        (iinf : Option (List Nat)) (rho : Option ℚ) (sOr : List Nat)
        (tmin : ℚ) (tmax : QI) (fuel : Nat) (T : SISTable),
      fastNonMarkovSIS G tif iinf rho sOr tmin tmax fuel = .ok T →
      sumRowsSIS (G.n : ℤ) T.S T.I ∧ dropDeltaOKSIS T.S T.I T.log) ∧
    (∀ (G : Graph), G.Symm → ∀ (tau gamma : ℚ) (iinf irec : Option (List Nat))
        (rho : Option ℚ) (sOr : List Nat) (tmin : ℚ) (tmax : QI) (dt0 : ℚ)
        (oracle : List GOracle) (st : GState) (rest : List GOracle),
      (iinf.getD sOr).Nodup → (∀ v ∈ iinf.getD sOr, v < G.n) →
      (∀ v ∈ irec.getD [], v ∉ iinf.getD sOr) →
      GillespieSIRrun G tau gamma iinf irec rho sOr tmin tmax dt0 oracle
        = .ok (st, rest) →
      sumRows (G.n : ℤ) st.S st.I st.R ∧ deltaOK st.S st.I st.R st.log) ∧
    (∀ (G : Graph), G.Symm → ∀ (tau gamma : ℚ) (iinf : Option (List Nat))
        (rho : Option ℚ) (sOr : List Nat) (tmin : ℚ) (tmax : QI) (dt0 : ℚ)
        (oracle : List GOracle) (st : GState) (rest : List GOracle),
      (iinf.getD sOr).Nodup → (∀ v ∈ iinf.getD sOr, v < G.n) →
      GillespieSISrun G tau gamma iinf rho sOr tmin tmax dt0 oracle
        = .ok (st, rest) →
      sumRowsSIS (G.n : ℤ) st.S st.I ∧ deltaOKSIS st.S st.I st.log) :=
  ⟨fun G tif iinf irec rho sOr tmin tmax fuel T h =>
      fastNonMarkovSIR_table G tif iinf irec rho sOr tmin tmax fuel T h,
    fun G tif iinf rho sOr tmin tmax fuel T h =>
      fastNonMarkovSIS_table G tif iinf rho sOr tmin tmax fuel T h,
    fun G hs tau gamma iinf irec rho sOr tmin tmax dt0 oracle st rest
        hnd hlt hdisj h =>
      GillespieSIRrun_table G hs tau gamma iinf irec rho sOr tmin tmax dt0
        oracle st rest hnd hlt hdisj h,
    fun G hs tau gamma iinf rho sOr tmin tmax dt0 oracle st rest hnd hlt h =>
      GillespieSISrun_table G hs tau gamma iinf rho sOr tmin tmax dt0
        oracle st rest hnd hlt h⟩

theorem claim_C4_witness :
    GillespieSIRrun pairGraph 1 1 (some [0]) (some []) none [] 0 (some 10) 1 []
      = .ok (pairInitState, []) ∧
    ((some [0] : Option (List Nat)).getD []).Nodup ∧
    (∀ v ∈ (some [0] : Option (List Nat)).getD [], v < pairGraph.n) ∧
    sumRows (pairGraph.n : ℤ) pairInitState.S pairInitState.I
      pairInitState.R ∧
    deltaOK pairInitState.S pairInitState.I pairInitState.R
      pairInitState.log := by
  have hrun : GillespieSIRrun pairGraph 1 1 (some [0]) (some []) none [] 0
      (some 10) 1 [] = .ok (pairInitState, []) := by
    with_unfolding_all rfl
  have hmain := claim_C4_theorem.2.2.1 pairGraph pairGraph_symm 1 1
    (some [0]) (some []) none [] 0 (some 10) 1 [] pairInitState []
    (by decide) (by with_unfolding_all decide) (by simp) hrun
  exact ⟨hrun, by decide, by with_unfolding_all decide, hmain.1, hmain.2⟩

/-! ### Census bookkeeping -/

theorem census_eq (G : Graph) (status : Nat → Status) :
    census G status =
      (countStat G status .S, countStat G status .I, countStat G status .R) :=
  rfl

theorem countP_partition (l : List Nat) (f : Nat → Status) :
    l.countP (fun v => decide (f v = .S)) +
      l.countP (fun v => decide (f v = .I)) +
      l.countP (fun v => decide (f v = .R)) = l.length := by
  induction l with
  | nil => rfl
  | cons a t ih =>
    rw [List.countP_cons, List.countP_cons, List.countP_cons]
    cases ha : f a <;> simp [ha] <;> omega

theorem countStat_total (G : Graph) (status : Nat → Status) :
    countStat G status .S + countStat G status .I + countStat G status .R
      = (G.n : ℤ) := by
  unfold countStat
  rw [← List.countP_eq_length_filter, ← List.countP_eq_length_filter,
    ← List.countP_eq_length_filter]
  have h := countP_partition (List.range G.n) status
  rw [List.length_range] at h
  exact_mod_cast congrArg (Nat.cast : Nat → ℤ) h

theorem countStat_flip (G : Graph) {status : Nat → Status} {v : Nat}
    (hv : v < G.n) {a b : Status} (hab : a ≠ b) (hva : status v = a) :
    countStat G (Function.update status v b) a = countStat G status a - 1 ∧
    countStat G (Function.update status v b) b = countStat G status b + 1 ∧
    (∀ x, x ≠ a → x ≠ b →
      countStat G (Function.update status v b) x = countStat G status x) := by
  refine ⟨?_, ?_, ?_⟩
  · have h := countStat_update G status v hv b a
    rw [if_pos hva, if_neg (fun hh => hab hh.symm)] at h
    omega
  · have h := countStat_update G status v hv b b
    rw [if_neg (fun hh => hab (hva.symm.trans hh)), if_pos rfl] at h
    omega
  · intro x hxa hxb
    have h := countStat_update G status v hv b x
    rw [if_neg (fun hh => hxa (hva.symm.trans hh).symm),
      if_neg (fun hh => hxb hh.symm)] at h
    omega

/-- Census of the initialized status map in terms of the input lists. -/
theorem init_countStat (G : Graph) (initI initR : List Nat)
    (hI : initI.Nodup) (hIlt : ∀ v ∈ initI, v < G.n)
    (hRnd : initR.Nodup) (hRlt : ∀ v ∈ initR, v < G.n)
    (hdisj : ∀ v ∈ initR, v ∉ initI) :
    countStat G (initR.foldl (fun s v => Function.update s v Status.R)
        (initI.foldl (fun s v => Function.update s v Status.I)
          (fun _ => Status.S))) .I = (initI.length : ℤ) ∧
    countStat G (initR.foldl (fun s v => Function.update s v Status.R)
        (initI.foldl (fun s v => Function.update s v Status.I)
          (fun _ => Status.S))) .R = (initR.length : ℤ) ∧
    countStat G (initR.foldl (fun s v => Function.update s v Status.R)
        (initI.foldl (fun s v => Function.update s v Status.I)
          (fun _ => Status.S))) .S
      = (G.n : ℤ) - initI.length - initR.length := by
  have hstat : ∀ w, (initR.foldl (fun s v => Function.update s v Status.R)
      (initI.foldl (fun s v => Function.update s v Status.I)
        (fun _ => Status.S))) w
      = if w ∈ initR then Status.R else if w ∈ initI then Status.I
        else Status.S := by
    intro w
    rw [initialize_status_apply, initialize_status_apply]
  have hcI : countStat G (initR.foldl (fun s v => Function.update s v Status.R)
      (initI.foldl (fun s v => Function.update s v Status.I)
        (fun _ => Status.S))) .I = (initI.length : ℤ) := by
    unfold countStat
    have hfI : (List.range G.n).filter (fun v => decide
        ((initR.foldl (fun s v => Function.update s v Status.R)
          (initI.foldl (fun s v => Function.update s v Status.I)
            (fun _ => Status.S))) v = Status.I))
        = (List.range G.n).filter (fun v => decide (v ∈ initI)) := by
      apply List.filter_congr
      intro w _
      apply decide_eq_decide.mpr
      rw [hstat w]
      by_cases hwI : w ∈ initI
      · rw [if_neg (fun hwR => hdisj w hwR hwI), if_pos hwI]
        simp [hwI]
      · constructor
        · intro hw
          by_cases hwR : w ∈ initR
          · rw [if_pos hwR] at hw
            cases hw
          · rw [if_neg hwR, if_neg hwI] at hw
            cases hw
        · intro hw
          exact absurd hw hwI
    rw [hfI, length_filter_mem_comm (List.range G.n) initI
      (List.nodup_range G.n) hI]
    have hall : initI.filter (fun v => decide (v ∈ List.range G.n)) = initI :=
      List.filter_eq_self.mpr
        (fun a ha => by simpa [List.mem_range] using hIlt a ha)
    rw [hall]
  have hcR : countStat G (initR.foldl (fun s v => Function.update s v Status.R)
      (initI.foldl (fun s v => Function.update s v Status.I)
        (fun _ => Status.S))) .R = (initR.length : ℤ) := by
    unfold countStat
    have hfR : (List.range G.n).filter (fun v => decide
        ((initR.foldl (fun s v => Function.update s v Status.R)
          (initI.foldl (fun s v => Function.update s v Status.I)
            (fun _ => Status.S))) v = Status.R))
        = (List.range G.n).filter (fun v => decide (v ∈ initR)) := by
      apply List.filter_congr
      intro w _
      apply decide_eq_decide.mpr
      rw [hstat w]
      by_cases hwR : w ∈ initR
      · rw [if_pos hwR]
        simp [hwR]
      · rw [if_neg hwR]
        constructor
        · intro hw
          by_cases hwI : w ∈ initI
          · rw [if_pos hwI] at hw
            cases hw
          · rw [if_neg hwI] at hw
            cases hw
        · intro hw
          exact absurd hw hwR
    rw [hfR, length_filter_mem_comm (List.range G.n) initR
      (List.nodup_range G.n) hRnd]
    have hall : initR.filter (fun v => decide (v ∈ List.range G.n)) = initR :=
      List.filter_eq_self.mpr
        (fun a ha => by simpa [List.mem_range] using hRlt a ha)
    rw [hall]
  refine ⟨hcI, hcR, ?_⟩
  have htot := countStat_total G (initR.foldl
    (fun s v => Function.update s v Status.R)
    (initI.foldl (fun s v => Function.update s v Status.I)
      (fun _ => Status.S)))
  omega

theorem snapRel_append {r0 : ℤ} {S I R : List ℤ} {snap : List (ℤ × ℤ × ℤ)}
    {s0 i0 rr0 : ℤ} {c' : ℤ × ℤ × ℤ} {dS dI dR : ℤ}
    (h : snapRel r0 S I R snap)
    (hS : S.getLast? = some s0) (hI : I.getLast? = some i0)
    (hR : R.getLast? = some rr0)
    (h1 : s0 + dS = c'.1 + r0) (h2 : i0 + dI = c'.2.1)
    (h3 : rr0 + dR = c'.2.2 - r0) :
    snapRel r0 (S ++ [s0 + dS]) (I ++ [i0 + dI]) (R ++ [rr0 + dR])
      (snap ++ [c']) := by
  obtain ⟨hl1, hl2, hl3, hrow⟩ := h
  refine ⟨by simp [hl1], by simp [hl2], by simp [hl3], ?_⟩
  intro i hi
  simp only [List.length_append, List.length_cons, List.length_nil] at hi
  by_cases hilt : i < snap.length
  · rw [getD_concat_lt S _ 0 i (by omega), getD_concat_lt I _ 0 i (by omega),
      getD_concat_lt R _ 0 i (by omega), getD_concat_lt snap _ _ i hilt]
    exact hrow i hilt
  · have hieq : i = snap.length := by omega
    subst hieq
    have eS : (S ++ [s0 + dS]).getD snap.length 0 = s0 + dS := by
      rw [← hl1]; exact getD_concat_len S _ _
    have eI : (I ++ [i0 + dI]).getD snap.length 0 = i0 + dI := by
      rw [← hl2]; exact getD_concat_len I _ _
    have eR : (R ++ [rr0 + dR]).getD snap.length 0 = rr0 + dR := by
      rw [← hl3]; exact getD_concat_len R _ _
    have ec : (snap ++ [c']).getD snap.length (0, 0, 0) = c' :=
      getD_concat_len snap _ _
    rw [eS, eI, eR, ec]
    exact ⟨h1, h2, h3⟩

theorem snapRel_last {r0 : ℤ} {S I R : List ℤ} {snap : List (ℤ × ℤ × ℤ)}
    {s0 i0 rr0 : ℤ} {c : ℤ × ℤ × ℤ}
    (h : snapRel r0 S I R snap)
    (hS : S.getLast? = some s0) (hI : I.getLast? = some i0)
    (hR : R.getLast? = some rr0) (hc : snap.getLast? = some c) :
    s0 = c.1 + r0 ∧ i0 = c.2.1 ∧ rr0 = c.2.2 - r0 := by
  obtain ⟨hl1, hl2, hl3, hrow⟩ := h
  obtain ⟨hcpos, hclast⟩ := getLast?_getD snap c (0, 0, 0) hc
  obtain ⟨-, hSlast⟩ := getLast?_getD S s0 0 hS
  obtain ⟨-, hIlast⟩ := getLast?_getD I i0 0 hI
  obtain ⟨-, hRlast⟩ := getLast?_getD R rr0 0 hR
  have hrowl := hrow (snap.length - 1) (by omega)
  have eS : S.getD (snap.length - 1) 0 = s0 := by rw [← hl1]; exact hSlast
  have eI : I.getD (snap.length - 1) 0 = i0 := by rw [← hl2]; exact hIlast
  have eR : R.getD (snap.length - 1) 0 = rr0 := by rw [← hl3]; exact hRlast
  rw [eS, eI, eR, hclast] at hrowl
  exact hrowl

theorem GillespieSIRloop_snap (G : Graph) (hs : G.Symm) (tau gamma : ℚ)
    (tmax : QI) (r0 : ℤ) :
    ∀ (oracle : List GOracle) (st : GState) (trr tr : ℚ) (next : QI)
      (res : GState × List GOracle),
      GillespieSIRloop G tau gamma tmax oracle st trr tr next = .ok res →
      GReachSIR G st →
      snapRel r0 st.S st.I st.R st.snap →
      st.snap.getLast? = some (census G st.status) →
      snapRel r0 res.1.S res.1.I res.1.R res.1.snap ∧
        res.1.snap.getLast? = some (census G res.1.status) := by
  intro oracle
  induction oracle with
  | nil =>
    intro st trr tr next res h hr hrel hlast
    have he : (st, ([] : List GOracle)) = res := Except.ok.inj h
    rw [← he]
    exact ⟨hrel, hlast⟩
  | cons o rest ih =>
    intro st trr tr next res h hr hrel hlast
    rw [GillespieSIRloop.eq_def] at h
    dsimp only at h
    by_cases hguard : next < tmax ∧ st.infected ≠ []
    · rw [if_pos hguard] at h
      cases hnext : next with
      | none =>
        rw [hnext] at h
        obtain ⟨nt, hnt, -⟩ := exceptBind_ok h
        cases hnt
      | some ntv =>
        rw [hnext] at h
        obtain ⟨nt, hnt, h⟩ := exceptBind_ok h
        have hntv : ntv = nt := Except.ok.inj hnt
        subst hntv
        by_cases hbr : o.u1 * tr < trr
        · rw [if_pos hbr] at h
          obtain ⟨st2, hrec, h⟩ := exceptBind_ok h
          obtain ⟨iL2, hiL2, h⟩ := exceptBind_ok h
          obtain ⟨-, recovering, hrn, hrI, hstat, -, -, -, -, hsnap2, hSap,
            hIap, hRap⟩ :=
            Gillespie_recover_SIR_inv G hs o.idx ntv st st2
              (greachSIR_inv G hs st hr) hrec
          obtain ⟨s0, hs0, hS2⟩ := appendLast_ok hSap
          obtain ⟨i0, hi0, hI2⟩ := appendLast_ok hIap
          obtain ⟨r1, hr1, hR2⟩ := appendLast_ok hRap
          obtain ⟨es, ei, er⟩ := snapRel_last hrel hs0 hi0 hr1 hlast
          obtain ⟨hfa, hfb, hfc⟩ :=
            countStat_flip G hrn (show Status.I ≠ Status.R by decide) hrI
          have hcen : census G st2.status =
              (countStat G st.status .S, countStat G st.status .I - 1,
                countStat G st.status .R + 1) := by
            rw [census_eq, hstat]
            rw [hfa, hfb, hfc .S (by decide) (by decide)]
          exact ih st2 (gamma * iL2) _ _ res h
            (GReachSIR.recover st st2 o.idx ntv hr hrec)
            (by rw [hS2, hI2, hR2, hsnap2]
                refine snapRel_append hrel hs0 hi0 hr1 ?_ ?_ ?_ <;>
                  rw [hcen] <;> rw [census_eq] at es ei er <;>
                  dsimp only at es ei er ⊢ <;> omega)
            (by rw [hsnap2]
                exact List.getLast?_concat _)
        · rw [if_neg hbr] at h
          obtain ⟨st2, hinf, h⟩ := exceptBind_ok h
          obtain ⟨-, recipient, hrn, hrS, hstat, -, -, -, hsnap2, hSap, hIap,
            hRap, -⟩ :=
            Gillespie_infect_inv G hs o.u2 o.pick ntv true st st2
              (greachSIR_inv G hs st hr) hinf
          obtain ⟨s0, hs0, hS2⟩ := appendLast_ok hSap
          obtain ⟨i0, hi0, hI2⟩ := appendLast_ok hIap
          obtain ⟨r1, hr1, hR2⟩ := appendLast_ok (hRap rfl)
          obtain ⟨es, ei, er⟩ := snapRel_last hrel hs0 hi0 hr1 hlast
          obtain ⟨hfa, hfb, hfc⟩ :=
            countStat_flip G hrn (show Status.S ≠ Status.I by decide) hrS
          have hcen : census G st2.status =
              (countStat G st.status .S - 1, countStat G st.status .I + 1,
                countStat G st.status .R) := by
            rw [census_eq, hstat]
            rw [hfa, hfb, hfc .R (by decide) (by decide)]
          exact ih st2 trr _ _ res h
            (GReachSIR.infect st st2 o.u2 o.pick ntv hr hinf)
            (by rw [hS2, hI2, hR2, hsnap2]
                refine snapRel_append hrel hs0 hi0 hr1 ?_ ?_ ?_ <;>
                  rw [hcen] <;> rw [census_eq] at es ei er <;>
                  dsimp only at es ei er ⊢ <;> omega)
            (by rw [hsnap2]
                exact List.getLast?_concat _)
    · rw [if_neg hguard] at h
      have he : (st, o :: rest) = res := Except.ok.inj h
      rw [← he]
      exact ⟨hrel, hlast⟩

theorem claim_C7_counterexample :
    (GillespieSIRrun edgeless2 1 1 (some [0]) (some [1]) none [] 0
        ((10 : ℚ) : QI) 1 []).toOption.map
      (fun p => (p.1.S.getD 0 0, p.1.snap.getD 0 (0, 0, 0))) =
      some (1, (0, 1, 1)) ∧ (1 : ℤ) ≠ 0 := by
  constructor
  · with_unfolding_all decide
  · decide

/-- C7, amended: along every successful `Gillespie_SIR` run from a
well-formed initial condition, each recorded row differs from the true
post-event census by the constant offset `|initial_recovereds|`: the S
column exceeds the susceptible census by it and the R column undercounts
the recovered census by it (so with no initial recovereds the rows are the
exact census). -/
theorem claim_C7_theorem (G : Graph) (hs : G.Symm) (tau gamma : ℚ)
    (iinf irec : Option (List Nat)) (rho : Option ℚ) (sOr : List Nat)
    (tmin : ℚ) (tmax : QI) (dt0 : ℚ) (oracle : List GOracle)
    (st : GState) (rest : List GOracle)
    (hnd : (iinf.getD sOr).Nodup) (hlt : ∀ v ∈ iinf.getD sOr, v < G.n)
    (hndR : (irec.getD []).Nodup) (hltR : ∀ v ∈ irec.getD [], v < G.n)
    (hdisj : ∀ v ∈ irec.getD [], v ∉ iinf.getD sOr)
    (h : GillespieSIRrun G tau gamma iinf irec rho sOr tmin tmax dt0 oracle
      = .ok (st, rest)) :
    snapRel ((irec.getD []).length : ℤ) st.S st.I st.R st.snap := by
  unfold GillespieSIRrun at h
  dsimp only at h
  by_cases hra : Gillespie_SIR_raises rho iinf = true
  · rw [if_pos hra] at h
    obtain ⟨u, hu, -⟩ := exceptBind_ok h
    cases hu
  · rw [if_neg hra] at h
    obtain ⟨u, -, h⟩ := exceptBind_ok h
    obtain ⟨st0, hinit, h⟩ := exceptBind_ok h
    obtain ⟨d0, hd0, h⟩ := exceptBind_ok h
    obtain ⟨incrisk, hfold, hst0⟩ :=
      Gillespie_initialize_SIR_ok G _ _ tmin st0 hinit
    have hreach : GReachSIR G st0 :=
      GReachSIR.init _ _ tmin st0 hnd hlt hdisj hinit
    obtain ⟨hcI, hcR, hcS⟩ := init_countStat G (iinf.getD sOr) (irec.getD [])
      hnd hlt hndR hltR hdisj
    have hrel0 : snapRel ((irec.getD []).length : ℤ) st0.S st0.I st0.R
        st0.snap := by
      subst hst0
      refine ⟨rfl, rfl, rfl, ?_⟩
      intro i hi
      simp only [List.length_cons, List.length_nil] at hi
      have hi0 : i = 0 := by omega
      subst hi0
      rw [census_eq]
      refine ⟨?_, ?_, ?_⟩
      · rw [List.getD_cons_zero, List.getD_cons_zero]
        dsimp only
        omega
      · rw [List.getD_cons_zero, List.getD_cons_zero]
        dsimp only
        omega
      · rw [List.getD_cons_zero, List.getD_cons_zero]
        dsimp only
        omega
    have hlast0 : st0.snap.getLast? = some (census G st0.status) := by
      subst hst0
      rfl
    exact (GillespieSIRloop_snap G hs tau gamma tmax _ oracle st0 _ _ _
      (st, rest) h hreach hrel0 hlast0).1

theorem claim_C7_witness :
    GillespieSIRrun pairGraph 1 1 (some [0]) (some []) none [] 0 (some 10) 1
      [] = .ok (pairInitState, []) ∧
    ((some [0] : Option (List Nat)).getD []).Nodup ∧
    (∀ v ∈ (some [0] : Option (List Nat)).getD [], v < pairGraph.n) ∧
    snapRel (((some [] : Option (List Nat)).getD []).length : ℤ)
      pairInitState.S pairInitState.I pairInitState.R pairInitState.snap := by
  have hrun : GillespieSIRrun pairGraph 1 1 (some [0]) (some []) none [] 0
      (some 10) 1 [] = .ok (pairInitState, []) := by
    with_unfolding_all rfl
  refine ⟨hrun, by decide, by with_unfolding_all decide, ?_⟩
  exact claim_C7_theorem pairGraph pairGraph_symm 1 1 (some [0]) (some [])
    none [] 0 (some 10) 1 [] pairInitState [] (by decide)
    (by with_unfolding_all decide) (by decide) (by simp) (by simp) hrun

/-! ### Time coherence of the engines -/

theorem myQueue.add_tmax {E} (q : myQueue E) (time : ℚ) (ev : E) :
    (q.add time ev).tmax = q.tmax := by
  unfold myQueue.add
  split <;> rfl

theorem myQueue.mem_add_elim {E} (q : myQueue E) (time : ℚ) (ev : E)
    (e : ℚ × Nat × E) (he : e ∈ (q.add time ev).Q) :
    e ∈ q.Q ∨ (e = (time, q.counter, ev) ∧ (time : QI) < q.tmax) := by
  by_cases hlt : (time : QI) < q.tmax
  · rw [((myQueue.add_spec q time ev).1 hlt).1] at he
    rcases List.mem_append.mp he with he | he
    · exact Or.inl he
    · rw [List.mem_singleton] at he
      exact Or.inr ⟨he, hlt⟩
  · rw [(myQueue.add_spec q time ev).2 hlt] at he
    exact Or.inl he

theorem keyLt_min_time {E} {x m : ℚ × Nat × E} (h : ¬ myQueue.keyLt x m) :
    m.1 ≤ x.1 := by
  unfold myQueue.keyLt at h
  push_neg at h
  exact h.1

theorem timesOK_append {tmin : ℚ} {tmax : QI} {times : List ℚ} {tl t : ℚ}
    (h : timesOK tmin tmax times) (hlast : times.getLast? = some tl)
    (hle : tl ≤ t) (hb : (t : QI) ≤ tmax) :
    timesOK tmin tmax (times ++ [t]) ∧ (times ++ [t]).getLast? = some t := by
  obtain ⟨hch, hhd, hbd⟩ := h
  refine ⟨⟨?_, ?_, ?_⟩, List.getLast?_concat _⟩
  · rw [List.chain'_append]
    refine ⟨hch, List.chain'_singleton t, ?_⟩
    intro x hx y hy
    rw [hlast] at hx
    simp only [Option.mem_def, Option.some.injEq] at hx
    simp only [List.head?_cons, Option.mem_def, Option.some.injEq] at hy
    rw [← hx, ← hy]
    exact hle
  · rw [List.head?_append, hhd]
    rfl
  · intro x hx
    rcases List.mem_append.mp hx with hx | hx
    · exact hbd x hx
    · rw [List.mem_singleton] at hx
      subst hx
      have htl := hbd tl (List.mem_of_mem_getLast? hlast)
      exact ⟨le_trans htl.1 hle, hb⟩

theorem transSIRfold_queue (tmax0 : QI) (time rec_t : ℚ) :
    ∀ (delays : List (Nat × ℚ)) (Q : myQueue EDEvent) (pred : Nat → QI),
      (∀ p ∈ delays, 0 ≤ p.2) →
      (delays.foldl (transSIRstep tmax0 time rec_t) (Q, pred)).1.tmax
        = Q.tmax ∧
      (∀ e ∈ (delays.foldl (transSIRstep tmax0 time rec_t) (Q, pred)).1.Q,
        e ∈ Q.Q ∨ (time ≤ e.1 ∧ (e.1 : QI) < Q.tmax)) := by
  intro delays
  induction delays with
  | nil =>
    intro Q pred _
    exact ⟨rfl, fun e he => Or.inl he⟩
  | cons vd rest ih =>
    intro Q pred hpos
    rw [List.foldl_cons]
    unfold transSIRstep
    dsimp only
    by_cases hcond : time + vd.2 ≤ rec_t ∧
        ((time + vd.2 : ℚ) : QI) < pred vd.1 ∧
        ((time + vd.2 : ℚ) : QI) ≤ tmax0
    · rw [if_pos hcond]
      obtain ⟨htm, hmem⟩ := ih (Q.add (time + vd.2) (.trans vd.1))
        (Function.update pred vd.1 ((time + vd.2 : ℚ) : QI))
        (fun p hp => hpos p (List.mem_cons_of_mem vd hp))
      constructor
      · exact htm.trans (myQueue.add_tmax Q _ _)
      · intro e he
        rcases hmem e he with hin | hnew
        · rcases myQueue.mem_add_elim Q _ _ e hin with hold | ⟨he1, hlt⟩
          · exact Or.inl hold
          · right
            have hd : 0 ≤ vd.2 := hpos vd (List.mem_cons_self vd rest)
            subst he1
            refine ⟨?_, hlt⟩
            dsimp only
            linarith
        · right
          rw [myQueue.add_tmax Q _ _] at hnew
          exact hnew
    · rw [if_neg hcond]
      exact ih Q pred (fun p hp => hpos p (List.mem_cons_of_mem vd hp))

theorem process_trans_SIR_times (G : Graph)
    (tif : Nat → List Nat → List (Nat × ℚ) × ℚ) (time : ℚ) (node : Nat)
    (st st' : EDState)
    (hdel : ∀ nd nbrs, 0 ≤ (tif nd nbrs).2 ∧ ∀ p ∈ (tif nd nbrs).1, 0 ≤ p.2)
    (h : process_trans_SIR G tif time node st = .ok st') :
    (st'.times = st.times ∨ st'.times = st.times ++ [time]) ∧
    st'.Q.tmax = st.Q.tmax ∧
    (∀ e ∈ st'.Q.Q, e ∈ st.Q.Q ∨ (time ≤ e.1 ∧ (e.1 : QI) < st.Q.tmax)) := by
  unfold process_trans_SIR at h
  dsimp only at h
  by_cases hstS : st.status node = .S
  · rw [if_pos hstS] at h
    obtain ⟨S', hS, h⟩ := exceptBind_ok h
    obtain ⟨I', hI2, h⟩ := exceptBind_ok h
    obtain ⟨R', hR, h⟩ := exceptBind_ok h
    have hst' := (Except.ok.inj h).symm
    subst hst'
    refine ⟨Or.inr rfl, ?_, ?_⟩
    · dsimp only
      split
      · exact (transSIRfold_queue st.Q.tmax time _ _ _
          st.pred_inf_time (hdel node _).2).1.trans
          (myQueue.add_tmax st.Q _ _)
      · exact (transSIRfold_queue st.Q.tmax time _ _ _
          st.pred_inf_time (hdel node _).2).1
    · intro e he
      dsimp only at he
      split at he
      · rcases (transSIRfold_queue st.Q.tmax time _ _ _
            st.pred_inf_time (hdel node _).2).2 e he with hin | hnew
        · rcases myQueue.mem_add_elim st.Q _ _ e hin with hold | ⟨he1, hlt⟩
          · exact Or.inl hold
          · right
            have hd : 0 ≤ (tif node ((G.neighbors node).filter
                (fun v => Function.update st.status node .I v = .S))).2 :=
              (hdel node _).1
            subst he1
            refine ⟨?_, hlt⟩
            dsimp only
            rw [Function.update_same]
            linarith
        · right
          rw [myQueue.add_tmax] at hnew
          exact hnew
      · rcases (transSIRfold_queue st.Q.tmax time _ _ _
            st.pred_inf_time (hdel node _).2).2 e he with hin | hnew
        · exact Or.inl hin
        · exact Or.inr hnew
  · rw [if_neg hstS] at h
    have hst' := (Except.ok.inj h).symm
    subst hst'
    exact ⟨Or.inl rfl, rfl, fun e he => Or.inl he⟩

/-- Generic queue-fold principle: if every step preserves the horizon and
only adds entries satisfying `Pnew`, so does the whole fold. -/
theorem foldQ_entries {E α : Type} (f : myQueue E → α → myQueue E)
    (Pnew : (ℚ × Nat × E) → QI → Prop)
    (hf : ∀ Q v, (f Q v).tmax = Q.tmax ∧
      ∀ e ∈ (f Q v).Q, e ∈ Q.Q ∨ Pnew e Q.tmax) :
    ∀ (l : List α) (Q : myQueue E),
      (l.foldl f Q).tmax = Q.tmax ∧
      ∀ e ∈ (l.foldl f Q).Q, e ∈ Q.Q ∨ Pnew e Q.tmax := by
  intro l
  induction l with
  | nil =>
    intro Q
    exact ⟨rfl, fun e he => Or.inl he⟩
  | cons a t ih =>
    intro Q
    rw [List.foldl_cons]
    obtain ⟨htm, hmem⟩ := ih (f Q a)
    obtain ⟨htm1, hmem1⟩ := hf Q a
    refine ⟨htm.trans htm1, ?_⟩
    intro e he
    rcases hmem e he with hin | hnew
    · rcases hmem1 e hin with h2 | h2
      · exact Or.inl h2
      · exact Or.inr h2
    · rw [htm1] at hnew
      exact Or.inr hnew

theorem process_rec_SIR_times (G : Graph) (time : ℚ) (node : Nat)
    (st st' : EDState) (h : process_rec_SIR G time node st = .ok st') :
    st'.times = st.times ++ [time] ∧ st'.Q = st.Q := by
  unfold process_rec_SIR at h
  dsimp only at h
  obtain ⟨S', hS, h⟩ := exceptBind_ok h
  obtain ⟨I', hI2, h⟩ := exceptBind_ok h
  obtain ⟨R', hR, h⟩ := exceptBind_ok h
  have hst' := (Except.ok.inj h).symm
  subst hst'
  exact ⟨rfl, rfl⟩

theorem edStepSIR_times (G : Graph)
    (tif : Nat → List Nat → List (Nat × ℚ) × ℚ) (tmin : ℚ) (tmax : QI)
    (st st' : EDState)
    (hdel : ∀ nd nbrs, 0 ≤ (tif nd nbrs).2 ∧ ∀ p ∈ (tif nd nbrs).1, 0 ≤ p.2)
    (h : edStepSIR G tif st = .ok st')
    (hinv : edTimesInv tmin tmax st.times st.Q) :
    edTimesInv tmin tmax st'.times st'.Q := by
  obtain ⟨hOK, hqt, tl, hlast, hq⟩ := hinv
  unfold edStepSIR at h
  dsimp only at h
  obtain ⟨pq, hpop, h⟩ := exceptBind_ok h
  obtain ⟨⟨tq, cq, ev⟩, Q1⟩ := pq
  dsimp only at h
  obtain ⟨hmemQ, hsub, hmin, hq1t, -⟩ := myQueue.pop_spec st.Q _ _ hpop
  obtain ⟨htl_tq, htq_b⟩ := hq _ hmemQ
  have hq1 : ∀ e ∈ Q1.Q, tq ≤ e.1 ∧ (e.1 : QI) < tmax := by
    intro e he
    exact ⟨keyLt_min_time (hmin e (hsub e he)), (hq e (hsub e he)).2⟩
  have hq1tm : Q1.tmax = tmax := hq1t.trans hqt
  obtain ⟨hOK', hlast'⟩ := timesOK_append hOK hlast htl_tq (le_of_lt htq_b)
  cases ev with
  | trans v =>
    obtain ⟨htimes, hQt, hQmem⟩ :=
      process_trans_SIR_times G tif tq v { st with Q := Q1 } st' hdel h
    rcases htimes with He | He
    · refine ⟨by rw [He]; exact hOK, by rw [hQt]; exact hq1tm, tl,
        by rw [He]; exact hlast, ?_⟩
      intro e he
      rcases hQmem e he with hin | hnew
      · exact hq e (hsub e hin)
      · refine ⟨le_trans htl_tq hnew.1, ?_⟩
        have := hnew.2
        rw [show ({ st with Q := Q1 } : EDState).Q.tmax = tmax from hq1tm]
          at this
        exact this
    · refine ⟨by rw [He]; exact hOK', by rw [hQt]; exact hq1tm, tq,
        by rw [He]; exact hlast', ?_⟩
      intro e he
      rcases hQmem e he with hin | hnew
      · exact hq1 e hin
      · refine ⟨hnew.1, ?_⟩
        have := hnew.2
        rw [show ({ st with Q := Q1 } : EDState).Q.tmax = tmax from hq1tm]
          at this
        exact this
  | recover v =>
    obtain ⟨htimes, hQeq⟩ := process_rec_SIR_times G tq v { st with Q := Q1 }
      st' h
    refine ⟨by rw [htimes]; exact hOK', by rw [hQeq]; exact hq1tm, tq,
      by rw [htimes]; exact hlast', ?_⟩
    intro e he
    rw [hQeq] at he
    exact hq1 e he

theorem edRunSIR_times (G : Graph)
    (tif : Nat → List Nat → List (Nat × ℚ) × ℚ) (tmin : ℚ) (tmax : QI)
    (hdel : ∀ nd nbrs, 0 ≤ (tif nd nbrs).2 ∧ ∀ p ∈ (tif nd nbrs).1, 0 ≤ p.2) :
    ∀ (fuel : Nat) (st st' : EDState),
    edRunSIR G tif fuel st = .ok st' →
    edTimesInv tmin tmax st.times st.Q →
    edTimesInv tmin tmax st'.times st'.Q := by
  intro fuel
  induction fuel with
  | zero =>
    intro st st' h hinv
    have he : st = st' := Except.ok.inj h
    subst he
    exact hinv
  | succ fuel ih =>
    intro st st' h hinv
    unfold edRunSIR at h
    by_cases hemp : st.Q.Q.isEmpty = true
    · rw [if_pos hemp] at h
      have he : st = st' := Except.ok.inj h
      subst he
      exact hinv
    · rw [if_neg hemp] at h
      obtain ⟨st1, hstep, h⟩ := exceptBind_ok h
      exact ih st1 st' h (edStepSIR_times G tif tmin tmax st st1 hdel hstep hinv)

theorem fastNonMarkovSIR_times (G : Graph)
    (tif : Nat → List Nat → List (Nat × ℚ) × ℚ)
    (iinf irec : Option (List Nat)) (rho : Option ℚ) (sOr : List Nat)
    (tmin : ℚ) (tmax : QI) (fuel : Nat) (T : RunTable)
    (hdel : ∀ nd nbrs, 0 ≤ (tif nd nbrs).2 ∧ ∀ p ∈ (tif nd nbrs).1, 0 ≤ p.2)
    (htm : (tmin : QI) ≤ tmax)
    (h : fastNonMarkovSIR G tif iinf irec rho sOr tmin tmax fuel = .ok T) :
    ∃ times0, timesOK tmin tmax times0 ∧
      T.times = times0.drop (iinf.getD sOr).length := by
  unfold fastNonMarkovSIR at h
  dsimp only at h
  by_cases h1 : fast_nonMarkov_SIR_raises rho iinf = true
  · rw [if_pos h1] at h
    obtain ⟨u, hu, -⟩ := exceptBind_ok h
    cases hu
  · rw [if_neg h1] at h
    obtain ⟨u1, -, h⟩ := exceptBind_ok h
    by_cases h2 : (truthyRho rho && truthyNodes irec) = true
    · rw [if_pos h2] at h
      obtain ⟨u, hu, -⟩ := exceptBind_ok h
      cases hu
    · rw [if_neg h2] at h
      obtain ⟨u2, -, h⟩ := exceptBind_ok h
      revert h
      cases hqp : (iinf.getD sOr).foldl
          (fun (acc : myQueue EDEvent × (Nat → QI)) u =>
            (acc.1.add tmin (.trans u), Function.update acc.2 u (tmin : QI)))
          (myQueue.init EDEvent tmax, fun _ => (⊤ : QI)) with
      | mk Q0 pred1 =>
        intro h
        obtain ⟨stf, hrun, h⟩ := exceptBind_ok h
        have hT := (Except.ok.inj h).symm
        have hQ0 : Q0.tmax = tmax ∧
            ∀ e ∈ Q0.Q, tmin ≤ e.1 ∧ (e.1 : QI) < tmax := by
          have hgen := foldQ_entries
            (fun (Q : myQueue EDEvent) u => Q.add tmin (.trans u))
            (fun e tm => e.1 = tmin ∧ (e.1 : QI) < tm)
            (by
              intro Q v
              refine ⟨myQueue.add_tmax Q _ _, ?_⟩
              intro e he
              rcases myQueue.mem_add_elim Q _ _ e he with hold | ⟨he1, hlt⟩
              · exact Or.inl hold
              · subst he1
                exact Or.inr ⟨rfl, hlt⟩)
            (iinf.getD sOr) (myQueue.init EDEvent tmax)
          have hsame : ((iinf.getD sOr).foldl
              (fun (acc : myQueue EDEvent × (Nat → QI)) u =>
                (acc.1.add tmin (.trans u), Function.update acc.2 u (tmin : QI)))
              (myQueue.init EDEvent tmax, fun _ => (⊤ : QI))).1
              = (iinf.getD sOr).foldl
                (fun (Q : myQueue EDEvent) u => Q.add tmin (.trans u))
                (myQueue.init EDEvent tmax) := by
            generalize (myQueue.init EDEvent tmax) = q0
            generalize (fun _ => (⊤ : QI) : Nat → QI) = p0
            induction (iinf.getD sOr) generalizing q0 p0 with
            | nil => rfl
            | cons a t ih2 => rw [List.foldl_cons, List.foldl_cons]; exact ih2 _ _
          rw [hqp] at hsame
          dsimp only at hsame
          rw [hsame]
          refine ⟨hgen.1, ?_⟩
          intro e he
          rcases hgen.2 e he with hin | hnew
          · cases hin
          · obtain ⟨he1, hb⟩ := hnew
            rw [he1] at hb ⊢
            exact ⟨le_refl tmin, hb⟩
        have hinv0 : edTimesInv tmin tmax [tmin] Q0 := by
          refine ⟨⟨List.chain'_singleton tmin, rfl, ?_⟩, hQ0.1, tmin, rfl, ?_⟩
          · intro t ht
            rw [List.mem_singleton] at ht
            rw [ht]
            exact ⟨le_refl tmin, htm⟩
          · intro e he
            exact ⟨(hQ0.2 e he).1, (hQ0.2 e he).2⟩
        obtain ⟨hOKf, -, -, -, -⟩ := edRunSIR_times G tif tmin tmax hdel fuel
          _ stf hrun hinv0
        subst hT
        exact ⟨stf.times, hOKf, rfl⟩

theorem sisQ1_entries (Q : myQueue SISEvent) (rt : ℚ) (target : Nat)
    (time : ℚ) (hge : time ≤ rt) :
    (if (rt : QI) < Q.tmax then Q.add rt (.recover target) else Q).tmax
      = Q.tmax ∧
    ∀ e ∈ (if (rt : QI) < Q.tmax then Q.add rt (.recover target) else Q).Q,
      e ∈ Q.Q ∨ (time ≤ e.1 ∧ (e.1 : QI) < Q.tmax ∧
        (∀ g ∈ futureOf e.2.2, e.1 ≤ g) ∧
        (futureOf e.2.2).Pairwise (· ≤ ·)) := by
  split
  · refine ⟨myQueue.add_tmax Q _ _, ?_⟩
    intro e he
    rcases myQueue.mem_add_elim Q _ _ e he with hold | ⟨he1, hlt⟩
    · exact Or.inl hold
    · subst he1
      exact Or.inr ⟨hge, hlt, fun g hg => absurd hg (List.not_mem_nil g),
        List.Pairwise.nil⟩
  · exact ⟨rfl, fun e he => Or.inl he⟩

theorem sisTransFold_queue (time : ℚ) (trans_delays : Nat → List ℚ)
    (status' : Nat → Status) (rec_time' : Nat → ℚ)
    (hd : ∀ v, (∀ d ∈ trans_delays v, 0 ≤ d) ∧
      (trans_delays v).Pairwise (· ≤ ·)) :
    ∀ (l : List Nat) (Q : myQueue SISEvent),
      (l.foldl (sisTransStep time trans_delays status' rec_time') Q).tmax
        = Q.tmax ∧
      ∀ e ∈ (l.foldl (sisTransStep time trans_delays status' rec_time') Q).Q,
        e ∈ Q.Q ∨
          (time ≤ e.1 ∧ (e.1 : QI) < Q.tmax ∧
            (∀ g ∈ futureOf e.2.2, e.1 ≤ g) ∧
            (futureOf e.2.2).Pairwise (· ≤ ·)) := by
  refine foldQ_entries (sisTransStep time trans_delays status' rec_time')
    (fun e tm => time ≤ e.1 ∧ (e.1 : QI) < tm ∧
      (∀ g ∈ futureOf e.2.2, e.1 ≤ g) ∧
      (futureOf e.2.2).Pairwise (· ≤ ·)) ?_
  intro Q v
  unfold sisTransStep
  dsimp only
  by_cases hne : trans_delays v ≠ []
  · rw [if_pos hne]
    have hmap_ge : ∀ x ∈ (trans_delays v).map (fun td => time + td),
        time ≤ x := by
      intro x hx
      obtain ⟨d, hd0, hx⟩ := List.mem_map.mp hx
      have := (hd v).1 d hd0
      rw [← hx]
      linarith
    have hmap_pw : ((trans_delays v).map (fun td => time + td)).Pairwise
        (· ≤ ·) := by
      rw [List.pairwise_map]
      refine List.Pairwise.imp ?_ (hd v).2
      intro a b hab
      linarith
    have hcand : (∀ x ∈ (if status' v = .I
          then ((trans_delays v).map (fun td => time + td)).filter
            (fun t => decide (rec_time' v < t))
          else (trans_delays v).map (fun td => time + td)), time ≤ x) ∧
        (if status' v = .I
          then ((trans_delays v).map (fun td => time + td)).filter
            (fun t => decide (rec_time' v < t))
          else (trans_delays v).map (fun td => time + td)).Pairwise
          (· ≤ ·) := by
      split
      · exact ⟨fun x hx => hmap_ge x (List.mem_of_mem_filter hx),
          hmap_pw.filter _⟩
      · exact ⟨hmap_ge, hmap_pw⟩
    split
    · exact ⟨rfl, fun e he => Or.inl he⟩
    · rename_i t0 following hfil
      obtain ⟨hge, hpw⟩ := hcand
      rw [hfil] at hge hpw
      refine ⟨myQueue.add_tmax Q _ _, ?_⟩
      intro e he
      rcases myQueue.mem_add_elim Q _ _ e he with hold | ⟨he1, hlt⟩
      · exact Or.inl hold
      · subst he1
        exact Or.inr ⟨hge t0 (List.mem_cons_self t0 following), hlt,
          fun g hg => (List.pairwise_cons.mp hpw).1 g hg,
          (List.pairwise_cons.mp hpw).2⟩
  · rw [if_neg hne]
    exact ⟨rfl, fun e he => Or.inl he⟩

theorem process_rec_SIS_times (G : Graph) (time : ℚ) (node : Nat)
    (st st' : SISState) (h : process_rec_SIS G time node st = .ok st') :
    st'.times = st.times ++ [time] ∧ st'.Q = st.Q := by
  unfold process_rec_SIS at h
  dsimp only at h
  obtain ⟨S', hS, h⟩ := exceptBind_ok h
  obtain ⟨I', hI2, h⟩ := exceptBind_ok h
  have hst' := (Except.ok.inj h).symm
  subst hst'
  exact ⟨rfl, rfl⟩

theorem process_trans_SIS_times (G : Graph)
    (tif : Nat → List Nat → (Nat → List ℚ) × ℚ) (time : ℚ) (target : Nat)
    (future : List ℚ) (st st' : SISState)
    (hdel : ∀ nd nbrs, 0 ≤ (tif nd nbrs).2 ∧
      ∀ v, (∀ d ∈ (tif nd nbrs).1 v, 0 ≤ d) ∧
        ((tif nd nbrs).1 v).Pairwise (· ≤ ·))
    (hfut : (∀ g ∈ future, time ≤ g) ∧ future.Pairwise (· ≤ ·))
    (h : process_trans_SIS_nonMarkov G tif time target future st = .ok st') :
    (st'.times = st.times ∨ st'.times = st.times ++ [time]) ∧
    st'.Q.tmax = st.Q.tmax ∧
    ∀ e ∈ st'.Q.Q, e ∈ st.Q.Q ∨
      (time ≤ e.1 ∧ (e.1 : QI) < st.Q.tmax ∧
        (∀ g ∈ futureOf e.2.2, e.1 ≤ g) ∧
        (futureOf e.2.2).Pairwise (· ≤ ·)) := by
  unfold process_trans_SIS_nonMarkov at h
  dsimp only at h
  by_cases hstS : st.status target = .S
  · rw [if_pos hstS] at h
    obtain ⟨I', hI2, h⟩ := exceptBind_ok h
    obtain ⟨S', hS, h⟩ := exceptBind_ok h
    obtain ⟨st1, hpure1, h⟩ := exceptBind_ok h
    have hst1 := (Except.ok.inj hpure1).symm
    subst hst1
    have hge : time ≤ Function.update st.rec_time target
        (time + (tif target (G.neighbors target)).2) target := by
      rw [Function.update_same]
      have := (hdel target (G.neighbors target)).1
      linarith
    have hQ1 := sisQ1_entries st.Q _ target time hge
    have hfold := sisTransFold_queue time (tif target (G.neighbors target)).1
      (Function.update st.status target .I)
      (Function.update st.rec_time target
        (time + (tif target (G.neighbors target)).2))
      (hdel target (G.neighbors target)).2 (G.neighbors target)
      (if ((Function.update st.rec_time target
          (time + (tif target (G.neighbors target)).2) target : ℚ) : QI)
          < st.Q.tmax
        then st.Q.add (Function.update st.rec_time target
          (time + (tif target (G.neighbors target)).2) target)
          (.recover target)
        else st.Q)
    have hQ2mem : ∀ e ∈ ((G.neighbors target).foldl
        (sisTransStep time (tif target (G.neighbors target)).1
          (Function.update st.status target .I)
          (Function.update st.rec_time target
            (time + (tif target (G.neighbors target)).2)))
        (if ((Function.update st.rec_time target
            (time + (tif target (G.neighbors target)).2) target : ℚ) : QI)
            < st.Q.tmax
          then st.Q.add (Function.update st.rec_time target
            (time + (tif target (G.neighbors target)).2) target)
            (.recover target)
          else st.Q)).Q,
        e ∈ st.Q.Q ∨ (time ≤ e.1 ∧ (e.1 : QI) < st.Q.tmax ∧
          (∀ g ∈ futureOf e.2.2, e.1 ≤ g) ∧
          (futureOf e.2.2).Pairwise (· ≤ ·)) := by
      intro e he
      rcases hfold.2 e he with hin | hnew
      · exact hQ1.2 e hin
      · rw [hQ1.1] at hnew
        exact Or.inr hnew
    have hQ2tm := hfold.1.trans hQ1.1
    split at h
    · have he' := (Except.ok.inj h).symm
      subst he'
      exact ⟨Or.inr rfl, hQ2tm, hQ2mem⟩
    · rename_i t0 following hfil
      have he' := (Except.ok.inj h).symm
      subst he'
      refine ⟨Or.inr rfl, ?_, ?_⟩
      · dsimp only
        exact (myQueue.add_tmax _ _ _).trans hQ2tm
      · intro e he
        dsimp only at he
        rcases myQueue.mem_add_elim _ _ _ e he with hold | ⟨he1, hlt⟩
        · exact hQ2mem e hold
        · subst he1
          have hsubf : (t0 :: following).Sublist future := by
            rw [← hfil]
            exact List.filter_sublist future
          have hge0 : ∀ x ∈ t0 :: following, time ≤ x :=
            fun x hx => hfut.1 x (hsubf.subset hx)
          have hpw0 : (t0 :: following).Pairwise (· ≤ ·) :=
            hfut.2.sublist hsubf
          rw [hQ2tm] at hlt
          exact Or.inr ⟨hge0 t0 (List.mem_cons_self t0 following), hlt,
            fun g hg => (List.pairwise_cons.mp hpw0).1 g hg,
            (List.pairwise_cons.mp hpw0).2⟩
  · rw [if_neg hstS] at h
    rw [pure_bind] at h
    revert h
    cases hfil : List.filter (fun t => decide (st.rec_time target < t))
        future with
    | nil =>
      intro h
      have he' := (Except.ok.inj h).symm
      subst he'
      exact ⟨Or.inl rfl, rfl, fun e he => Or.inl he⟩
    | cons t0 following =>
      intro h
      have he' := (Except.ok.inj h).symm
      subst he'
      refine ⟨Or.inl rfl, ?_, ?_⟩
      · dsimp only
        exact myQueue.add_tmax _ _ _
      · intro e he
        dsimp only at he
        rcases myQueue.mem_add_elim _ _ _ e he with hold | ⟨he1, hlt⟩
        · exact Or.inl hold
        · subst he1
          have hsubf : (t0 :: following).Sublist future := by
            rw [← hfil]
            exact List.filter_sublist future
          have hge0 : ∀ x ∈ t0 :: following, time ≤ x :=
            fun x hx => hfut.1 x (hsubf.subset hx)
          have hpw0 : (t0 :: following).Pairwise (· ≤ ·) :=
            hfut.2.sublist hsubf
          exact Or.inr ⟨hge0 t0 (List.mem_cons_self t0 following), hlt,
            fun g hg => (List.pairwise_cons.mp hpw0).1 g hg,
            (List.pairwise_cons.mp hpw0).2⟩

theorem edStepSIS_times (G : Graph)
    (tif : Nat → List Nat → (Nat → List ℚ) × ℚ) (tmin : ℚ) (tmax : QI)
    (st st' : SISState)
    (hdel : ∀ nd nbrs, 0 ≤ (tif nd nbrs).2 ∧
      ∀ v, (∀ d ∈ (tif nd nbrs).1 v, 0 ≤ d) ∧
        ((tif nd nbrs).1 v).Pairwise (· ≤ ·))
    (h : edStepSIS G tif st = .ok st')
    (hinv : sisTimesInv tmin tmax st.times st.Q) :
    sisTimesInv tmin tmax st'.times st'.Q := by
  obtain ⟨hOK, hqt, tl, hlast, hq⟩ := hinv
  unfold edStepSIS at h
  dsimp only at h
  obtain ⟨pq, hpop, h⟩ := exceptBind_ok h
  obtain ⟨⟨tq, cq, ev⟩, Q1⟩ := pq
  dsimp only at h
  obtain ⟨hmemQ, hsub, hmin, hq1t, -⟩ := myQueue.pop_spec st.Q _ _ hpop
  obtain ⟨htl_tq, htq_b, hfutq, hpwq⟩ := hq _ hmemQ
  have hq1 : ∀ e ∈ Q1.Q, tq ≤ e.1 ∧ (e.1 : QI) < tmax ∧
      (∀ g ∈ futureOf e.2.2, e.1 ≤ g) ∧
      (futureOf e.2.2).Pairwise (· ≤ ·) := by
    intro e he
    obtain ⟨h1, h2, h3, h4⟩ := hq e (hsub e he)
    exact ⟨keyLt_min_time (hmin e (hsub e he)), h2, h3, h4⟩
  have hq1tm : Q1.tmax = tmax := hq1t.trans hqt
  obtain ⟨hOK', hlast'⟩ := timesOK_append hOK hlast htl_tq (le_of_lt htq_b)
  cases ev with
  | trans v future =>
    obtain ⟨htimes, hQt, hQmem⟩ :=
      process_trans_SIS_times G tif tq v future { st with Q := Q1 } st' hdel
        ⟨hfutq, hpwq⟩ h
    rcases htimes with He | He
    · refine ⟨by rw [He]; exact hOK, by rw [hQt]; exact hq1tm, tl,
        by rw [He]; exact hlast, ?_⟩
      intro e he
      rcases hQmem e he with hin | hnew
      · exact hq e (hsub e hin)
      · obtain ⟨h1, h2, h3, h4⟩ := hnew
        rw [show ({ st with Q := Q1 } : SISState).Q.tmax = tmax from hq1tm]
          at h2
        exact ⟨le_trans htl_tq h1, h2, h3, h4⟩
    · refine ⟨by rw [He]; exact hOK', by rw [hQt]; exact hq1tm, tq,
        by rw [He]; exact hlast', ?_⟩
      intro e he
      rcases hQmem e he with hin | hnew
      · exact hq1 e hin
      · obtain ⟨h1, h2, h3, h4⟩ := hnew
        rw [show ({ st with Q := Q1 } : SISState).Q.tmax = tmax from hq1tm]
          at h2
        exact ⟨h1, h2, h3, h4⟩
  | recover v =>
    obtain ⟨htimes, hQeq⟩ := process_rec_SIS_times G tq v { st with Q := Q1 }
      st' h
    refine ⟨by rw [htimes]; exact hOK', by rw [hQeq]; exact hq1tm, tq,
      by rw [htimes]; exact hlast', ?_⟩
    intro e he
    rw [hQeq] at he
    exact hq1 e he

theorem edRunSIS_times (G : Graph)
    (tif : Nat → List Nat → (Nat → List ℚ) × ℚ) (tmin : ℚ) (tmax : QI)
    (hdel : ∀ nd nbrs, 0 ≤ (tif nd nbrs).2 ∧
      ∀ v, (∀ d ∈ (tif nd nbrs).1 v, 0 ≤ d) ∧
        ((tif nd nbrs).1 v).Pairwise (· ≤ ·)) :
    ∀ (fuel : Nat) (st st' : SISState),
    edRunSIS G tif fuel st = .ok st' →
    sisTimesInv tmin tmax st.times st.Q →
    sisTimesInv tmin tmax st'.times st'.Q := by
  intro fuel
  induction fuel with
  | zero =>
    intro st st' h hinv
    have he : st = st' := Except.ok.inj h
    subst he
    exact hinv
  | succ fuel ih =>
    intro st st' h hinv
    unfold edRunSIS at h
    by_cases hemp : st.Q.Q.isEmpty = true
    · rw [if_pos hemp] at h
      have he : st = st' := Except.ok.inj h
      subst he
      exact hinv
    · rw [if_neg hemp] at h
      obtain ⟨st1, hstep, h⟩ := exceptBind_ok h
      exact ih st1 st' h
        (edStepSIS_times G tif tmin tmax st st1 hdel hstep hinv)

theorem fastNonMarkovSIS_times (G : Graph)
    (tif : Nat → List Nat → (Nat → List ℚ) × ℚ)
    (iinf : Option (List Nat)) (rho : Option ℚ) (sOr : List Nat)
    (tmin : ℚ) (tmax : QI) (fuel : Nat) (T : SISTable)
    (hdel : ∀ nd nbrs, 0 ≤ (tif nd nbrs).2 ∧
      ∀ v, (∀ d ∈ (tif nd nbrs).1 v, 0 ≤ d) ∧
        ((tif nd nbrs).1 v).Pairwise (· ≤ ·))
    (htm : (tmin : QI) ≤ tmax)
    (h : fastNonMarkovSIS G tif iinf rho sOr tmin tmax fuel = .ok T) :
    ∃ times0, timesOK tmin tmax times0 ∧
      T.times = times0.drop (iinf.getD sOr).length := by
  unfold fastNonMarkovSIS at h
  dsimp only at h
  by_cases h1 : fast_nonMarkov_SIS_raises rho iinf = true
  · rw [if_pos h1] at h
    obtain ⟨u, hu, -⟩ := exceptBind_ok h
    cases hu
  · rw [if_neg h1] at h
    obtain ⟨u1, -, h⟩ := exceptBind_ok h
    obtain ⟨stf, hrun, h⟩ := exceptBind_ok h
    have hT := (Except.ok.inj h).symm
    have hQ0 := foldQ_entries
      (fun (Q : myQueue SISEvent) u => Q.add tmin (.trans u []))
      (fun e tm => e.1 = tmin ∧ (e.1 : QI) < tm ∧ futureOf e.2.2 = [])
      (by
        intro Q v
        refine ⟨myQueue.add_tmax Q _ _, ?_⟩
        intro e he
        rcases myQueue.mem_add_elim Q _ _ e he with hold | ⟨he1, hlt⟩
        · exact Or.inl hold
        · subst he1
          exact Or.inr ⟨rfl, hlt, rfl⟩)
      (iinf.getD sOr) (myQueue.init SISEvent tmax)
    have hinv0 : sisTimesInv tmin tmax [tmin]
        ((iinf.getD sOr).foldl
          (fun (Q : myQueue SISEvent) u => Q.add tmin (.trans u []))
          (myQueue.init SISEvent tmax)) := by
      refine ⟨⟨List.chain'_singleton tmin, rfl, ?_⟩, hQ0.1, tmin, rfl, ?_⟩
      · intro t ht
        rw [List.mem_singleton] at ht
        rw [ht]
        exact ⟨le_refl tmin, htm⟩
      · intro e he
        rcases hQ0.2 e he with hin | hnew
        · cases hin
        · obtain ⟨he1, hb, hfe⟩ := hnew
          rw [he1] at hb ⊢
          refine ⟨le_refl tmin, hb, ?_, ?_⟩
          · rw [hfe]
            intro g hg
            exact absurd hg (List.not_mem_nil g)
          · rw [hfe]
            exact List.Pairwise.nil
    obtain ⟨hOKf, -, -, -, -⟩ := edRunSIS_times G tif tmin tmax hdel fuel
      _ stf hrun hinv0
    subst hT
    exact ⟨stf.times, hOKf, rfl⟩

theorem GillespieSIRloop_times (G : Graph) (hs : G.Symm) (tau gamma : ℚ)
    (tmin : ℚ) (tmax : QI) :
    ∀ (oracle : List GOracle) (st : GState) (trr tr : ℚ) (next : QI)
      (res : GState × List GOracle),
      (∀ o ∈ oracle, 0 ≤ o.dt) →
      GillespieSIRloop G tau gamma tmax oracle st trr tr next = .ok res →
      GReachSIR G st →
      timesOK tmin tmax st.times →
      (∃ tl, st.times.getLast? = some tl ∧ (tl : QI) ≤ next) →
      timesOK tmin tmax res.1.times := by
  intro oracle
  induction oracle with
  | nil =>
    intro st trr tr next res hO h hr hOK hnx
    have he : (st, ([] : List GOracle)) = res := Except.ok.inj h
    rw [← he]
    exact hOK
  | cons o rest ih =>
    intro st trr tr next res hO h hr hOK hnx
    rw [GillespieSIRloop.eq_def] at h
    dsimp only at h
    by_cases hguard : next < tmax ∧ st.infected ≠ []
    · rw [if_pos hguard] at h
      cases hnext : next with
      | none =>
        rw [hnext] at h
        obtain ⟨nt, hnt, -⟩ := exceptBind_ok h
        cases hnt
      | some ntv =>
        rw [hnext] at h
        obtain ⟨nt, hnt, h⟩ := exceptBind_ok h
        have hntv : ntv = nt := Except.ok.inj hnt
        subst hntv
        obtain ⟨tl, hlast, htlnx⟩ := hnx
        rw [hnext] at htlnx
        have htl_nt : tl ≤ ntv := WithTop.coe_le_coe.mp htlnx
        have hnt_tmax : ((ntv : ℚ) : QI) ≤ tmax := by
          rw [hnext] at hguard
          exact le_of_lt hguard.1
        obtain ⟨hOK2, hlast2⟩ := timesOK_append hOK hlast htl_nt hnt_tmax
        have hdt : 0 ≤ o.dt := hO o (List.mem_cons_self o rest)
        have hOr : ∀ o' ∈ rest, 0 ≤ o'.dt :=
          fun o' ho' => hO o' (List.mem_cons_of_mem o ho')
        by_cases hbr : o.u1 * tr < trr
        · rw [if_pos hbr] at h
          obtain ⟨st2, hrec, h⟩ := exceptBind_ok h
          obtain ⟨iL2, hiL2, h⟩ := exceptBind_ok h
          obtain ⟨-, recovering, -, -, -, -, -, htm2, -, -, -, -, -⟩ :=
            Gillespie_recover_SIR_inv G hs o.idx ntv st st2
              (greachSIR_inv G hs st hr) hrec
          refine ih st2 _ _ _ res hOr h
            (GReachSIR.recover st st2 o.idx ntv hr hrec)
            (by rw [htm2]; exact hOK2) ?_
          refine ⟨ntv, by rw [htm2]; exact hlast2, ?_⟩
          split
          · exact WithTop.coe_le_coe.mpr (by linarith)
          · exact le_refl _
        · rw [if_neg hbr] at h
          obtain ⟨st2, hinf, h⟩ := exceptBind_ok h
          obtain ⟨-, recipient, -, -, -, -, htm2, -, -, -, -, -, -⟩ :=
            Gillespie_infect_inv G hs o.u2 o.pick ntv true st st2
              (greachSIR_inv G hs st hr) hinf
          refine ih st2 _ _ _ res hOr h
            (GReachSIR.infect st st2 o.u2 o.pick ntv hr hinf)
            (by rw [htm2]; exact hOK2) ?_
          refine ⟨ntv, by rw [htm2]; exact hlast2, ?_⟩
          split
          · exact WithTop.coe_le_coe.mpr (by linarith)
          · exact le_refl _
    · rw [if_neg hguard] at h
      have he : (st, o :: rest) = res := Except.ok.inj h
      rw [← he]
      exact hOK

theorem GillespieSISloop_times (G : Graph) (hs : G.Symm) (tau gamma : ℚ)
    (tmin : ℚ) (tmax : QI) :
    ∀ (oracle : List GOracle) (st : GState) (trr tr : ℚ) (next : QI)
      (res : GState × List GOracle),
      (∀ o ∈ oracle, 0 ≤ o.dt) →
      GillespieSISloop G tau gamma tmax oracle st trr tr next = .ok res →
      GReachSIS G st →
      timesOK tmin tmax st.times →
      (∃ tl, st.times.getLast? = some tl ∧ (tl : QI) ≤ next) →
      timesOK tmin tmax res.1.times := by
  intro oracle
  induction oracle with
  | nil =>
    intro st trr tr next res hO h hr hOK hnx
    have he : (st, ([] : List GOracle)) = res := Except.ok.inj h
    rw [← he]
    exact hOK
  | cons o rest ih =>
    intro st trr tr next res hO h hr hOK hnx
    rw [GillespieSISloop.eq_def] at h
    dsimp only at h
    by_cases hguard : next < tmax ∧ st.infected ≠ []
    · rw [if_pos hguard] at h
      cases hnext : next with
      | none =>
        rw [hnext] at h
        obtain ⟨nt, hnt, -⟩ := exceptBind_ok h
        cases hnt
      | some ntv =>
        rw [hnext] at h
        obtain ⟨nt, hnt, h⟩ := exceptBind_ok h
        have hntv : ntv = nt := Except.ok.inj hnt
        subst hntv
        obtain ⟨tl, hlast, htlnx⟩ := hnx
        rw [hnext] at htlnx
        have htl_nt : tl ≤ ntv := WithTop.coe_le_coe.mp htlnx
        have hnt_tmax : ((ntv : ℚ) : QI) ≤ tmax := by
          rw [hnext] at hguard
          exact le_of_lt hguard.1
        obtain ⟨hOK2, hlast2⟩ := timesOK_append hOK hlast htl_nt hnt_tmax
        have hdt : 0 ≤ o.dt := hO o (List.mem_cons_self o rest)
        have hOr : ∀ o' ∈ rest, 0 ≤ o'.dt :=
          fun o' ho' => hO o' (List.mem_cons_of_mem o ho')
        by_cases hbr : o.u1 * tr < trr
        · rw [if_pos hbr] at h
          obtain ⟨st2, hrec, h⟩ := exceptBind_ok h
          obtain ⟨iL2, hiL2, h⟩ := exceptBind_ok h
          have hreach := greachSIS_inv G hs st hr
          obtain ⟨-, -, recovering, -, -, -, -, -, htm2, -, -, -, -, -⟩ :=
            Gillespie_recover_SIS_inv G hs o.idx ntv st st2
              hreach.1 hreach.2 hrec
          refine ih st2 _ _ _ res hOr h
            (GReachSIS.recover st st2 o.idx ntv hr hrec)
            (by rw [htm2]; exact hOK2) ?_
          refine ⟨ntv, by rw [htm2]; exact hlast2, ?_⟩
          split
          · exact WithTop.coe_le_coe.mpr (by linarith)
          · exact le_top
        · rw [if_neg hbr] at h
          obtain ⟨st2, hinf, h⟩ := exceptBind_ok h
          obtain ⟨-, recipient, -, -, -, -, htm2, -, -, -, -, -, -⟩ :=
            Gillespie_infect_inv G hs o.u2 o.pick ntv false st st2
              (greachSIS_inv G hs st hr).1 hinf
          refine ih st2 _ _ _ res hOr h
            (GReachSIS.infect st st2 o.u2 o.pick ntv hr hinf)
            (by rw [htm2]; exact hOK2) ?_
          refine ⟨ntv, by rw [htm2]; exact hlast2, ?_⟩
          split
          · exact WithTop.coe_le_coe.mpr (by linarith)
          · exact le_top
    · rw [if_neg hguard] at h
      have he : (st, o :: rest) = res := Except.ok.inj h
      rw [← he]
      exact hOK

theorem GillespieSIRrun_times (G : Graph) (hs : G.Symm) (tau gamma : ℚ)
    (iinf irec : Option (List Nat)) (rho : Option ℚ) (sOr : List Nat)
    (tmin : ℚ) (tmax : QI) (dt0 : ℚ) (oracle : List GOracle)
    (st : GState) (rest : List GOracle)
    (hnd : (iinf.getD sOr).Nodup) (hlt : ∀ v ∈ iinf.getD sOr, v < G.n)
    (hdisj : ∀ v ∈ irec.getD [], v ∉ iinf.getD sOr)
    (hdt0 : 0 ≤ dt0) (hO : ∀ o ∈ oracle, 0 ≤ o.dt)
    (htm : (tmin : QI) ≤ tmax)
    (h : GillespieSIRrun G tau gamma iinf irec rho sOr tmin tmax dt0 oracle
      = .ok (st, rest)) :
    timesOK tmin tmax st.times := by
  unfold GillespieSIRrun at h
  dsimp only at h
  by_cases hra : Gillespie_SIR_raises rho iinf = true
  · rw [if_pos hra] at h
    obtain ⟨u, hu, -⟩ := exceptBind_ok h
    cases hu
  · rw [if_neg hra] at h
    obtain ⟨u, -, h⟩ := exceptBind_ok h
    obtain ⟨st0, hinit, h⟩ := exceptBind_ok h
    obtain ⟨d0, hd0, h⟩ := exceptBind_ok h
    have hreach : GReachSIR G st0 :=
      GReachSIR.init _ _ tmin st0 hnd hlt hdisj hinit
    obtain ⟨incrisk, hfold, hst0⟩ :=
      Gillespie_initialize_SIR_ok G _ _ tmin st0 hinit
    have hd0v : d0 = dt0 := by
      unfold expovariate at hd0
      split at hd0
      · cases hd0
      · exact (Except.ok.inj hd0).symm
    subst hst0
    exact GillespieSIRloop_times G hs tau gamma tmin tmax oracle _ _ _ _
      (st, rest) hO h hreach
      ⟨List.chain'_singleton tmin, rfl, by
        intro t ht
        rw [List.mem_singleton] at ht
        rw [ht]
        exact ⟨le_refl tmin, htm⟩⟩
      ⟨tmin, rfl, WithTop.coe_le_coe.mpr (by rw [hd0v]; linarith)⟩

theorem GillespieSISrun_times (G : Graph) (hs : G.Symm) (tau gamma : ℚ)
    (iinf : Option (List Nat)) (rho : Option ℚ) (sOr : List Nat)
    (tmin : ℚ) (tmax : QI) (dt0 : ℚ) (oracle : List GOracle)
    (st : GState) (rest : List GOracle)
    (hnd : (iinf.getD sOr).Nodup) (hlt : ∀ v ∈ iinf.getD sOr, v < G.n)
    (hdt0 : 0 ≤ dt0) (hO : ∀ o ∈ oracle, 0 ≤ o.dt)
    (htm : (tmin : QI) ≤ tmax)
    (h : GillespieSISrun G tau gamma iinf rho sOr tmin tmax dt0 oracle
      = .ok (st, rest)) :
    timesOK tmin tmax st.times := by
  unfold GillespieSISrun at h
  dsimp only at h
  by_cases hra : Gillespie_SIS_raises rho iinf = true
  · rw [if_pos hra] at h
    obtain ⟨u, hu, -⟩ := exceptBind_ok h
    cases hu
  · rw [if_neg hra] at h
    obtain ⟨u, -, h⟩ := exceptBind_ok h
    obtain ⟨st0, hinit, h⟩ := exceptBind_ok h
    obtain ⟨d0, hd0, h⟩ := exceptBind_ok h
    have hreach : GReachSIS G st0 :=
      GReachSIS.init _ tmin st0 hnd hlt hinit
    obtain ⟨incrisk, hfold, hst0⟩ :=
      Gillespie_initialize_SIS_ok G _ tmin st0 hinit
    have hd0v : d0 = dt0 := by
      unfold expovariate at hd0
      split at hd0
      · cases hd0
      · exact (Except.ok.inj hd0).symm
    subst hst0
    exact GillespieSISloop_times G hs tau gamma tmin tmax oracle _ _ _ _
      (st, rest) hO h hreach
      ⟨List.chain'_singleton tmin, rfl, by
        intro t ht
        rw [List.mem_singleton] at ht
        rw [ht]
        exact ⟨le_refl tmin, htm⟩⟩
      ⟨tmin, rfl, WithTop.coe_le_coe.mpr (by rw [hd0v]; linarith)⟩

theorem myQueue.extractMin_perm {E} :
    ∀ (l : List (ℚ × Nat × E)) (m : ℚ × Nat × E) (rest : List (ℚ × Nat × E)),
      extractMin l = some (m, rest) → (m :: rest).Perm l := by
  intro l
  induction l with
  | nil => intro m rest h; exact absurd h (by simp [extractMin])
  | cons x xs ih =>
    intro m rest h
    simp only [extractMin] at h
    split at h
    · next heq =>
      simp only [Option.some.injEq, Prod.mk.injEq] at h
      obtain ⟨rfl, rfl⟩ := h
      have hnil : xs = [] := extractMin_eq_none.mp heq
      subst hnil
      exact List.Perm.refl _
    · next m' rest' heq =>
      have hperm' := ih m' rest' heq
      by_cases hlt : keyLt m' x
      · rw [if_pos hlt] at h
        simp only [Option.some.injEq, Prod.mk.injEq] at h
        obtain ⟨rfl, rfl⟩ := h
        exact List.Perm.trans (List.Perm.swap x m' rest')
          (List.Perm.cons x hperm')
      · rw [if_neg hlt] at h
        simp only [Option.some.injEq, Prod.mk.injEq] at h
        obtain ⟨rfl, rfl⟩ := h
        exact List.Perm.refl _

theorem myQueue.pop_perm {E} (q : myQueue E) (m : ℚ × Nat × E)
    (q' : myQueue E) (h : q.pop = .ok (m, q')) : (m :: q'.Q).Perm q.Q := by
  unfold myQueue.pop at h
  split at h
  · exact absurd h (by simp)
  · next m' rest hx =>
    simp only [Except.ok.injEq, Prod.mk.injEq] at h
    obtain ⟨rfl, rfl⟩ := h
    exact extractMin_perm q.Q m' rest hx

/-- `add` only ever appends entries, each carrying the current counter, and
never decreases the counter. -/
theorem myQueue.add_append {E} (q : myQueue E) (time : ℚ) (ev : E) :
    ∃ app, (q.add time ev).Q = q.Q ++ app ∧
      (q.add time ev).tmax = q.tmax ∧
      q.counter ≤ (q.add time ev).counter ∧
      ∀ x ∈ app, x.1 = time ∧ x.2.1 = q.counter := by
  unfold myQueue.add
  split
  · refine ⟨[(time, q.counter, ev)], rfl, rfl, Nat.le_succ _, ?_⟩
    intro x hx
    rw [List.mem_singleton] at hx
    subst hx
    exact ⟨rfl, rfl⟩
  · exact ⟨[], (List.append_nil _).symm, rfl, le_refl _,
      fun x hx => absurd hx (List.not_mem_nil x)⟩

theorem seedEntriesSIR_mem (tmin : ℚ) :
    ∀ (l : List Nat) (c0 : Nat), ∀ x ∈ seedEntriesSIR tmin c0 l,
      x.1 = tmin ∧ c0 ≤ x.2.1 := by
  intro l
  induction l with
  | nil => intro c0 x hx; exact absurd hx (List.not_mem_nil x)
  | cons u rest ih =>
    intro c0 x hx
    simp only [seedEntriesSIR] at hx
    rcases List.mem_cons.mp hx with rfl | hx
    · exact ⟨rfl, le_refl _⟩
    · obtain ⟨h1, h2⟩ := ih (c0 + 1) x hx
      exact ⟨h1, by omega⟩

theorem seedEntriesSIS_mem (tmin : ℚ) :
    ∀ (l : List Nat) (c0 : Nat), ∀ x ∈ seedEntriesSIS tmin c0 l,
      x.1 = tmin ∧ c0 ≤ x.2.1 ∧ futureOf x.2.2 = [] := by
  intro l
  induction l with
  | nil => intro c0 x hx; exact absurd hx (List.not_mem_nil x)
  | cons u rest ih =>
    intro c0 x hx
    simp only [seedEntriesSIS] at hx
    rcases List.mem_cons.mp hx with rfl | hx
    · exact ⟨rfl, le_refl _, rfl⟩
    · obtain ⟨h1, h2, h3⟩ := ih (c0 + 1) x hx
      exact ⟨h1, by omega, h3⟩

/-- The first component of the seed fold of `fast_nonMarkov_SIR` ignores
the carried `pred_inf_time` map. -/
theorem pairFoldSIR_fst (tmin : ℚ) (l : List Nat) :
    ∀ (q0 : myQueue EDEvent) (p0 : Nat → QI),
      (l.foldl (fun (acc : myQueue EDEvent × (Nat → QI)) u =>
          (acc.1.add tmin (.trans u), Function.update acc.2 u (tmin : QI)))
        (q0, p0)).1
        = l.foldl (fun (Q : myQueue EDEvent) u => Q.add tmin (.trans u)) q0 := by
  induction l with
  | nil => intro q0 p0; rfl
  | cons a t ih =>
    intro q0 p0
    rw [List.foldl_cons, List.foldl_cons]
    exact ih _ _

/-- Enqueuing the seeds below the horizon produces exactly the seed
entries, with consecutive counters. -/
theorem seedFoldSIR_Q (tmin : ℚ) :
    ∀ (seeds : List Nat) (Q : myQueue EDEvent),
      (tmin : QI) < Q.tmax →
      (seeds.foldl (fun (Q : myQueue EDEvent) u => Q.add tmin (.trans u)) Q).Q
          = Q.Q ++ seedEntriesSIR tmin Q.counter seeds ∧
        (seeds.foldl (fun (Q : myQueue EDEvent) u =>
          Q.add tmin (.trans u)) Q).counter = Q.counter + seeds.length ∧
        (seeds.foldl (fun (Q : myQueue EDEvent) u =>
          Q.add tmin (.trans u)) Q).tmax = Q.tmax := by
  intro seeds
  induction seeds with
  | nil =>
    intro Q hq
    exact ⟨(List.append_nil _).symm, rfl, rfl⟩
  | cons u rest ih =>
    intro Q hq
    rw [List.foldl_cons]
    obtain ⟨hQ, hc, ht⟩ := (myQueue.add_spec Q tmin (.trans u)).1 hq
    have hq' : (tmin : QI) < (Q.add tmin (.trans u)).tmax := by
      rw [ht]; exact hq
    obtain ⟨h1, h2, h3⟩ := ih (Q.add tmin (.trans u)) hq'
    refine ⟨?_, ?_, h3.trans ht⟩
    · rw [h1, hQ, hc, List.append_assoc]
      simp only [seedEntriesSIR]
      rfl
    · rw [h2, hc, List.length_cons]
      omega

theorem seedFoldSIS_Q (tmin : ℚ) :
    ∀ (seeds : List Nat) (Q : myQueue SISEvent),
      (tmin : QI) < Q.tmax →
      (seeds.foldl (fun (Q : myQueue SISEvent) u =>
          Q.add tmin (.trans u [])) Q).Q
          = Q.Q ++ seedEntriesSIS tmin Q.counter seeds ∧
        (seeds.foldl (fun (Q : myQueue SISEvent) u =>
          Q.add tmin (.trans u [])) Q).counter = Q.counter + seeds.length ∧
        (seeds.foldl (fun (Q : myQueue SISEvent) u =>
          Q.add tmin (.trans u [])) Q).tmax = Q.tmax := by
  intro seeds
  induction seeds with
  | nil =>
    intro Q hq
    exact ⟨(List.append_nil _).symm, rfl, rfl⟩
  | cons u rest ih =>
    intro Q hq
    rw [List.foldl_cons]
    obtain ⟨hQ, hc, ht⟩ := (myQueue.add_spec Q tmin (.trans u [])).1 hq
    have hq' : (tmin : QI) < (Q.add tmin (.trans u [])).tmax := by
      rw [ht]; exact hq
    obtain ⟨h1, h2, h3⟩ := ih (Q.add tmin (.trans u [])) hq'
    refine ⟨?_, ?_, h3.trans ht⟩
    · rw [h1, hQ, hc, List.append_assoc]
      simp only [seedEntriesSIS]
      rfl
    · rw [h2, hc, List.length_cons]
      omega

/-- The neighbor-scheduling fold of `_process_trans_SIR_` only appends
entries, each at or after the infection time and with a counter at least
the starting counter. -/
theorem transSIRfold_append (tmax0 : QI) (time rec_t : ℚ) :
    ∀ (delays : List (Nat × ℚ)) (Q : myQueue EDEvent) (pred : Nat → QI),
      (∀ p ∈ delays, 0 ≤ p.2) →
      ∃ added,
        (delays.foldl (transSIRstep tmax0 time rec_t) (Q, pred)).1.Q
            = Q.Q ++ added ∧
        (delays.foldl (transSIRstep tmax0 time rec_t) (Q, pred)).1.tmax
            = Q.tmax ∧
        Q.counter ≤
          (delays.foldl (transSIRstep tmax0 time rec_t) (Q, pred)).1.counter ∧
        ∀ x ∈ added, time ≤ x.1 ∧ Q.counter ≤ x.2.1 := by
  intro delays
  induction delays with
  | nil =>
    intro Q pred _
    exact ⟨[], (List.append_nil _).symm, rfl, le_refl _,
      fun x hx => absurd hx (List.not_mem_nil x)⟩
  | cons vd rest ih =>
    intro Q pred hpos
    rw [List.foldl_cons]
    unfold transSIRstep
    dsimp only
    split
    · obtain ⟨added, h1, h2, h3, h4⟩ := ih (Q.add (time + vd.2) (.trans vd.1))
        (Function.update pred vd.1 ((time + vd.2 : ℚ) : QI))
        (fun p hp => hpos p (List.mem_cons_of_mem vd hp))
      obtain ⟨app, ha1, ha2, ha3, ha4⟩ :=
        myQueue.add_append Q (time + vd.2) (.trans vd.1)
      refine ⟨app ++ added, ?_, h2.trans ha2, le_trans ha3 h3, ?_⟩
      · rw [← List.append_assoc, ← ha1]
        exact h1
      · intro x hx
        rcases List.mem_append.mp hx with hx | hx
        · obtain ⟨hx1, hx2⟩ := ha4 x hx
          have hd : 0 ≤ vd.2 := hpos vd (List.mem_cons_self vd rest)
          exact ⟨by rw [hx1]; linarith, le_of_eq hx2.symm⟩
        · obtain ⟨hx1, hx2⟩ := h4 x hx
          exact ⟨hx1, le_trans ha3 hx2⟩
    · exact ih Q pred (fun p hp => hpos p (List.mem_cons_of_mem vd hp))

/-- The neighbor-scheduling fold of `_process_trans_SIS_nonMarkov_` only
appends entries, each at or after the infection time and with a counter at
least the starting counter. -/
theorem sisTransFold_append (time : ℚ) (trans_delays : Nat → List ℚ)
    (status' : Nat → Status) (rec_time' : Nat → ℚ)
    (hd : ∀ v, ∀ d ∈ trans_delays v, 0 ≤ d) :
    ∀ (l : List Nat) (Q : myQueue SISEvent),
      ∃ added,
        (l.foldl (sisTransStep time trans_delays status' rec_time') Q).Q
            = Q.Q ++ added ∧
        (l.foldl (sisTransStep time trans_delays status' rec_time') Q).tmax
            = Q.tmax ∧
        Q.counter ≤
          (l.foldl (sisTransStep time trans_delays status' rec_time')
            Q).counter ∧
        ∀ x ∈ added, time ≤ x.1 ∧ Q.counter ≤ x.2.1 := by
  intro l
  induction l with
  | nil =>
    intro Q
    exact ⟨[], (List.append_nil _).symm, rfl, le_refl _,
      fun x hx => absurd hx (List.not_mem_nil x)⟩
  | cons v rest ih =>
    intro Q
    rw [List.foldl_cons]
    have hstep : ∃ app,
        (sisTransStep time trans_delays status' rec_time' Q v).Q
            = Q.Q ++ app ∧
        (sisTransStep time trans_delays status' rec_time' Q v).tmax
            = Q.tmax ∧
        Q.counter ≤
          (sisTransStep time trans_delays status' rec_time' Q v).counter ∧
        ∀ x ∈ app, time ≤ x.1 ∧ Q.counter ≤ x.2.1 := by
      unfold sisTransStep
      dsimp only
      by_cases hne : trans_delays v ≠ []
      · rw [if_pos hne]
        have hcand_ge : ∀ x ∈ (if status' v = .I
              then ((trans_delays v).map (fun td => time + td)).filter
                (fun t => decide (rec_time' v < t))
              else (trans_delays v).map (fun td => time + td)), time ≤ x := by
          have hmap_ge : ∀ x ∈ (trans_delays v).map (fun td => time + td),
              time ≤ x := by
            intro x hx
            obtain ⟨d, hd0, hx⟩ := List.mem_map.mp hx
            have := hd v d hd0
            rw [← hx]
            linarith
          split
          · exact fun x hx => hmap_ge x (List.mem_of_mem_filter hx)
          · exact hmap_ge
        split
        · exact ⟨[], (List.append_nil _).symm, rfl, le_refl _,
            fun x hx => absurd hx (List.not_mem_nil x)⟩
        · rename_i t0 following hfil
          rw [hfil] at hcand_ge
          obtain ⟨app, ha1, ha2, ha3, ha4⟩ :=
            myQueue.add_append Q t0 (.trans v following)
          refine ⟨app, ha1, ha2, ha3, ?_⟩
          intro x hx
          obtain ⟨hx1, hx2⟩ := ha4 x hx
          refine ⟨?_, le_of_eq hx2.symm⟩
          rw [hx1]
          exact hcand_ge t0 (List.mem_cons_self t0 following)
      · rw [if_neg hne]
        exact ⟨[], (List.append_nil _).symm, rfl, le_refl _,
          fun x hx => absurd hx (List.not_mem_nil x)⟩
    obtain ⟨app, h1, h2, h3, h4⟩ := hstep
    obtain ⟨added, g1, g2, g3, g4⟩ :=
      ih (sisTransStep time trans_delays status' rec_time' Q v)
    refine ⟨app ++ added, ?_, g2.trans h2, le_trans h3 g3, ?_⟩
    · rw [g1, h1, List.append_assoc]
    · intro x hx
      rcases List.mem_append.mp hx with hx | hx
      · exact h4 x hx
      · obtain ⟨hx1, hx2⟩ := g4 x hx
        exact ⟨hx1, le_trans h3 hx2⟩

/-- Combined queue effect of the positive branch of `_process_trans_SIR_`:
the optional recovery insertion followed by the neighbor fold only appends
entries at or after the infection time with counters at least the starting
counter. -/
theorem recAddFoldSIR_append (time rec_t : ℚ) (node : Nat)
    (delays : List (Nat × ℚ)) (Q : myQueue EDEvent) (pred : Nat → QI)
    (hge : time ≤ rec_t) (hpos : ∀ p ∈ delays, 0 ≤ p.2) :
    ∃ added,
      (delays.foldl (transSIRstep Q.tmax time rec_t)
          (if (rec_t : QI) ≤ Q.tmax then Q.add rec_t (.recover node) else Q,
            pred)).1.Q = Q.Q ++ added ∧
      (delays.foldl (transSIRstep Q.tmax time rec_t)
          (if (rec_t : QI) ≤ Q.tmax then Q.add rec_t (.recover node) else Q,
            pred)).1.tmax = Q.tmax ∧
      Q.counter ≤
        (delays.foldl (transSIRstep Q.tmax time rec_t)
          (if (rec_t : QI) ≤ Q.tmax then Q.add rec_t (.recover node) else Q,
            pred)).1.counter ∧
      ∀ x ∈ added, time ≤ x.1 ∧ Q.counter ≤ x.2.1 := by
  split
  · obtain ⟨app, ha1, ha2, ha3, ha4⟩ :=
      myQueue.add_append Q rec_t (.recover node)
    obtain ⟨added, h1, h2, h3, h4⟩ := transSIRfold_append Q.tmax time rec_t
      delays (Q.add rec_t (.recover node)) pred hpos
    refine ⟨app ++ added, ?_, ?_, ?_, ?_⟩
    · rw [← List.append_assoc, ← ha1]
      exact h1
    · exact h2.trans ha2
    · exact le_trans ha3 h3
    · intro x hx
      rcases List.mem_append.mp hx with hx | hx
      · obtain ⟨hx1, hx2⟩ := ha4 x hx
        exact ⟨by rw [hx1]; exact hge, le_of_eq hx2.symm⟩
      · obtain ⟨hx1, hx2⟩ := h4 x hx
        exact ⟨hx1, le_trans ha3 hx2⟩
  · exact transSIRfold_append Q.tmax time rec_t delays Q pred hpos

/-- Combined queue effect of the positive branch of
`_process_trans_SIS_nonMarkov_`. -/
theorem recAddFoldSIS_append (time rec_t : ℚ) (target : Nat) (l : List Nat)
    (trans_delays : Nat → List ℚ) (status' : Nat → Status)
    (rec_time' : Nat → ℚ) (Q : myQueue SISEvent)
    (hge : time ≤ rec_t) (hd : ∀ v, ∀ d ∈ trans_delays v, 0 ≤ d) :
    ∃ added,
      (l.foldl (sisTransStep time trans_delays status' rec_time')
          (if (rec_t : QI) < Q.tmax then Q.add rec_t (.recover target)
            else Q)).Q = Q.Q ++ added ∧
      (l.foldl (sisTransStep time trans_delays status' rec_time')
          (if (rec_t : QI) < Q.tmax then Q.add rec_t (.recover target)
            else Q)).tmax = Q.tmax ∧
      Q.counter ≤
        (l.foldl (sisTransStep time trans_delays status' rec_time')
          (if (rec_t : QI) < Q.tmax then Q.add rec_t (.recover target)
            else Q)).counter ∧
      ∀ x ∈ added, time ≤ x.1 ∧ Q.counter ≤ x.2.1 := by
  split
  · obtain ⟨app, ha1, ha2, ha3, ha4⟩ :=
      myQueue.add_append Q rec_t (.recover target)
    obtain ⟨added, h1, h2, h3, h4⟩ := sisTransFold_append time trans_delays
      status' rec_time' hd l (Q.add rec_t (.recover target))
    refine ⟨app ++ added, ?_, ?_, ?_, ?_⟩
    · rw [← List.append_assoc, ← ha1]
      exact h1
    · exact h2.trans ha2
    · exact le_trans ha3 h3
    · intro x hx
      rcases List.mem_append.mp hx with hx | hx
      · obtain ⟨hx1, hx2⟩ := ha4 x hx
        exact ⟨by rw [hx1]; exact hge, le_of_eq hx2.symm⟩
      · obtain ⟨hx1, hx2⟩ := h4 x hx
        exact ⟨hx1, le_trans ha3 hx2⟩
  · exact sisTransFold_append time trans_delays status' rec_time' hd l Q

/-- Seed-event effect of `_process_trans_SIR_` on a still-susceptible
target: exactly one row is appended at the event time, the target is
infected, and the queue only grows by entries at or after that time with
counters at least the current one. -/
theorem process_trans_SIR_seed (G : Graph)
    (tif : Nat → List Nat → List (Nat × ℚ) × ℚ) (time : ℚ) (node : Nat)
    (st st' : EDState)
    (hdel : ∀ nd nbrs, 0 ≤ (tif nd nbrs).2 ∧ ∀ p ∈ (tif nd nbrs).1, 0 ≤ p.2)
    (hS : st.status node = .S)
    (h : process_trans_SIR G tif time node st = .ok st') :
    st'.times = st.times ++ [time] ∧
    st'.status = Function.update st.status node .I ∧
    ∃ added, st'.Q.Q = st.Q.Q ++ added ∧ st'.Q.tmax = st.Q.tmax ∧
      st.Q.counter ≤ st'.Q.counter ∧
      ∀ x ∈ added, time ≤ x.1 ∧ st.Q.counter ≤ x.2.1 := by
  unfold process_trans_SIR at h
  dsimp only at h
  rw [if_pos hS] at h
  obtain ⟨S', hS2, h⟩ := exceptBind_ok h
  obtain ⟨I', hI2, h⟩ := exceptBind_ok h
  obtain ⟨R', hR, h⟩ := exceptBind_ok h
  have hst' := (Except.ok.inj h).symm
  subst hst'
  refine ⟨rfl, rfl, ?_⟩
  have hge : time ≤ Function.update st.rec_time node
      (time + (tif node ((G.neighbors node).filter
        (fun v => Function.update st.status node .I v = .S))).2) node := by
    rw [Function.update_same]
    have := (hdel node ((G.neighbors node).filter
      (fun v => Function.update st.status node .I v = .S))).1
    linarith
  exact recAddFoldSIR_append time _ node _ st.Q st.pred_inf_time hge
    (hdel node ((G.neighbors node).filter
      (fun v => Function.update st.status node .I v = .S))).2

/-- Seed-event effect of `_process_trans_SIS_nonMarkov_` on a
still-susceptible target with an empty stored future list. -/
theorem process_trans_SIS_seed (G : Graph)
    (tif : Nat → List Nat → (Nat → List ℚ) × ℚ) (time : ℚ) (target : Nat)
    (st st' : SISState)
    (hdel : ∀ nd nbrs, 0 ≤ (tif nd nbrs).2 ∧
      ∀ v, (∀ d ∈ (tif nd nbrs).1 v, 0 ≤ d) ∧
        ((tif nd nbrs).1 v).Pairwise (· ≤ ·))
    (hS : st.status target = .S)
    (h : process_trans_SIS_nonMarkov G tif time target [] st = .ok st') :
    st'.times = st.times ++ [time] ∧
    st'.status = Function.update st.status target .I ∧
    ∃ added, st'.Q.Q = st.Q.Q ++ added ∧ st'.Q.tmax = st.Q.tmax ∧
      st.Q.counter ≤ st'.Q.counter ∧
      ∀ x ∈ added, time ≤ x.1 ∧ st.Q.counter ≤ x.2.1 := by
  unfold process_trans_SIS_nonMarkov at h
  dsimp only at h
  rw [if_pos hS] at h
  obtain ⟨I', hI2, h⟩ := exceptBind_ok h
  obtain ⟨S', hS2, h⟩ := exceptBind_ok h
  obtain ⟨st1, hpure1, h⟩ := exceptBind_ok h
  have hst1 := (Except.ok.inj hpure1).symm
  subst hst1
  rw [List.filter_nil] at h
  have hst' := (Except.ok.inj h).symm
  subst hst'
  refine ⟨rfl, rfl, ?_⟩
  have hge : time ≤ Function.update st.rec_time target
      (time + (tif target (G.neighbors target)).2) target := by
    rw [Function.update_same]
    have := (hdel target (G.neighbors target)).1
    linarith
  exact recAddFoldSIS_append time _ target (G.neighbors target)
    (tif target (G.neighbors target)).1 (Function.update st.status target .I)
    (Function.update st.rec_time target
      (time + (tif target (G.neighbors target)).2)) st.Q hge
    (fun v => ((hdel target (G.neighbors target)).2 v).1)

/-- The drain loop only ever appends to the recorded time column. -/
theorem edRunSIR_extend (G : Graph)
    (tif : Nat → List Nat → List (Nat × ℚ) × ℚ) :
    ∀ (fuel : Nat) (st st' : EDState), edRunSIR G tif fuel st = .ok st' →
      ∃ tail, st'.times = st.times ++ tail := by
  intro fuel
  induction fuel with
  | zero =>
    intro st st' h
    have he : st = st' := Except.ok.inj h
    subst he
    exact ⟨[], (List.append_nil _).symm⟩
  | succ fuel ih =>
    intro st st' h
    unfold edRunSIR at h
    by_cases hemp : st.Q.Q.isEmpty = true
    · rw [if_pos hemp] at h
      have he : st = st' := Except.ok.inj h
      subst he
      exact ⟨[], (List.append_nil _).symm⟩
    · rw [if_neg hemp] at h
      obtain ⟨st1, hstep, h⟩ := exceptBind_ok h
      obtain ⟨tail1, h1⟩ := ih st1 st' h
      rcases edStepSIR_cols G tif st st1 hstep with heq | hshape
      · obtain ⟨ht, -⟩ := heq
        exact ⟨tail1, by rw [h1, ht]⟩
      · obtain ⟨t, s0, i0, r0, a, -, -, -, ht, -⟩ := hshape
        refine ⟨[t] ++ tail1, ?_⟩
        rw [h1, ht, List.append_assoc]

theorem edRunSIS_extend (G : Graph)
    (tif : Nat → List Nat → (Nat → List ℚ) × ℚ) :
    ∀ (fuel : Nat) (st st' : SISState), edRunSIS G tif fuel st = .ok st' →
      ∃ tail, st'.times = st.times ++ tail := by
  intro fuel
  induction fuel with
  | zero =>
    intro st st' h
    have he : st = st' := Except.ok.inj h
    subst he
    exact ⟨[], (List.append_nil _).symm⟩
  | succ fuel ih =>
    intro st st' h
    unfold edRunSIS at h
    by_cases hemp : st.Q.Q.isEmpty = true
    · rw [if_pos hemp] at h
      have he : st = st' := Except.ok.inj h
      subst he
      exact ⟨[], (List.append_nil _).symm⟩
    · rw [if_neg hemp] at h
      obtain ⟨st1, hstep, h⟩ := exceptBind_ok h
      obtain ⟨tail1, h1⟩ := ih st1 st' h
      rcases edStepSIS_cols G tif st st1 hstep with heq | hshape
      · obtain ⟨ht, -⟩ := heq
        exact ⟨tail1, by rw [h1, ht]⟩
      · obtain ⟨t, s0, i0, a, -, -, -, ht, -⟩ := hshape
        refine ⟨[t] ++ tail1, ?_⟩
        rw [h1, ht, List.append_assoc]

/-- Seeds fire first: starting from a state whose queue holds the seed
entries (all at `tmin`, with the smallest counters) plus only entries that
are later in the heap order, the drain loop processes every seed before
anything else, appending one `tmin` row per seed. -/
theorem seedPhaseSIR (G : Graph)
    (tif : Nat → List Nat → List (Nat × ℚ) × ℚ) (tmin : ℚ)
    (hdel : ∀ nd nbrs, 0 ≤ (tif nd nbrs).2 ∧ ∀ p ∈ (tif nd nbrs).1, 0 ≤ p.2) :
    ∀ (rem : List Nat) (c0 fuel : Nat) (st st' : EDState)
      (extras : List (ℚ × Nat × EDEvent)),
      rem.length ≤ fuel → rem.Nodup →
      (∀ u ∈ rem, st.status u = .S) →
      st.Q.Q.Perm (seedEntriesSIR tmin c0 rem ++ extras) →
      (∀ x ∈ extras, tmin ≤ x.1 ∧
        (x.1 = tmin → c0 + rem.length ≤ x.2.1)) →
      c0 + rem.length ≤ st.Q.counter →
      edRunSIR G tif fuel st = .ok st' →
      ∃ tail, st'.times
        = st.times ++ List.replicate rem.length tmin ++ tail := by
  intro rem
  induction rem with
  | nil =>
    intro c0 fuel st st' extras hfu hnd hstat hperm hex hcnt h
    obtain ⟨tail, htail⟩ := edRunSIR_extend G tif fuel st st' h
    refine ⟨tail, ?_⟩
    simp only [List.length_nil, List.replicate_zero, List.append_nil]
    exact htail
  | cons u rest ih =>
    intro c0 fuel st st' extras hfu hnd hstat hperm hex hcnt h
    cases fuel with
    | zero =>
      rw [List.length_cons] at hfu
      omega
    | succ f =>
      have hperm2 : st.Q.Q.Perm ((tmin, c0, EDEvent.trans u) ::
          (seedEntriesSIR tmin (c0 + 1) rest ++ extras)) := by
        have hE : seedEntriesSIR tmin c0 (u :: rest) ++ extras
            = (tmin, c0, EDEvent.trans u) ::
              (seedEntriesSIR tmin (c0 + 1) rest ++ extras) := by
          simp only [seedEntriesSIR, List.cons_append]
        rw [hE] at hperm
        exact hperm
      have hne : ¬ st.Q.Q.isEmpty = true := by
        intro hemp
        have h0 := List.isEmpty_iff.mp hemp
        rw [h0] at hperm2
        exact absurd hperm2.symm.eq_nil (List.cons_ne_nil _ _)
      unfold edRunSIR at h
      rw [if_neg hne] at h
      obtain ⟨st1, hstep, h⟩ := exceptBind_ok h
      unfold edStepSIR at hstep
      dsimp only at hstep
      obtain ⟨pq, hpop, hstep⟩ := exceptBind_ok hstep
      obtain ⟨⟨tq, cq, ev⟩, Q1⟩ := pq
      dsimp only at hstep
      obtain ⟨hmem, hsub, hmin, hq1t, hq1c⟩ := myQueue.pop_spec st.Q _ _ hpop
      have hpp := myQueue.pop_perm st.Q _ _ hpop
      have hdom : ∀ x ∈ seedEntriesSIR tmin (c0 + 1) rest ++ extras,
          myQueue.keyLt ((tmin, c0, EDEvent.trans u) : ℚ × Nat × EDEvent)
            x := by
        intro x hx
        rcases List.mem_append.mp hx with hx | hx
        · obtain ⟨hx1, hx2⟩ := seedEntriesSIR_mem tmin rest (c0 + 1) x hx
          refine Or.inr ⟨hx1.symm, ?_⟩
          show c0 < x.2.1
          omega
        · obtain ⟨hx1, hx2⟩ := hex x hx
          rcases lt_or_eq_of_le hx1 with hlt | heq
          · exact Or.inl hlt
          · refine Or.inr ⟨heq, ?_⟩
            have h2 := hx2 heq.symm
            rw [List.length_cons] at h2
            show c0 < x.2.1
            omega
      have hmE : ((tq, cq, ev) : ℚ × Nat × EDEvent)
          = (tmin, c0, EDEvent.trans u) := by
        have hmem2 := hperm2.mem_iff.mp hmem
        rcases List.mem_cons.mp hmem2 with h1 | h1
        · exact h1
        · exact absurd (hdom _ h1)
            (hmin _ (hperm2.mem_iff.mpr (List.mem_cons_self _ _)))
      rw [Prod.mk.injEq, Prod.mk.injEq] at hmE
      obtain ⟨hmt, hmc, hmev⟩ := hmE
      have hmt2 : tmin = tq := hmt.symm
      subst hmt2
      have hmc2 : c0 = cq := hmc.symm
      subst hmc2
      subst hmev
      have hq1perm : Q1.Q.Perm
          (seedEntriesSIR tmin (c0 + 1) rest ++ extras) :=
        (hpp.trans hperm2).cons_inv
      have hSu : ({ st with Q := Q1 } : EDState).status u = .S :=
        hstat u (List.mem_cons_self u rest)
      obtain ⟨ht1, hstat1, added, hQ1a, hQ1t, hQ1c, hQadd⟩ :=
        process_trans_SIR_seed G tif tmin u { st with Q := Q1 } st1 hdel hSu
          hstep
      have hfu' : rest.length ≤ f := by
        rw [List.length_cons] at hfu
        omega
      have hndu := List.nodup_cons.mp hnd
      have hstat' : ∀ w ∈ rest, st1.status w = .S := by
        intro w hw
        have hwu : w ≠ u := by
          intro hEq
          rw [hEq] at hw
          exact hndu.1 hw
        rw [hstat1, Function.update_noteq hwu]
        exact hstat w (List.mem_cons_of_mem u hw)
      have hpermNext : st1.Q.Q.Perm
          (seedEntriesSIR tmin (c0 + 1) rest ++ (extras ++ added)) := by
        rw [hQ1a, ← List.append_assoc]
        exact hq1perm.append_right added
      have hcc : ({ st with Q := Q1 } : EDState).Q.counter = st.Q.counter :=
        hq1c
      have hcnt' := hcnt
      rw [List.length_cons] at hcnt'
      have hexNext : ∀ x ∈ extras ++ added, tmin ≤ x.1 ∧
          (x.1 = tmin → (c0 + 1) + rest.length ≤ x.2.1) := by
        intro x hx
        rcases List.mem_append.mp hx with hx | hx
        · obtain ⟨h1, h2⟩ := hex x hx
          refine ⟨h1, fun hEq => ?_⟩
          have h3 := h2 hEq
          rw [List.length_cons] at h3
          omega
        · obtain ⟨h1, h2⟩ := hQadd x hx
          have h2a : Q1.counter ≤ x.2.1 := h2
          rw [hq1c] at h2a
          exact ⟨h1, fun _ => by omega⟩
      have hcntNext : (c0 + 1) + rest.length ≤ st1.Q.counter := by
        have hc1 : Q1.counter ≤ st1.Q.counter := hQ1c
        rw [hq1c] at hc1
        omega
      obtain ⟨tail, htail⟩ := ih (c0 + 1) f st1 st' (extras ++ added)
        hfu' hndu.2 hstat' hpermNext hexNext hcntNext h
      refine ⟨tail, ?_⟩
      rw [htail, ht1]
      congr 1
      rw [List.length_cons, List.replicate_succ, List.append_assoc]
      rfl

theorem seedPhaseSIS (G : Graph)
    (tif : Nat → List Nat → (Nat → List ℚ) × ℚ) (tmin : ℚ)
    (hdel : ∀ nd nbrs, 0 ≤ (tif nd nbrs).2 ∧
      ∀ v, (∀ d ∈ (tif nd nbrs).1 v, 0 ≤ d) ∧
        ((tif nd nbrs).1 v).Pairwise (· ≤ ·)) :
    ∀ (rem : List Nat) (c0 fuel : Nat) (st st' : SISState)
      (extras : List (ℚ × Nat × SISEvent)),
      rem.length ≤ fuel → rem.Nodup →
      (∀ u ∈ rem, st.status u = .S) →
      st.Q.Q.Perm (seedEntriesSIS tmin c0 rem ++ extras) →
      (∀ x ∈ extras, tmin ≤ x.1 ∧
        (x.1 = tmin → c0 + rem.length ≤ x.2.1)) →
      c0 + rem.length ≤ st.Q.counter →
      edRunSIS G tif fuel st = .ok st' →
      ∃ tail, st'.times
        = st.times ++ List.replicate rem.length tmin ++ tail := by
  intro rem
  induction rem with
  | nil =>
    intro c0 fuel st st' extras hfu hnd hstat hperm hex hcnt h
    obtain ⟨tail, htail⟩ := edRunSIS_extend G tif fuel st st' h
    refine ⟨tail, ?_⟩
    simp only [List.length_nil, List.replicate_zero, List.append_nil]
    exact htail
  | cons u rest ih =>
    intro c0 fuel st st' extras hfu hnd hstat hperm hex hcnt h
    cases fuel with
    | zero =>
      rw [List.length_cons] at hfu
      omega
    | succ f =>
      have hperm2 : st.Q.Q.Perm ((tmin, c0, SISEvent.trans u []) ::
          (seedEntriesSIS tmin (c0 + 1) rest ++ extras)) := by
        have hE : seedEntriesSIS tmin c0 (u :: rest) ++ extras
            = (tmin, c0, SISEvent.trans u []) ::
              (seedEntriesSIS tmin (c0 + 1) rest ++ extras) := by
          simp only [seedEntriesSIS, List.cons_append]
        rw [hE] at hperm
        exact hperm
      have hne : ¬ st.Q.Q.isEmpty = true := by
        intro hemp
        have h0 := List.isEmpty_iff.mp hemp
        rw [h0] at hperm2
        exact absurd hperm2.symm.eq_nil (List.cons_ne_nil _ _)
      unfold edRunSIS at h
      rw [if_neg hne] at h
      obtain ⟨st1, hstep, h⟩ := exceptBind_ok h
      unfold edStepSIS at hstep
      dsimp only at hstep
      obtain ⟨pq, hpop, hstep⟩ := exceptBind_ok hstep
      obtain ⟨⟨tq, cq, ev⟩, Q1⟩ := pq
      dsimp only at hstep
      obtain ⟨hmem, hsub, hmin, hq1t, hq1c⟩ := myQueue.pop_spec st.Q _ _ hpop
      have hpp := myQueue.pop_perm st.Q _ _ hpop
      have hdom : ∀ x ∈ seedEntriesSIS tmin (c0 + 1) rest ++ extras,
          myQueue.keyLt ((tmin, c0, SISEvent.trans u []) : ℚ × Nat × SISEvent)
            x := by
        intro x hx
        rcases List.mem_append.mp hx with hx | hx
        · obtain ⟨hx1, hx2, -⟩ := seedEntriesSIS_mem tmin rest (c0 + 1) x hx
          refine Or.inr ⟨hx1.symm, ?_⟩
          show c0 < x.2.1
          omega
        · obtain ⟨hx1, hx2⟩ := hex x hx
          rcases lt_or_eq_of_le hx1 with hlt | heq
          · exact Or.inl hlt
          · refine Or.inr ⟨heq, ?_⟩
            have h2 := hx2 heq.symm
            rw [List.length_cons] at h2
            show c0 < x.2.1
            omega
      have hmE : ((tq, cq, ev) : ℚ × Nat × SISEvent)
          = (tmin, c0, SISEvent.trans u []) := by
        have hmem2 := hperm2.mem_iff.mp hmem
        rcases List.mem_cons.mp hmem2 with h1 | h1
        · exact h1
        · exact absurd (hdom _ h1)
            (hmin _ (hperm2.mem_iff.mpr (List.mem_cons_self _ _)))
      rw [Prod.mk.injEq, Prod.mk.injEq] at hmE
      obtain ⟨hmt, hmc, hmev⟩ := hmE
      have hmt2 : tmin = tq := hmt.symm
      subst hmt2
      have hmc2 : c0 = cq := hmc.symm
      subst hmc2
      subst hmev
      have hq1perm : Q1.Q.Perm
          (seedEntriesSIS tmin (c0 + 1) rest ++ extras) :=
        (hpp.trans hperm2).cons_inv
      have hSu : ({ st with Q := Q1 } : SISState).status u = .S :=
        hstat u (List.mem_cons_self u rest)
      obtain ⟨ht1, hstat1, added, hQ1a, hQ1t, hQ1c, hQadd⟩ :=
        process_trans_SIS_seed G tif tmin u { st with Q := Q1 } st1 hdel hSu
          hstep
      have hfu' : rest.length ≤ f := by
        rw [List.length_cons] at hfu
        omega
      have hndu := List.nodup_cons.mp hnd
      have hstat' : ∀ w ∈ rest, st1.status w = .S := by
        intro w hw
        have hwu : w ≠ u := by
          intro hEq
          rw [hEq] at hw
          exact hndu.1 hw
        rw [hstat1, Function.update_noteq hwu]
        exact hstat w (List.mem_cons_of_mem u hw)
      have hpermNext : st1.Q.Q.Perm
          (seedEntriesSIS tmin (c0 + 1) rest ++ (extras ++ added)) := by
        rw [hQ1a, ← List.append_assoc]
        exact hq1perm.append_right added
      have hcc : ({ st with Q := Q1 } : SISState).Q.counter = st.Q.counter :=
        hq1c
      have hcnt' := hcnt
      rw [List.length_cons] at hcnt'
      have hexNext : ∀ x ∈ extras ++ added, tmin ≤ x.1 ∧
          (x.1 = tmin → (c0 + 1) + rest.length ≤ x.2.1) := by
        intro x hx
        rcases List.mem_append.mp hx with hx | hx
        · obtain ⟨h1, h2⟩ := hex x hx
          refine ⟨h1, fun hEq => ?_⟩
          have h3 := h2 hEq
          rw [List.length_cons] at h3
          omega
        · obtain ⟨h1, h2⟩ := hQadd x hx
          have h2a : Q1.counter ≤ x.2.1 := h2
          rw [hq1c] at h2a
          exact ⟨h1, fun _ => by omega⟩
      have hcntNext : (c0 + 1) + rest.length ≤ st1.Q.counter := by
        have hc1 : Q1.counter ≤ st1.Q.counter := hQ1c
        rw [hq1c] at hc1
        omega
      obtain ⟨tail, htail⟩ := ih (c0 + 1) f st1 st' (extras ++ added)
        hfu' hndu.2 hstat' hpermNext hexNext hcntNext h
      refine ⟨tail, ?_⟩
      rw [htail, ht1]
      congr 1
      rw [List.length_cons, List.replicate_succ, List.append_assoc]
      rfl

theorem drop_replicate_append (a : ℚ) :
    ∀ (n : Nat) (tail : List ℚ),
      (List.replicate (n + 1) a ++ tail).drop n = a :: tail := by
  intro n
  induction n with
  | zero => intro tail; rfl
  | succ n ih =>
    intro tail
    rw [List.replicate_succ, List.cons_append, List.drop_succ_cons]
    exact ih tail

/-- `fast_nonMarkov_SIR` returns a time column that itself satisfies
`timesOK`: the seeds fire first, contributing exactly the dropped prefix
plus one surviving `tmin` row. -/
theorem fastNonMarkovSIR_timesOK (G : Graph)
    (tif : Nat → List Nat → List (Nat × ℚ) × ℚ)
    (iinf irec : Option (List Nat)) (rho : Option ℚ) (sOr : List Nat)
    (tmin : ℚ) (tmax : QI) (fuel : Nat) (T : RunTable)
    (hdel : ∀ nd nbrs, 0 ≤ (tif nd nbrs).2 ∧ ∀ p ∈ (tif nd nbrs).1, 0 ≤ p.2)
    (hnd : (iinf.getD sOr).Nodup)
    (hdisj : ∀ v ∈ irec.getD [], v ∉ iinf.getD sOr)
    (htm : ((tmin : ℚ) : QI) < tmax)
    (hfuel : (iinf.getD sOr).length ≤ fuel)
    (h : fastNonMarkovSIR G tif iinf irec rho sOr tmin tmax fuel = .ok T) :
    timesOK tmin tmax T.times := by
  unfold fastNonMarkovSIR at h
  dsimp only at h
  by_cases h1 : fast_nonMarkov_SIR_raises rho iinf = true
  · rw [if_pos h1] at h
    obtain ⟨u, hu, -⟩ := exceptBind_ok h
    cases hu
  · rw [if_neg h1] at h
    obtain ⟨u1, -, h⟩ := exceptBind_ok h
    by_cases h2 : (truthyRho rho && truthyNodes irec) = true
    · rw [if_pos h2] at h
      obtain ⟨u, hu, -⟩ := exceptBind_ok h
      cases hu
    · rw [if_neg h2] at h
      obtain ⟨u2, -, h⟩ := exceptBind_ok h
      revert h
      cases hqp : (iinf.getD sOr).foldl
          (fun (acc : myQueue EDEvent × (Nat → QI)) u =>
            (acc.1.add tmin (.trans u), Function.update acc.2 u (tmin : QI)))
          (myQueue.init EDEvent tmax, fun _ => (⊤ : QI)) with
      | mk Q0 pred1 =>
        intro h
        obtain ⟨stf, hrun, h⟩ := exceptBind_ok h
        have hT := (Except.ok.inj h).symm
        have hQ0eq : Q0 = (iinf.getD sOr).foldl
            (fun (Q : myQueue EDEvent) u => Q.add tmin (.trans u))
            (myQueue.init EDEvent tmax) := by
          have hp := pairFoldSIR_fst tmin (iinf.getD sOr)
            (myQueue.init EDEvent tmax) (fun _ => (⊤ : QI))
          rw [hqp] at hp
          exact hp
        have hseed := seedFoldSIR_Q tmin (iinf.getD sOr)
          (myQueue.init EDEvent tmax) htm
        have hinv0 : edTimesInv tmin tmax [tmin] Q0 := by
          refine ⟨⟨List.chain'_singleton tmin, rfl, ?_⟩, ?_, tmin, rfl, ?_⟩
          · intro t ht
            rw [List.mem_singleton] at ht
            rw [ht]
            exact ⟨le_refl tmin, le_of_lt htm⟩
          · rw [hQ0eq]
            exact hseed.2.2
          · intro e he
            rw [hQ0eq, hseed.1] at he
            have hinit : (myQueue.init EDEvent tmax).Q = [] := rfl
            rw [hinit, List.nil_append] at he
            obtain ⟨he1, he2⟩ := seedEntriesSIR_mem tmin (iinf.getD sOr) _ e he
            refine ⟨le_of_eq he1.symm, ?_⟩
            rw [he1]
            exact htm
        obtain ⟨hOKf, -, -, -, -⟩ := edRunSIR_times G tif tmin tmax hdel fuel
          _ stf hrun hinv0
        have hstatSt : ∀ u ∈ iinf.getD sOr,
            ((irec.getD []).foldl (fun st v => Function.update st v Status.R)
              (fun _ => Status.S)) u = Status.S := by
          intro u hu
          rw [foldl_update_status, if_neg (fun hin => hdisj u hin hu)]
        have hpermSt : Q0.Q.Perm
            (seedEntriesSIR tmin 0 (iinf.getD sOr) ++ []) := by
          rw [List.append_nil, hQ0eq, hseed.1]
          exact List.Perm.refl _
        have hcntSt : 0 + (iinf.getD sOr).length ≤ Q0.counter := by
          rw [hQ0eq, hseed.2.1]
          exact le_refl _
        obtain ⟨tail, htail⟩ := seedPhaseSIR G tif tmin hdel (iinf.getD sOr)
          0 fuel _ stf [] hfuel hnd hstatSt hpermSt
          (fun x hx => absurd hx (List.not_mem_nil x)) hcntSt hrun
        subst hT
        dsimp only
        obtain ⟨hch, hhd, hbd⟩ := hOKf
        refine ⟨hch.drop _, ?_, ?_⟩
        · have htimes : stf.times
              = List.replicate ((iinf.getD sOr).length + 1) tmin ++ tail := by
            rw [htail, List.replicate_succ, List.cons_append]
            rfl
          rw [htimes, drop_replicate_append]
          rfl
        · intro t ht
          exact hbd t (List.drop_subset _ _ ht)

theorem fastNonMarkovSIS_timesOK (G : Graph)
    (tif : Nat → List Nat → (Nat → List ℚ) × ℚ)
    (iinf : Option (List Nat)) (rho : Option ℚ) (sOr : List Nat)
    (tmin : ℚ) (tmax : QI) (fuel : Nat) (T : SISTable)
    (hdel : ∀ nd nbrs, 0 ≤ (tif nd nbrs).2 ∧
      ∀ v, (∀ d ∈ (tif nd nbrs).1 v, 0 ≤ d) ∧
        ((tif nd nbrs).1 v).Pairwise (· ≤ ·))
    (hnd : (iinf.getD sOr).Nodup)
    (htm : ((tmin : ℚ) : QI) < tmax)
    (hfuel : (iinf.getD sOr).length ≤ fuel)
    (h : fastNonMarkovSIS G tif iinf rho sOr tmin tmax fuel = .ok T) :
    timesOK tmin tmax T.times := by
  unfold fastNonMarkovSIS at h
  dsimp only at h
  by_cases h1 : fast_nonMarkov_SIS_raises rho iinf = true
  · rw [if_pos h1] at h
    obtain ⟨u, hu, -⟩ := exceptBind_ok h
    cases hu
  · rw [if_neg h1] at h
    obtain ⟨u1, -, h⟩ := exceptBind_ok h
    obtain ⟨stf, hrun, h⟩ := exceptBind_ok h
    have hT := (Except.ok.inj h).symm
    have hseed := seedFoldSIS_Q tmin (iinf.getD sOr)
      (myQueue.init SISEvent tmax) htm
    have hinv0 : sisTimesInv tmin tmax [tmin]
        ((iinf.getD sOr).foldl
          (fun (Q : myQueue SISEvent) u => Q.add tmin (.trans u []))
          (myQueue.init SISEvent tmax)) := by
      refine ⟨⟨List.chain'_singleton tmin, rfl, ?_⟩, hseed.2.2, tmin, rfl, ?_⟩
      · intro t ht
        rw [List.mem_singleton] at ht
        rw [ht]
        exact ⟨le_refl tmin, le_of_lt htm⟩
      · intro e he
        rw [hseed.1] at he
        have hinit : (myQueue.init SISEvent tmax).Q = [] := rfl
        rw [hinit, List.nil_append] at he
        obtain ⟨he1, he2, he3⟩ :=
          seedEntriesSIS_mem tmin (iinf.getD sOr) _ e he
        refine ⟨le_of_eq he1.symm, ?_, ?_, ?_⟩
        · rw [he1]
          exact htm
        · rw [he3]
          intro g hg
          exact absurd hg (List.not_mem_nil g)
        · rw [he3]
          exact List.Pairwise.nil
    obtain ⟨hOKf, -, -, -, -⟩ := edRunSIS_times G tif tmin tmax hdel fuel
      _ stf hrun hinv0
    have hpermSt : ((iinf.getD sOr).foldl
        (fun (Q : myQueue SISEvent) u => Q.add tmin (.trans u []))
        (myQueue.init SISEvent tmax)).Q.Perm
        (seedEntriesSIS tmin 0 (iinf.getD sOr) ++ []) := by
      rw [List.append_nil, hseed.1]
      exact List.Perm.refl _
    have hcntSt : 0 + (iinf.getD sOr).length ≤ ((iinf.getD sOr).foldl
        (fun (Q : myQueue SISEvent) u => Q.add tmin (.trans u []))
        (myQueue.init SISEvent tmax)).counter := by
      rw [hseed.2.1]
      exact le_refl _
    obtain ⟨tail, htail⟩ := seedPhaseSIS G tif tmin hdel (iinf.getD sOr)
      0 fuel _ stf [] hfuel hnd (fun u hu => rfl) hpermSt
      (fun x hx => absurd hx (List.not_mem_nil x)) hcntSt hrun
    subst hT
    dsimp only
    obtain ⟨hch, hhd, hbd⟩ := hOKf
    refine ⟨hch.drop _, ?_, ?_⟩
    · have htimes : stf.times
          = List.replicate ((iinf.getD sOr).length + 1) tmin ++ tail := by
        rw [htail, List.replicate_succ, List.cons_append]
        rfl
      rw [htimes, drop_replicate_append]
      rfl
    · intro t ht
      exact hbd t (List.drop_subset _ _ ht)

/-- C8: for every successful run of each modelled engine — under the natural
well-formedness of the inputs (non-negative transmission/recovery delays
and oracle waiting times, sorted per-neighbor delay lists for the SIS
joint form, duplicate-free seeds disjoint from the initial recovereds,
`tmin` strictly inside the horizon for the event-driven engines and enough
fuel to process every seed) — the returned sequence of event times is
non-decreasing, starts at `tmin`, and every entry stays within the horizon
`tmax`: the seeds of the two `fast_nonMarkov` engines all fire first at
`tmin`, so after the engines drop the first `len(initial_infecteds)` rows
the surviving column still begins with a `tmin` row. -/
theorem claim_C8_theorem :
    (∀ (G : Graph) (tif : Nat → List Nat → List (Nat × ℚ) × ℚ)
        (iinf irec : Option (List Nat)) (rho : Option ℚ) (sOr : List Nat)
        (tmin : ℚ) (tmax : QI) (fuel : Nat) (T : RunTable),
      (∀ nd nbrs, 0 ≤ (tif nd nbrs).2 ∧ ∀ p ∈ (tif nd nbrs).1, 0 ≤ p.2) →
      (iinf.getD sOr).Nodup →
      (∀ v ∈ irec.getD [], v ∉ iinf.getD sOr) →
      (tmin : QI) < tmax →
      (iinf.getD sOr).length ≤ fuel →
      fastNonMarkovSIR G tif iinf irec rho sOr tmin tmax fuel = .ok T →
      timesOK tmin tmax T.times) ∧
    (∀ (G : Graph) (tif : Nat → List Nat → (Nat → List ℚ) × ℚ)
        (iinf : Option (List Nat)) (rho : Option ℚ) (sOr : List Nat)
        (tmin : ℚ) (tmax : QI) (fuel : Nat) (T : SISTable),
      (∀ nd nbrs, 0 ≤ (tif nd nbrs).2 ∧
        ∀ v, (∀ d ∈ (tif nd nbrs).1 v, 0 ≤ d) ∧
          ((tif nd nbrs).1 v).Pairwise (· ≤ ·)) →
      (iinf.getD sOr).Nodup →
      (tmin : QI) < tmax →
      (iinf.getD sOr).length ≤ fuel →
      fastNonMarkovSIS G tif iinf rho sOr tmin tmax fuel = .ok T →
      timesOK tmin tmax T.times) ∧
    (∀ (G : Graph), G.Symm → ∀ (tau gamma : ℚ) (iinf irec : Option (List Nat))
        (rho : Option ℚ) (sOr : List Nat) (tmin : ℚ) (tmax : QI) (dt0 : ℚ)
        (oracle : List GOracle) (st : GState) (rest : List GOracle),
      (iinf.getD sOr).Nodup → (∀ v ∈ iinf.getD sOr, v < G.n) →
      (∀ v ∈ irec.getD [], v ∉ iinf.getD sOr) →
      0 ≤ dt0 → (∀ o ∈ oracle, 0 ≤ o.dt) → (tmin : QI) ≤ tmax →
      GillespieSIRrun G tau gamma iinf irec rho sOr tmin tmax dt0 oracle
        = .ok (st, rest) →
      timesOK tmin tmax st.times) ∧
    (∀ (G : Graph), G.Symm → ∀ (tau gamma : ℚ) (iinf : Option (List Nat))
        (rho : Option ℚ) (sOr : List Nat) (tmin : ℚ) (tmax : QI) (dt0 : ℚ)
        (oracle : List GOracle) (st : GState) (rest : List GOracle),
      (iinf.getD sOr).Nodup → (∀ v ∈ iinf.getD sOr, v < G.n) →
      0 ≤ dt0 → (∀ o ∈ oracle, 0 ≤ o.dt) → (tmin : QI) ≤ tmax →
      GillespieSISrun G tau gamma iinf rho sOr tmin tmax dt0 oracle
        = .ok (st, rest) →
      timesOK tmin tmax st.times) :=
  ⟨fun G tif iinf irec rho sOr tmin tmax fuel T hdel hnd hdisj htm hfuel h =>
      fastNonMarkovSIR_timesOK G tif iinf irec rho sOr tmin tmax fuel T
        hdel hnd hdisj htm hfuel h,
    fun G tif iinf rho sOr tmin tmax fuel T hdel hnd htm hfuel h =>
      fastNonMarkovSIS_timesOK G tif iinf rho sOr tmin tmax fuel T
        hdel hnd htm hfuel h,
    fun G hs tau gamma iinf irec rho sOr tmin tmax dt0 oracle st rest
        hnd hlt hdisj hdt0 hO htm h =>
      GillespieSIRrun_times G hs tau gamma iinf irec rho sOr tmin tmax dt0
        oracle st rest hnd hlt hdisj hdt0 hO htm h,
    fun G hs tau gamma iinf rho sOr tmin tmax dt0 oracle st rest
        hnd hlt hdt0 hO htm h =>
      GillespieSISrun_times G hs tau gamma iinf rho sOr tmin tmax dt0
        oracle st rest hnd hlt hdt0 hO htm h⟩

theorem claim_C8_witness :
    fastNonMarkovSIR oneNode pathDelays (some [0]) none none [] 0 (some 10) 3
      = .ok oneNodeSIRTable ∧
    ((some [0] : Option (List Nat)).getD []).Nodup ∧
    ((0 : ℚ) : QI) < some 10 ∧
    ((some [0] : Option (List Nat)).getD []).length ≤ 3 ∧
    timesOK 0 (some 10) oneNodeSIRTable.times ∧
    GillespieSIRrun pairGraph 1 1 (some [0]) (some []) none [] 0 (some 10) 1 []
      = .ok (pairInitState, []) ∧
    timesOK 0 (some 10) pairInitState.times := by
  have hdelF : ∀ nd nbrs, 0 ≤ (pathDelays nd nbrs).2 ∧
      ∀ p ∈ (pathDelays nd nbrs).1, 0 ≤ p.2 := by
    intro nd nbrs
    constructor
    · norm_num [pathDelays]
    · intro p hp
      simp only [pathDelays, List.mem_map] at hp
      obtain ⟨v, hv, hpv⟩ := hp
      rw [← hpv]
      norm_num
  have hrunF : fastNonMarkovSIR oneNode pathDelays (some [0]) none none [] 0
      (some 10) 3 = .ok oneNodeSIRTable := by
    with_unfolding_all rfl
  have hltQI : ((0 : ℚ) : QI) < some 10 := WithTop.coe_lt_coe.mpr (by norm_num)
  have hfast := claim_C8_theorem.1 oneNode pathDelays (some [0]) none none []
    0 (some 10) 3 oneNodeSIRTable hdelF (by decide) (by simp) hltQI
    (by decide) hrunF
  have hrunG : GillespieSIRrun pairGraph 1 1 (some [0]) (some []) none [] 0
      (some 10) 1 [] = .ok (pairInitState, []) := by
    with_unfolding_all rfl
  have htm : ((0 : ℚ) : QI) ≤ some 10 := le_of_lt hltQI
  have hmain := claim_C8_theorem.2.2.1 pairGraph pairGraph_symm 1 1
    (some [0]) (some []) none [] 0 (some 10) 1 [] pairInitState []
    (by decide) (by with_unfolding_all decide) (by simp)
    (by norm_num) (fun o ho => absurd ho (List.not_mem_nil o)) htm hrunG
  exact ⟨hrunF, by decide, hltQI, by decide, hfast, hrunG, hmain⟩

end EoN
